import Mathlib

/-!
# Name-registry consensus rules of huntercore (`src/names/main.cpp`)

A shallow embedding of `CNameTxUndo`, `CheckNameTransaction`,
`ApplyNameTransaction` and the name index `CNameMemPool`, followed by theorems
about them.

Conventions of the embedding.

* A `bool` function that can also fail an `assert` (or index a vector outside
  its bounds, which C++ leaves undefined) returns `Option Bool`:
  `some true` is "accepted", `some false` is "rejected" (`state.Invalid` or
  `error`), `none` is the abort.
* Inside a function body, `Flow α` distinguishes the three ways a block of
  statements can end: abort, early `return b`, or falling through with the
  locals `a`.
* Byte strings are lists of naturals, transaction ids are naturals, amounts
  (`CAmount`, a signed 64-bit integer that is only compared) are integers and
  heights are naturals.  Heights are below `2^31` and the chain constants are
  small, so the one sum the code forms (`coinsIn.nHeight +
  MIN_FIRSTUPDATE_DEPTH`) does not wrap in 32 bits.
* Declarations that live outside `src/` (chain constants, the script decoder,
  the coin/name view) are parameters or are modelled from the specification;
  each such definition says so.
-/

set_option autoImplicit false

namespace Names

/-! ## Data model -/

/-- Byte vector (`valtype`, a `std::vector<unsigned char>`). -/
abbrev valtype := List Nat

/-- Transaction hash. -/
abbrev uint256 := Nat

/-- Coin amount; only compared, never added. -/
abbrev CAmount := Int

/-- Locking script that remains once the name operation has been decoded. -/
abbrev CScript := List Nat

/-- Opcode stored in a decoded name script; `OP_NOP` marks "not a name
operation" (the default-constructed `CNameScript`). -/
inductive opcodetype where
  | OP_NOP
  | OP_NAME_NEW
  | OP_NAME_FIRSTUPDATE
  | OP_NAME_UPDATE
  deriving DecidableEq

/-- Modelled from the spec: the name-operation descriptor produced by the
name-script decoder (`script/names.h` is not part of the sources).  A tagged
variant over the three shapes of section 3, plus "non-name"; every shape keeps
the address script of the output. -/
inductive CNameScript where
  | NonName (address : CScript)
  | NameNew (hash : valtype) (address : CScript)
  | NameFirstUpdate (name rand value : valtype) (new_style : Bool) (address : CScript)
  | NameUpdate (name value : valtype) (address : CScript)
  deriving DecidableEq

namespace CNameScript

/-- Modelled from the spec: whether the script decoded to a name operation. -/
def isNameOp : CNameScript → Bool
  | NonName _ => false
  | _ => true

/-- Modelled from the spec: the opcode of the descriptor. -/
def getNameOp : CNameScript → opcodetype
  | NonName _ => .OP_NOP
  | NameNew _ _ => .OP_NAME_NEW
  | NameFirstUpdate _ _ _ _ _ => .OP_NAME_FIRSTUPDATE
  | NameUpdate _ _ _ => .OP_NAME_UPDATE

/-- Modelled from the spec: first-update or update ("any update"). -/
def isAnyUpdate : CNameScript → Bool
  | NameFirstUpdate _ _ _ _ _ => true
  | NameUpdate _ _ _ => true
  | _ => false

/-- Modelled from the spec: the name of a first-update or update; other
shapes carry no name (the accessor's precondition fails). -/
def getOpName : CNameScript → Option valtype
  | NameFirstUpdate name _ _ _ _ => some name
  | NameUpdate name _ _ => some name
  | _ => none

/-- Modelled from the spec: the value of a first-update or update. -/
def getOpValue : CNameScript → Option valtype
  | NameFirstUpdate _ _ value _ _ => some value
  | NameUpdate _ value _ => some value
  | _ => none

/-- Modelled from the spec: old-style versus new-style, defined for a
first-update only. -/
def isNewStyleRegistration : CNameScript → Option Bool
  | NameFirstUpdate _ _ _ new_style _ => some new_style
  | _ => none

/-- Modelled from the spec: the salt disclosed by an old-style first-update. -/
def getOpRand : CNameScript → Option valtype
  | NameFirstUpdate _ rand _ false _ => some rand
  | _ => none

/-- Modelled from the spec: the commitment carried by a `NameNew`. -/
def getOpHash : CNameScript → Option valtype
  | NameNew hash _ => some hash
  | _ => none

/-- Modelled from the spec: the address script of the output. -/
def getAddress : CNameScript → CScript
  | NonName a => a
  | NameNew _ a => a
  | NameFirstUpdate _ _ _ _ a => a
  | NameUpdate _ _ a => a

end CNameScript

/-- Reference to one output of a transaction. -/
structure COutPoint where
  hash : uint256
  n : Nat
  deriving DecidableEq

/-- Transaction input; only the spent outpoint matters here. -/
structure CTxIn where
  prevout : COutPoint
  deriving DecidableEq

/-- Transaction output; `scriptPubKey` is kept in decoded form (the decoder is
a pure function of the script). -/
structure CTxOut where
  nValue : CAmount
  scriptPubKey : CNameScript
  deriving DecidableEq

/-- Transaction: its hash, its Namecoin flag, inputs and outputs. -/
structure CTransaction where
  GetHash : uint256
  IsNamecoin : Bool
  vin : List CTxIn
  vout : List CTxOut
  deriving DecidableEq

/-- Unspent outputs of one transaction, with the height it was mined at. -/
structure CCoins where
  vout : List CTxOut
  nHeight : Nat
  deriving DecidableEq

/-- Modelled from the spec: the name record `NameData` of section 3
(`names/common.h` is not part of the sources). -/
structure CNameData where
  value : valtype
  height : Nat
  update_outpoint : COutPoint
  address_script : CScript
  dead : Bool
  deriving DecidableEq

namespace CNameData

/-- Default-constructed record, the content of `oldData` when the lookup
found nothing. -/
def null : CNameData := ⟨[], 0, ⟨0, 0⟩, [], false⟩

def isDead (d : CNameData) : Bool := d.dead

def getHeight (d : CNameData) : Nat := d.height

def getUpdateOutpoint (d : CNameData) : COutPoint := d.update_outpoint

/-- Modelled from the spec: "Build a fresh `NameData { value, height,
update_outpoint = (txid, output_index), address_script }`"; defined for a
first-update or update only. -/
def fromScript (h : Nat) (out : COutPoint) (op : CNameScript) : Option CNameData :=
  match op.getOpValue with
  | some v => some ⟨v, h, out, op.getAddress, false⟩
  | none => none

end CNameData

/-- Disposition of a historic bug.  Modelled from the spec
(`ChainParams.is_historic_bug`, disposition in FULLY_IGNORE, FULLY_APPLY,
other); `chainparams.h` is not part of the sources. -/
inductive BugType where
  | BUG_FULLY_APPLY
  | BUG_FULLY_IGNORE
  | BUG_OTHER
  deriving DecidableEq

/-- What `main.cpp` takes from headers outside `src/`: the historic-bug table,
the hash function, the chain constants and the script flag bit. -/
structure Params where
  IsHistoricBug : uint256 → Nat → Option BugType
  Hash160 : valtype → valtype
  MAX_NAME_LENGTH : Nat
  MAX_VALUE_LENGTH : Nat
  MIN_FIRSTUPDATE_DEPTH : Nat
  NAMENEW_COIN_AMOUNT : CAmount
  MEMPOOL_HEIGHT : Nat
  SCRIPT_VERIFY_NAMES_MEMPOOL : Nat

/-! ## The coin and name view -/

/-- Modelled from the spec: the view of section 4.2 and 6 (`coins.h` is not
part of the sources): coins by transaction id, the name database, and the
optional per-name history. -/
structure CCoinsViewCache where
  coins : uint256 → Option CCoins
  names : valtype → Option CNameData
  history : valtype → List CNameData
  fNameHistory : Bool

namespace CCoins

/-- The null output that marks a spent position. -/
def nullOut : CTxOut := ⟨-1, .NonName []⟩

/-- Modelled from the spec: output `i` exists and is not spent. -/
def IsAvailable (c : CCoins) (i : Nat) : Bool :=
  match c.vout[i]? with
  | some out => decide (out.nValue ≠ -1)
  | none => false

/-- Modelled from the spec: mark output `i` spent; reports whether it was
available. -/
def Spend (c : CCoins) (i : Nat) : CCoins × Bool :=
  if c.IsAvailable i then ({ c with vout := c.vout.set i nullOut }, true)
  else (c, false)

end CCoins

namespace CCoinsViewCache

def GetCoins (v : CCoinsViewCache) (txid : uint256) : Option CCoins := v.coins txid

/-- Modelled from the spec: `get_name(name) -> NameData?`. -/
def GetName (v : CCoinsViewCache) (name : valtype) : Option CNameData := v.names name

/-- Modelled from the spec: `set_name(name, data, undo)` upserts; "when
`undo=true`, the old record (if any) may be appended to the name's history"
(it is when history tracking is enabled). -/
def SetName (v : CCoinsViewCache) (name : valtype) (data : CNameData) (undo : Bool) :
    CCoinsViewCache :=
  { v with
    names := fun n => if n = name then some data else v.names n
    history := fun n =>
      if n = name ∧ undo = true ∧ v.fNameHistory = true then
        match v.names name with
        | some old => v.history name ++ [old]
        | none => v.history name
      else v.history n }

/-- Modelled from the spec: `delete_name(name)` removes the record entirely. -/
def DeleteName (v : CCoinsViewCache) (name : valtype) : CCoinsViewCache :=
  { v with names := fun n => if n = name then none else v.names n }

/-- Modelled from the spec: run a modification on the coins of `txid`; a
transaction without coins in the view has nothing to modify. -/
def ModifyCoins (v : CCoinsViewCache) (txid : uint256) (f : CCoins → CCoins) :
    CCoinsViewCache :=
  match v.coins txid with
  | some c => { v with coins := fun t => if t = txid then some (f c) else v.coins t }
  | none => v

end CCoinsViewCache

/-! ## `CNameTxUndo` (main.cpp lines 23-37) -/

structure CNameTxUndo where
  name : valtype
  isNew : Bool
  oldData : CNameData
  deriving DecidableEq

namespace CNameTxUndo

/-- Lines 23-28: `name = nm; isNew = !view.GetName (name, oldData);`. -/
def fromOldState (nm : valtype) (view : CCoinsViewCache) : CNameTxUndo :=
  match view.GetName nm with
  | some d => { name := nm, isNew := false, oldData := d }
  | none => { name := nm, isNew := true, oldData := CNameData.null }

/-- Lines 30-37. -/
def apply (u : CNameTxUndo) (view : CCoinsViewCache) : CCoinsViewCache :=
  if u.isNew then view.DeleteName u.name
  else view.SetName u.name u.oldData true

end CNameTxUndo

/-- The part of `CBlockUndo` that this file touches. -/
structure CBlockUndo where
  vnameundo : List CNameTxUndo
  deriving DecidableEq

/-! ## `CheckNameTransaction` (main.cpp lines 282-491) -/

/-- How a block of statements ends. -/
inductive Flow (α : Type) where
  | abort : Flow α
  | ret (b : Bool) : Flow α
  | next (a : α) : Flow α

/-- Locals set by the input loop when it finds a name input: `nameIn`,
`nameOpIn`, `nameAmountIn`, `coinsIn`, and `tx.vin[nameIn].prevout`. -/
structure NameInput where
  nameIn : Nat
  prevout : COutPoint
  nameOpIn : CNameScript
  nameAmountIn : CAmount
  coinsIn : CCoins
  deriving DecidableEq

/-- Locals set by the output loop when it finds a name output: `nameOut`,
`nameOpOut`, and `tx.vout[nameOut].nValue`. -/
structure NameOutput where
  nameOut : Nat
  nameOpOut : CNameScript
  nValue : CAmount
  deriving DecidableEq

/-- Lines 300-322, the loop over `tx.vin` from index `i` on, with the locals
`acc` (`none` is `nameIn == -1`). -/
def scanInputs (view : CCoinsViewCache) :
    List CTxIn → Nat → Option NameInput → Flow (Option NameInput)
  | [], _, acc => .next acc
  | txin :: rest, i, acc =>
    match view.GetCoins txin.prevout.hash with
    | none => .ret false
    | some coins =>
      match coins.vout[txin.prevout.n]? with
      | none => .abort
      | some out =>
        if out.scriptPubKey.isNameOp then
          if acc.isSome then .ret false
          else scanInputs view rest (i + 1)
            (some ⟨i, txin.prevout, out.scriptPubKey, out.nValue, coins⟩)
        else scanInputs view rest (i + 1) acc

/-- Lines 324-337, the loop over `tx.vout` from index `i` on. -/
def scanOutputs : List CTxOut → Nat → Option NameOutput → Flow (Option NameOutput)
  | [], _, acc => .next acc
  | out :: rest, i, acc =>
    if out.scriptPubKey.isNameOp then
      if acc.isSome then .ret false
      else scanOutputs rest (i + 1) (some ⟨i, out.scriptPubKey, out.nValue⟩)
    else scanOutputs rest (i + 1) acc

/-- Lines 424-440, the end of the `NAME_UPDATE` branch. -/
def checkUpdateRecord (view : CCoinsViewCache) (name : valtype) (inp : NameInput) :
    Option Bool :=
  match view.GetName name with
  | none => some false
  | some oldName =>
    if oldName.isDead then some false
    else if inp.coinsIn.nHeight ≠ oldName.getHeight then none
    else if inp.prevout ≠ oldName.getUpdateOutpoint then none
    else some true

/-- Lines 409-441, the `NAME_UPDATE` branch; `nameIn` is set here because
line 397 returned otherwise (without it `nameAmountIn` would be read
uninitialised). -/
def checkNameUpdate (view : CCoinsViewCache) (name : valtype) (out : NameOutput)
    (nameIn : Option NameInput) : Option Bool :=
  match nameIn with
  | none => none
  | some inp =>
    if out.nValue < inp.nameAmountIn then some false
    else if !inp.nameOpIn.isAnyUpdate then some false
    else
      match inp.nameOpIn.getOpName with
      | none => none
      | some nameOfInput =>
        if name ≠ nameOfInput then some false
        else checkUpdateRecord view name inp

/-- Lines 447-476, the checks made for an old-style registration only.
Without a name input `nameOpIn` is the default-constructed script, whose
opcode `OP_NOP` differs from `OP_NAME_NEW` (not reached: line 397 returned). -/
def checkOldStyle (P : Params) (nHeight : Nat) (fMempool : Bool) (name : valtype)
    (out : NameOutput) (nameIn : Option NameInput) : Flow Unit :=
  match nameIn with
  | none => .ret false
  | some inp =>
    if inp.nameOpIn.getNameOp ≠ .OP_NAME_NEW then .ret false
    else if !fMempool ∧ inp.coinsIn.nHeight = P.MEMPOOL_HEIGHT then .abort
    else if !fMempool ∧ inp.coinsIn.nHeight + P.MIN_FIRSTUPDATE_DEPTH > nHeight then
      .ret false
    else
      match out.nameOpOut.getOpRand with
      | none => .abort
      | some rand =>
        if rand.length > 20 then .ret false
        else
          match inp.nameOpIn.getOpHash with
          | none => .abort
          | some committed =>
            -- `uint160 (vch)` asserts that `vch` has 20 bytes
            if committed.length ≠ 20 then .abort
            else if P.Hash160 (rand ++ name) ≠ committed then .ret false
            else .next ()

/-- Lines 478-490: a first-update needs the name to be absent or dead. -/
def checkFirstUpdateRecord (view : CCoinsViewCache) (name : valtype) : Option Bool :=
  match view.GetName name with
  | some oldName => if !oldName.isDead then some false else some true
  | none => some true

/-- Lines 443-490, the `NAME_FIRSTUPDATE` branch. -/
def checkFirstUpdate (P : Params) (nHeight : Nat) (view : CCoinsViewCache)
    (fMempool : Bool) (name : valtype) (out : NameOutput) (nameIn : Option NameInput) :
    Option Bool :=
  if out.nameOpOut.getNameOp ≠ .OP_NAME_FIRSTUPDATE then none
  else
    match out.nameOpOut.isNewStyleRegistration with
    | none => none
    | some newStyle =>
      if !newStyle then
        match checkOldStyle P nHeight fMempool name out nameIn with
        | .abort => none
        | .ret b => some b
        | .next _ => checkFirstUpdateRecord view name
      else checkFirstUpdateRecord view name

/-- Lines 385-491, everything after `NAME_NEW` has been handled. -/
def checkAnyUpdate (P : Params) (nHeight : Nat) (view : CCoinsViewCache)
    (fMempool : Bool) (out : NameOutput) (nameIn : Option NameInput) : Option Bool :=
  if !out.nameOpOut.isAnyUpdate then none
  else
    match (if out.nameOpOut.getNameOp = .OP_NAME_FIRSTUPDATE
           then out.nameOpOut.isNewStyleRegistration else some false) with
    | none => none
    | some newStyleFirstUpdate =>
      if newStyleFirstUpdate ∧ nameIn.isSome then some false
      else if !newStyleFirstUpdate ∧ nameIn.isNone then some false
      else
        match out.nameOpOut.getOpName with
        | none => none
        | some name =>
          if name.length > P.MAX_NAME_LENGTH then some false
          else
            match out.nameOpOut.getOpValue with
            | none => none
            | some value =>
              if value.length > P.MAX_VALUE_LENGTH then some false
              else if out.nameOpOut.getNameOp = .OP_NAME_UPDATE then
                checkNameUpdate view name out nameIn
              else checkFirstUpdate P nHeight view fMempool name out nameIn

/-- Lines 339-383 and the call into the rest: flag consistency, minimum
amount, `NAME_NEW`. -/
def checkLocated (P : Params) (tx : CTransaction) (nHeight : Nat)
    (view : CCoinsViewCache) (fMempool : Bool) (nameIn : Option NameInput)
    (nameOut : Option NameOutput) : Option Bool :=
  if !tx.IsNamecoin then
    if nameIn.isSome then some false
    else if nameOut.isSome then some false
    else some true
  else
    match nameOut with
    | none => some false
    | some out =>
      if out.nValue < P.NAMENEW_COIN_AMOUNT then some false
      else if out.nameOpOut.getNameOp = .OP_NAME_NEW then
        if nameIn.isSome then some false
        else
          match out.nameOpOut.getOpHash with
          | none => none
          | some hash => if hash.length ≠ 20 then some false else some true
      else checkAnyUpdate P nHeight view fMempool out nameIn

/-- Lines 282-491. -/
def CheckNameTransaction (P : Params) (tx : CTransaction) (nHeight : Nat)
    (view : CCoinsViewCache) (flags : Nat) : Option Bool :=
  let fMempool : Bool := (flags &&& P.SCRIPT_VERIFY_NAMES_MEMPOOL) != 0
  if (P.IsHistoricBug tx.GetHash nHeight).isSome then some true
  else
    match scanInputs view tx.vin 0 none with
    | .abort => none
    | .ret b => some b
    | .next nameIn =>
      match scanOutputs tx.vout 0 none with
      | .abort => none
      | .ret b => some b
      | .next nameOut => checkLocated P tx nHeight view fMempool nameIn nameOut

/-! ## `ApplyNameTransaction` (main.cpp lines 493-552) -/

/-- Lines 510-519: spend the first-update and update outputs of a buggy
transaction in its coins. -/
def spendBuggyOutputs : List CTxOut → Nat → CCoins → CCoins
  | [], _, coins => coins
  | out :: rest, i, coins =>
    if out.scriptPubKey.isNameOp ∧ out.scriptPubKey.isAnyUpdate then
      spendBuggyOutputs rest (i + 1) (if coins.IsAvailable i then (coins.Spend i).1 else coins)
    else spendBuggyOutputs rest (i + 1) coins

/-- Lines 534-551: the loop over `tx.vout` from index `i` on. -/
def applyOutputs (txHash : uint256) (nHeight : Nat) :
    List CTxOut → Nat → CCoinsViewCache → CBlockUndo → Option (CCoinsViewCache × CBlockUndo)
  | [], _, view, undo => some (view, undo)
  | out :: rest, i, view, undo =>
    if out.scriptPubKey.isNameOp ∧ out.scriptPubKey.isAnyUpdate then
      match out.scriptPubKey.getOpName with
      | none => none
      | some name =>
        let opUndo := CNameTxUndo.fromOldState name view
        let undo1 : CBlockUndo := { vnameundo := undo.vnameundo ++ [opUndo] }
        match CNameData.fromScript nHeight ⟨txHash, i⟩ out.scriptPubKey with
        | none => none
        | some data => applyOutputs txHash nHeight rest (i + 1) (view.SetName name data false) undo1
    else applyOutputs txHash nHeight rest (i + 1) view undo

/-- Lines 493-552; `none` is a failed assertion. -/
def ApplyNameTransaction (P : Params) (tx : CTransaction) (nHeight : Nat)
    (view : CCoinsViewCache) (undo : CBlockUndo) : Option (CCoinsViewCache × CBlockUndo) :=
  if nHeight = P.MEMPOOL_HEIGHT then none
  else
    let type := P.IsHistoricBug tx.GetHash nHeight
    if type.isSome ∧ type ≠ some .BUG_FULLY_APPLY then
      if type = some .BUG_FULLY_IGNORE then
        some (view.ModifyCoins tx.GetHash (spendBuggyOutputs tx.vout 0), undo)
      else some (view, undo)
    else if !tx.IsNamecoin then some (view, undo)
    else applyOutputs tx.GetHash nHeight tx.vout 0 view undo

/-! ## The same code over any implementation of the view

`CNameTxUndo` and `ApplyNameTransaction` reach the view only through
`GetName`, `SetName`, `DeleteName` and `ModifyCoins`.  Here these four are a
parameter, so that what the code passes to them can be stated without looking
inside them. -/

/-- The operations of the view that lines 23-37 and 493-552 call, over any
state type `σ` of the view (`coins.h` is not part of the sources). -/
structure ViewOps (σ : Type) where
  GetName : σ → valtype → Option CNameData
  SetName : σ → valtype → CNameData → Bool → σ
  DeleteName : σ → valtype → σ
  ModifyCoins : σ → uint256 → (CCoins → CCoins) → σ

/-- The operations of the modelled view. -/
def CCoinsViewCache.ops : ViewOps CCoinsViewCache where
  GetName := CCoinsViewCache.GetName
  SetName := CCoinsViewCache.SetName
  DeleteName := CCoinsViewCache.DeleteName
  ModifyCoins := CCoinsViewCache.ModifyCoins

/-- Lines 23-28: `name = nm; isNew = !view.GetName (name, oldData);`. -/
def CNameTxUndo.fromOldStateOn {σ : Type} (ops : ViewOps σ) (nm : valtype) (view : σ) :
    CNameTxUndo :=
  match ops.GetName view nm with
  | some d => { name := nm, isNew := false, oldData := d }
  | none => { name := nm, isNew := true, oldData := CNameData.null }

/-- Lines 30-37. -/
def CNameTxUndo.applyOn {σ : Type} (ops : ViewOps σ) (u : CNameTxUndo) (view : σ) : σ :=
  if u.isNew then ops.DeleteName view u.name
  else ops.SetName view u.name u.oldData true

/-- Lines 534-551: the loop over `tx.vout` from index `i` on. -/
def applyOutputsOn {σ : Type} (ops : ViewOps σ) (txHash : uint256) (nHeight : Nat) :
    List CTxOut → Nat → σ → CBlockUndo → Option (σ × CBlockUndo)
  | [], _, view, undo => some (view, undo)
  | out :: rest, i, view, undo =>
    if out.scriptPubKey.isNameOp ∧ out.scriptPubKey.isAnyUpdate then
      match out.scriptPubKey.getOpName with
      | none => none
      | some name =>
        let opUndo := CNameTxUndo.fromOldStateOn ops name view
        let undo1 : CBlockUndo := { vnameundo := undo.vnameundo ++ [opUndo] }
        match CNameData.fromScript nHeight ⟨txHash, i⟩ out.scriptPubKey with
        | none => none
        | some data =>
          applyOutputsOn ops txHash nHeight rest (i + 1) (ops.SetName view name data false) undo1
    else applyOutputsOn ops txHash nHeight rest (i + 1) view undo

/-- Lines 493-552; `none` is a failed assertion. -/
def ApplyNameTransactionOn {σ : Type} (ops : ViewOps σ) (P : Params) (tx : CTransaction)
    (nHeight : Nat) (view : σ) (undo : CBlockUndo) : Option (σ × CBlockUndo) :=
  if nHeight = P.MEMPOOL_HEIGHT then none
  else
    let type := P.IsHistoricBug tx.GetHash nHeight
    if type.isSome ∧ type ≠ some .BUG_FULLY_APPLY then
      if type = some .BUG_FULLY_IGNORE then
        some (ops.ModifyCoins view tx.GetHash (spendBuggyOutputs tx.vout 0), undo)
      else some (view, undo)
    else if !tx.IsNamecoin then some (view, undo)
    else applyOutputsOn ops tx.GetHash nHeight tx.vout 0 view undo

/-! ## `CNameMemPool` (main.cpp lines 39-278) -/

/-- `NameTxMap`, a `std::map<valtype, uint256>`: `find` is application and
`end ()` is `none`. -/
abbrev NameTxMap := valtype → Option uint256

/-- `std::map::insert`: an existing mapping of the key is kept. -/
def NameTxMap.insert (m : NameTxMap) (k : valtype) (v : uint256) : NameTxMap :=
  fun k1 => if k1 = k then (match m k with
    | some old => some old
    | none => some v) else m k1

/-- `std::map::erase`. -/
def NameTxMap.erase (m : NameTxMap) (k : valtype) : NameTxMap :=
  fun k1 => if k1 = k then none else m k1

/-- `std::map::count`. -/
def NameTxMap.count (m : NameTxMap) (k : valtype) : Nat :=
  if (m k).isSome then 1 else 0

/-- Modelled from the spec: a pool entry with the transaction and the name
operation it carries (`txmempool.h` is not part of the sources). -/
structure CTxMemPoolEntry where
  tx : CTransaction
  nameOp : CNameScript
  deriving DecidableEq

namespace CTxMemPoolEntry

/-- Modelled from the spec: the entry carries a `NameNew`. -/
def isNameNew (e : CTxMemPoolEntry) : Bool :=
  e.nameOp.isNameOp && decide (e.nameOp.getNameOp = .OP_NAME_NEW)

/-- Modelled from the spec: the entry carries a `NameFirstUpdate`. -/
def isNameRegistration (e : CTxMemPoolEntry) : Bool :=
  e.nameOp.isNameOp && decide (e.nameOp.getNameOp = .OP_NAME_FIRSTUPDATE)

/-- Modelled from the spec: the entry carries a `NameUpdate`. -/
def isNameUpdate (e : CTxMemPoolEntry) : Bool :=
  e.nameOp.isNameOp && decide (e.nameOp.getNameOp = .OP_NAME_UPDATE)

def getNameNewHash (e : CTxMemPoolEntry) : Option valtype := e.nameOp.getOpHash

def getName (e : CTxMemPoolEntry) : Option valtype := e.nameOp.getOpName

end CTxMemPoolEntry

/-- The three maps of the name index: `pending_news`, `pending_registrations`
and `pending_updates` of the specification. -/
structure CNameMemPool where
  mapNameNews : NameTxMap
  mapNameRegs : NameTxMap
  mapNameUpdates : NameTxMap

namespace CNameMemPool

/-- Modelled from the spec: the name is a key of `pending_registrations`
(`names/main.h` is not part of the sources). -/
def registersName (m : CNameMemPool) (name : valtype) : Bool :=
  decide (NameTxMap.count m.mapNameRegs name > 0)

/-- Modelled from the spec: the name is a key of `pending_updates`. -/
def updatesName (m : CNameMemPool) (name : valtype) : Bool :=
  decide (NameTxMap.count m.mapNameUpdates name > 0)

/-- Lines 69-77 of `addUnchecked`. -/
def addNameNew (m : CNameMemPool) (hash : uint256) (entry : CTxMemPoolEntry) :
    Option CNameMemPool :=
  if entry.isNameNew then
    match entry.getNameNewHash with
    | none => none
    | some newHash =>
      match m.mapNameNews newHash with
      | some mapped => if mapped = hash then some m else none
      | none => some { m with mapNameNews := NameTxMap.insert m.mapNameNews newHash hash }
  else some m

/-- Lines 79-84 of `addUnchecked`. -/
def addNameRegistration (m : CNameMemPool) (hash : uint256) (entry : CTxMemPoolEntry) :
    Option CNameMemPool :=
  if entry.isNameRegistration then
    match entry.getName with
    | none => none
    | some name =>
      if NameTxMap.count m.mapNameRegs name = 0 then
        some { m with mapNameRegs := NameTxMap.insert m.mapNameRegs name hash }
      else none
  else some m

/-- Lines 86-91 of `addUnchecked`. -/
def addNameUpdate (m : CNameMemPool) (hash : uint256) (entry : CTxMemPoolEntry) :
    Option CNameMemPool :=
  if entry.isNameUpdate then
    match entry.getName with
    | none => none
    | some name =>
      if NameTxMap.count m.mapNameUpdates name = 0 then
        some { m with mapNameUpdates := NameTxMap.insert m.mapNameUpdates name hash }
      else none
  else some m

/-- Lines 64-92; `none` is a failed assertion. -/
def addUnchecked (m : CNameMemPool) (hash : uint256) (entry : CTxMemPoolEntry) :
    Option CNameMemPool :=
  match addNameNew m hash entry with
  | none => none
  | some m1 =>
    match addNameRegistration m1 hash entry with
    | none => none
    | some m2 => addNameUpdate m2 hash entry

/-- Lines 238-275 of `checkTx`, the loop over `tx.vout`. -/
def checkTxOutputs (m : CNameMemPool) (txHash : uint256) : List CTxOut → Option Bool
  | [] => some true
  | txout :: rest =>
    if !txout.scriptPubKey.isNameOp then checkTxOutputs m txHash rest
    else
      match txout.scriptPubKey.getNameOp with
      | .OP_NAME_NEW =>
        match txout.scriptPubKey.getOpHash with
        | none => none
        | some newHash =>
          match m.mapNameNews newHash with
          | some mapped =>
            if mapped ≠ txHash then some false else checkTxOutputs m txHash rest
          | none => checkTxOutputs m txHash rest
      | .OP_NAME_FIRSTUPDATE =>
        match txout.scriptPubKey.getOpName with
        | none => none
        | some name =>
          if m.registersName name then some false else checkTxOutputs m txHash rest
      | .OP_NAME_UPDATE =>
        match txout.scriptPubKey.getOpName with
        | none => none
        | some name =>
          if m.updatesName name then some false else checkTxOutputs m txHash rest
      | .OP_NOP => none

/-- Lines 225-278; `none` is a failed assertion. -/
def checkTx (m : CNameMemPool) (tx : CTransaction) : Option Bool :=
  if !tx.IsNamecoin then some true
  else checkTxOutputs m tx.GetHash tx.vout

end CNameMemPool

namespace CNameMemPool

/-- Lines 42-62; `none` is a failed assertion and the null hash `uint256 ()`
is 0. -/
def getTxForName (m : CNameMemPool) (name : valtype) : Option uint256 :=
  match m.mapNameRegs name with
  | some txid => if NameTxMap.count m.mapNameUpdates name = 0 then some txid else none
  | none =>
    match m.mapNameUpdates name with
    | some txid => if NameTxMap.count m.mapNameRegs name = 0 then some txid else none
    | none => some 0

/-- Lines 99-104 of `remove`. -/
def removeRegistration (m : CNameMemPool) (entry : CTxMemPoolEntry) : Option CNameMemPool :=
  if entry.isNameRegistration then
    match entry.getName with
    | none => none
    | some name =>
      match m.mapNameRegs name with
      | none => none
      | some _ => some { m with mapNameRegs := NameTxMap.erase m.mapNameRegs name }
  else some m

/-- Lines 105-110 of `remove`. -/
def removeUpdate (m : CNameMemPool) (entry : CTxMemPoolEntry) : Option CNameMemPool :=
  if entry.isNameUpdate then
    match entry.getName with
    | none => none
    | some name =>
      match m.mapNameUpdates name with
      | none => none
      | some _ => some { m with mapNameUpdates := NameTxMap.erase m.mapNameUpdates name }
  else some m

/-- Lines 94-111; `none` is a failed assertion. -/
def remove (m : CNameMemPool) (entry : CTxMemPoolEntry) : Option CNameMemPool :=
  match removeRegistration m entry with
  | none => none
  | some m1 => removeUpdate m1 entry

end CNameMemPool

/-! ## The transaction pool around the name index -/

/-- Modelled from the spec: the pending-transaction pool (`txmempool.h` is not
part of the sources): its entries, looked up by transaction id, and its name
index.  `CNameMemPool` holds a reference to the pool and the pool owns the
index, so the two are one state here. -/
structure CTxMemPool where
  mapTx : List CTxMemPoolEntry
  names : CNameMemPool

/-- Transaction `child` spends an output of transaction `parent`. -/
def spends (child : CTransaction) (parent : uint256) : Bool :=
  child.vin.any (fun txin => decide (txin.prevout.hash = parent))

namespace CTxMemPool

/-- Modelled from the spec: `find(txid)`. -/
def find (pool : CTxMemPool) (txid : uint256) : Option CTxMemPoolEntry :=
  pool.mapTx.find? (fun e => decide (e.tx.GetHash = txid))

/-- One round of collecting descendants: add the ids of the pool
transactions that spend an output of a staged transaction. -/
def stageStep (mapTx : List CTxMemPoolEntry) (staged : List uint256) : List uint256 :=
  staged ++ (mapTx.filter (fun e =>
    decide (e.tx.GetHash ∉ staged) && staged.any (fun h => spends e.tx h))).map
      (fun e => e.tx.GetHash)

/-- The ids staged for removal with `root`: `root` and, transitively, the pool
transactions that spend their outputs (as many rounds as the pool has
entries). -/
def stagedFor (mapTx : List CTxMemPoolEntry) (root : uint256) : List uint256 :=
  Nat.iterate (stageStep mapTx) mapTx.length [root]

/-- Call `CNameMemPool::remove` for each entry in turn. -/
def removeEntries : CNameMemPool → List CTxMemPoolEntry → Option CNameMemPool
  | m, [] => some m
  | m, e :: rest =>
    match m.remove e with
    | none => none
    | some m1 => removeEntries m1 rest

/-- Modelled from the spec: `remove_recursive(tx)` removes the transaction and,
transitively, its descendants from the pool, calls the name index's `remove`
for the entry of each removed transaction, and reports the removed
transactions in `removed`. -/
def removeRecursive (pool : CTxMemPool) (tx : CTransaction) (removed : List CTransaction) :
    Option (CTxMemPool × List CTransaction) :=
  let staged := stagedFor pool.mapTx tx.GetHash
  let gone := pool.mapTx.filter (fun e => decide (e.tx.GetHash ∈ staged))
  match removeEntries pool.names gone with
  | none => none
  | some names1 =>
    some (⟨pool.mapTx.filter (fun e => !decide (e.tx.GetHash ∈ staged)), names1⟩,
      removed ++ gone.map (fun e => e.tx))

end CTxMemPool

namespace CNameMemPool

/-- Lines 128-134 and 150-156, the body shared by the two eviction loops:
look the name up in `mapNameRegs`, find the mapped transaction in the pool
(asserted) and remove it recursively. -/
def evictRegistration (pool : CTxMemPool) (name : valtype) (removed : List CTransaction) :
    Option (CTxMemPool × List CTransaction) :=
  match pool.names.mapNameRegs name with
  | none => some (pool, removed)
  | some txid =>
    match pool.find txid with
    | none => none
    | some entry => pool.removeRecursive entry.tx removed

/-- Lines 122-136 of `removeConflicts`, the loop over `tx.vout`. -/
def removeConflictsOutputs : List CTxOut → CTxMemPool → List CTransaction →
    Option (CTxMemPool × List CTransaction)
  | [], pool, removed => some (pool, removed)
  | txout :: rest, pool, removed =>
    if txout.scriptPubKey.isNameOp ∧ txout.scriptPubKey.getNameOp = .OP_NAME_FIRSTUPDATE then
      match txout.scriptPubKey.getOpName with
      | none => none
      | some name =>
        match evictRegistration pool name removed with
        | none => none
        | some (pool1, removed1) => removeConflictsOutputs rest pool1 removed1
    else removeConflictsOutputs rest pool removed

/-- Lines 113-137; `none` is a failed assertion. -/
def removeConflicts (pool : CTxMemPool) (tx : CTransaction) (removed : List CTransaction) :
    Option (CTxMemPool × List CTransaction) :=
  if !tx.IsNamecoin then some (pool, removed)
  else removeConflictsOutputs tx.vout pool removed

/-- Lines 139-158; the set `revived` is listed in its iteration order. -/
def removeReviveConflicts : List valtype → CTxMemPool → List CTransaction →
    Option (CTxMemPool × List CTransaction)
  | [], pool, removed => some (pool, removed)
  | name :: rest, pool, removed =>
    match evictRegistration pool name removed with
    | none => none
    | some (pool1, removed1) => removeReviveConflicts rest pool1 removed1

end CNameMemPool

/-! ## `CheckNameDB` (main.cpp lines 554-577) -/

/-- Lines 557-567: whether the call goes on to validate (`some true`),
returns before (`some false`), or fails `assert (option >= 0)` (`none`).
`option` is the value of `-checknamedb`, `height` is `chainActive.Height ()`;
`%` on `int` truncates towards zero. -/
def CheckNameDB_schedule (option : Int) (disconnect : Bool) (height : Int) : Option Bool :=
  if option = -1 then some false
  else if ¬ (option ≥ 0) then none
  else if option ≠ 0 then
    if disconnect = true ∨ Int.tmod height option ≠ 0 then some false
    else some true
  else some true

/-- Lines 554-577; `ok` is what `ValidateNameDB` finds.  The result says
whether the validation was performed; `none` is a failed assertion. -/
def CheckNameDB (option : Int) (disconnect : Bool) (height : Int) (ok : Bool) : Option Bool :=
  match CheckNameDB_schedule option disconnect height with
  | none => none
  | some false => some false
  | some true => if !ok then none else some true

/-! ## `name_filter` (rpc/names.cpp lines 299-422) -/

/-- How an RPC call ends: a failed assertion, a thrown `JSONRPCError`, or a
result. -/
inductive RpcOutcome (α : Type) where
  | abort : RpcOutcome α
  | rpcError : RpcOutcome α
  | result (a : α) : RpcOutcome α
  deriving DecidableEq

/-- What `name_filter` returns: the array with one item per reported
(name, record), or in "stat" mode the object with "blocks" and "count". -/
inductive FilterResult where
  | names (entries : List (valtype × CNameData))
  | stat (blocks : Int) (count : Nat)
  deriving DecidableEq

/-- Lines 381-387: a regular expression was given and `regex_search` does not
find it in the name. -/
def regexpRejects (regexp : Option (valtype → Bool)) (name : valtype) : Bool :=
  match regexp with
  | some re => !re name
  | none => false

/-- Lines 369-404, the loop over the entries that the name iterator yields,
with the locals `from`, `nb`, `count` and `names`; `none` is a failed
assertion.  `regexp` is `none` when `haveRegexp` is false. -/
def name_filter_loop (H : Int) (regexp : Option (valtype → Bool)) (maxage : Int)
    (stats : Bool) :
    List (valtype × CNameData) → Int → Int → Nat → List (valtype × CNameData) →
      Option (Nat × List (valtype × CNameData))
  | [], _, _, count, names => some (count, names)
  | (name, data) :: rest, fromPos, nb, count, names =>
    if H - (data.getHeight : Int) < 0 then none
    else if maxage ≠ 0 ∧ H - (data.getHeight : Int) ≥ maxage then
      name_filter_loop H regexp maxage stats rest fromPos nb count names
    else if regexpRejects regexp name then
      name_filter_loop H regexp maxage stats rest fromPos nb count names
    else if fromPos > 0 then
      name_filter_loop H regexp maxage stats rest (fromPos - 1) nb count names
    else if fromPos ≠ 0 then none
    else if nb > 0 then
      if nb - 1 = 0 then
        some (if stats then count + 1 else count,
          if stats then names else names ++ [(name, data)])
      else
        name_filter_loop H regexp maxage stats rest fromPos (nb - 1)
          (if stats then count + 1 else count)
          (if stats then names else names ++ [(name, data)])
    else
      name_filter_loop H regexp maxage stats rest fromPos nb
        (if stats then count + 1 else count)
        (if stats then names else names ++ [(name, data)])

/-- Lines 299-422 on already parsed arguments: chain height `H`, the optional
regular expression as a predicate on names, `maxage`, `from`, `nb`, the "stat"
switch, and the entries of the name iterator. -/
def name_filter (H : Int) (regexp : Option (valtype → Bool)) (maxage fromPos nb : Int)
    (stats : Bool) (entries : List (valtype × CNameData)) : RpcOutcome FilterResult :=
  if maxage < 0 then .rpcError
  else if fromPos < 0 then .rpcError
  else if nb < 0 then .rpcError
  else
    match name_filter_loop H regexp maxage stats entries fromPos nb 0 [] with
    | none => .abort
    | some (count, names) =>
      if stats then .result (.stat H count) else .result (.names names)

/-! ## Vocabulary of the claims -/

/-- Input `txin` can be resolved: its previous transaction has coins in the
view and the spent index lies inside them. -/
def inputResolvable (view : CCoinsViewCache) (txin : CTxIn) : Bool :=
  match view.GetCoins txin.prevout.hash with
  | some coins => decide (txin.prevout.n < coins.vout.length)
  | none => false

/-- All input coins of `tx` are resolvable. -/
def InputsResolvable (view : CCoinsViewCache) (tx : CTransaction) : Bool :=
  tx.vin.all (inputResolvable view)

/-- Input `txin` does not index outside the coins found for it (reading
`coins.vout[prevout.n]` is then defined). -/
def inputInRange (view : CCoinsViewCache) (txin : CTxIn) : Bool :=
  match view.GetCoins txin.prevout.hash with
  | some coins => decide (txin.prevout.n < coins.vout.length)
  | none => true

/-- No input of `tx` indexes outside the coins found for it. -/
def InputsInRange (view : CCoinsViewCache) (tx : CTransaction) : Bool :=
  tx.vin.all (inputInRange view)

/-- The inputs of `vin` (numbered from `i`) that spend a name-operation output,
in order, each with the data the input loop records for it. -/
def nameInputsFrom (view : CCoinsViewCache) : List CTxIn → Nat → List NameInput
  | [], _ => []
  | txin :: rest, i =>
    match view.GetCoins txin.prevout.hash with
    | none => nameInputsFrom view rest (i + 1)
    | some coins =>
      match coins.vout[txin.prevout.n]? with
      | none => nameInputsFrom view rest (i + 1)
      | some out =>
        if out.scriptPubKey.isNameOp then
          ⟨i, txin.prevout, out.scriptPubKey, out.nValue, coins⟩ ::
            nameInputsFrom view rest (i + 1)
        else nameInputsFrom view rest (i + 1)

/-- The name inputs of a transaction. -/
def nameInputs (view : CCoinsViewCache) (tx : CTransaction) : List NameInput :=
  nameInputsFrom view tx.vin 0

/-- The outputs of `vout` (numbered from `i`) that are name operations. -/
def nameOutputsFrom : List CTxOut → Nat → List NameOutput
  | [], _ => []
  | out :: rest, i =>
    if out.scriptPubKey.isNameOp then
      ⟨i, out.scriptPubKey, out.nValue⟩ :: nameOutputsFrom rest (i + 1)
    else nameOutputsFrom rest (i + 1)

/-- The name outputs of a transaction. -/
def nameOutputs (tx : CTransaction) : List NameOutput :=
  nameOutputsFrom tx.vout 0

/-- What a locating loop yields on a list of name operations: the only one,
none, or failure on the second. -/
def locate {α : Type} : Option α → List α → Flow (Option α)
  | acc, [] => .next acc
  | none, x :: xs => locate (some x) xs
  | some _, _ :: _ => .ret false

/-- The record of `name` is absent or dead. -/
def absentOrDead (view : CCoinsViewCache) (name : valtype) : Bool :=
  match view.GetName name with
  | some d => d.isDead
  | none => true

/-- The mempool bit of `flags`, as line 289 computes it. -/
def fMempoolOf (P : Params) (flags : Nat) : Bool :=
  (flags &&& P.SCRIPT_VERIFY_NAMES_MEMPOOL) != 0

/-- Apply a list of transactions in order (a block), threading view and undo
list; `none` when one application aborts. -/
def applyBlock (P : Params) (nHeight : Nat) :
    List CTransaction → CCoinsViewCache → CBlockUndo → Option (CCoinsViewCache × CBlockUndo)
  | [], view, undo => some (view, undo)
  | tx :: rest, view, undo =>
    match ApplyNameTransaction P tx nHeight view undo with
    | none => none
    | some (view1, undo1) => applyBlock P nHeight rest view1 undo1

/-- Call `CNameTxUndo::apply` on the entries in the order given. -/
def applyUndos : List CNameTxUndo → CCoinsViewCache → CCoinsViewCache
  | [], view => view
  | u :: rest, view => applyUndos rest (u.apply view)

/-- Replay an undo list in reverse. -/
def undoBlock (undo : CBlockUndo) (view : CCoinsViewCache) : CCoinsViewCache :=
  applyUndos undo.vnameundo.reverse view

/-! ## Concrete data used by the worked instances -/

/-- Chain parameters of the instances: no historic bug except transaction 666
at height 7 (disposition "other"), a toy hash that keeps the first 20 bytes. -/
def exParams : Params where
  IsHistoricBug := fun h n => if h = 666 ∧ n = 7 then some .BUG_OTHER else none
  Hash160 := fun v => v.take 20
  MAX_NAME_LENGTH := 10
  MAX_VALUE_LENGTH := 20
  MIN_FIRSTUPDATE_DEPTH := 2
  NAMENEW_COIN_AMOUNT := 100
  MEMPOOL_HEIGHT := 2147483647
  SCRIPT_VERIFY_NAMES_MEMPOOL := 16777216

/-- Twenty zero bytes: the salt of the instances and, under the toy hash, also
the commitment to it together with any name. -/
def exRand : valtype := List.replicate 20 0

/-- Coins of the instances: transaction 1 holds a plain output and a
`NameUpdate` of name 1,2 (amount 100); transaction 2 holds a `NameNew`
committing to `exRand`; both were mined at height 5. -/
def exCoins : uint256 → Option CCoins := fun t =>
  if t = 1 then
    some ⟨[⟨50, .NonName []⟩, ⟨100, .NameUpdate [1, 2] [3] [9]⟩], 5⟩
  else if t = 2 then
    some ⟨[⟨100, .NameNew exRand [9]⟩], 5⟩
  else none

/-- View in which name 1,2 is living, written by output 1 of transaction 1 at
height 5. -/
def exViewLiving : CCoinsViewCache where
  coins := exCoins
  names := fun n => if n = [1, 2] then some ⟨[3], 5, ⟨1, 1⟩, [9], false⟩ else none
  history := fun _ => []
  fNameHistory := false

/-- View with the same coins and an empty name database. -/
def exViewEmpty : CCoinsViewCache where
  coins := exCoins
  names := fun _ => none
  history := fun _ => []
  fNameHistory := false

/-- A `NameUpdate` of name 1,2 spending output 1 of transaction 1. -/
def exTxUpdate : CTransaction where
  GetHash := 10
  IsNamecoin := true
  vin := [⟨⟨1, 0⟩⟩, ⟨⟨1, 1⟩⟩]
  vout := [⟨100, .NameUpdate [1, 2] [4] [9]⟩, ⟨7, .NonName []⟩]

/-- An old-style `NameFirstUpdate` of name 1,2 spending the `NameNew` of
transaction 2. -/
def exTxFirstOld : CTransaction where
  GetHash := 11
  IsNamecoin := true
  vin := [⟨⟨2, 0⟩⟩]
  vout := [⟨100, .NameFirstUpdate [1, 2] exRand [4] false [9]⟩]

/-- A new-style `NameFirstUpdate` of name 1,2 spending a plain output. -/
def exTxFirstNew : CTransaction where
  GetHash := 12
  IsNamecoin := true
  vin := [⟨⟨1, 0⟩⟩]
  vout := [⟨100, .NameFirstUpdate [1, 2] [] [4] true [9]⟩]

/-- A `NameNew` with a 20-byte commitment and exactly the minimum amount. -/
def exTxNew : CTransaction where
  GetHash := 13
  IsNamecoin := true
  vin := [⟨⟨1, 0⟩⟩]
  vout := [⟨100, .NameNew exRand [9]⟩]

/-- A currency transaction without any name content. -/
def exTxPlain : CTransaction where
  GetHash := 14
  IsNamecoin := false
  vin := [⟨⟨1, 0⟩⟩]
  vout := [⟨7, .NonName []⟩]

/-- A transaction with the id of the historic bug, an input without coins in
the view and two name outputs. -/
def exTxBuggy : CTransaction where
  GetHash := 666
  IsNamecoin := true
  vin := [⟨⟨99, 0⟩⟩]
  vout := [⟨1, .NameNew [] []⟩, ⟨1, .NameUpdate [1] [2] []⟩]

/-- A Namecoin transaction with two name outputs and a resolvable plain input. -/
def exTxTwoOutputs : CTransaction where
  GetHash := 15
  IsNamecoin := true
  vin := [⟨⟨1, 0⟩⟩]
  vout := [⟨100, .NameNew exRand [9]⟩, ⟨100, .NameUpdate [1, 2] [4] [9]⟩]

/-- The `NameNew` of the instances with one unit less than the minimum amount. -/
def exTxGreedy : CTransaction where
  GetHash := 16
  IsNamecoin := true
  vin := [⟨⟨1, 0⟩⟩]
  vout := [⟨99, .NameNew exRand [9]⟩]

/-- A Namecoin-flagged transaction without any name output. -/
def exTxFlagOnly : CTransaction where
  GetHash := 17
  IsNamecoin := true
  vin := [⟨⟨1, 0⟩⟩]
  vout := [⟨7, .NonName []⟩]

/-! ## Vocabulary of the claims on `ApplyNameTransaction` -/

/-- Name, value and address of a first-update or update; nothing for a
`NameNew` or a non-name script. -/
def updateOf : CNameScript → Option (valtype × valtype × CScript)
  | .NameFirstUpdate name _ value _ addr => some (name, value, addr)
  | .NameUpdate name value addr => some (name, value, addr)
  | _ => none

/-- The (name, record) pairs that the first-update and update outputs of
`vout` (numbered from `i`) stand for at height `h`, in output order. -/
def nameWritesFrom (txHash : uint256) (h : Nat) : List CTxOut → Nat → List (valtype × CNameData)
  | [], _ => []
  | out :: rest, i =>
    match updateOf out.scriptPubKey with
    | some (name, value, addr) =>
      (name, ⟨value, h, ⟨txHash, i⟩, addr, false⟩) :: nameWritesFrom txHash h rest (i + 1)
    | none => nameWritesFrom txHash h rest (i + 1)

/-- The name writes of a transaction at height `h`. -/
def nameWrites (tx : CTransaction) (h : Nat) : List (valtype × CNameData) :=
  nameWritesFrom tx.GetHash h tx.vout 0

/-- The view after a list of (name, record) pairs has been written in order
with `SetName (name, record, false)`. -/
def viewAfter : CCoinsViewCache → List (valtype × CNameData) → CCoinsViewCache
  | v, [] => v
  | v, (name, data) :: ws => viewAfter (v.SetName name data false) ws

/-- The undo entries captured while a list of (name, record) pairs is written
in order: each one from the view as it is just before its write. -/
def undoEntries : CCoinsViewCache → List (valtype × CNameData) → List CNameTxUndo
  | _, [] => []
  | v, (name, data) :: ws =>
    CNameTxUndo.fromOldState name v :: undoEntries (v.SetName name data false) ws

/-- A historic bug whose name operations are not applied (lines 504-505). -/
def bypassed (P : Params) (tx : CTransaction) (nHeight : Nat) : Bool :=
  (P.IsHistoricBug tx.GetHash nHeight).isSome &&
    decide (P.IsHistoricBug tx.GetHash nHeight ≠ some .BUG_FULLY_APPLY)

/-- Output `i` of transaction `txid` is available in the coins of the view. -/
def outputAvailable (v : CCoinsViewCache) (txid : uint256) (i : Nat) : Bool :=
  match v.GetCoins txid with
  | some coins => coins.IsAvailable i
  | none => false

/-- Chain parameters with one historic bug of each disposition at height 7:
transaction 666 "other", 667 fully-apply, 668 fully-ignore. -/
def exParamsBugs : Params where
  IsHistoricBug := fun h n =>
    if n = 7 then
      if h = 666 then some .BUG_OTHER
      else if h = 667 then some .BUG_FULLY_APPLY
      else if h = 668 then some .BUG_FULLY_IGNORE
      else none
    else none
  Hash160 := fun v => v.take 20
  MAX_NAME_LENGTH := 10
  MAX_VALUE_LENGTH := 20
  MIN_FIRSTUPDATE_DEPTH := 2
  NAMENEW_COIN_AMOUNT := 100
  MEMPOOL_HEIGHT := 2147483647
  SCRIPT_VERIFY_NAMES_MEMPOOL := 16777216

/-- Transaction 667 (fully-apply bug): two name outputs, the second one an
update of name 1,2 that locks 1, below the minimum of 100. -/
def exTxBugApply : CTransaction where
  GetHash := 667
  IsNamecoin := true
  vin := [⟨⟨1, 0⟩⟩]
  vout := [⟨100, .NameNew exRand [9]⟩, ⟨1, .NameUpdate [1, 2] [4] [9]⟩]

/-- The same transaction under an id that is not on the bug list. -/
def exTxNoBugApply : CTransaction := { exTxBugApply with GetHash := 18 }

/-- Transaction 668 (fully-ignore bug): a `NameNew`, an update of name 1,2 and
a plain output. -/
def exTxBugIgnore : CTransaction where
  GetHash := 668
  IsNamecoin := true
  vin := [⟨⟨1, 0⟩⟩]
  vout := [⟨100, .NameNew exRand [9]⟩, ⟨100, .NameUpdate [1, 2] [4] [9]⟩, ⟨7, .NonName []⟩]

/-- View in which name 1,2 is living, history tracking is enabled, and the
three outputs of transaction 668 are unspent coins. -/
def exViewHistory : CCoinsViewCache where
  coins := fun t => if t = 668 then some ⟨exTxBugIgnore.vout, 7⟩ else exCoins t
  names := fun n => if n = [1, 2] then some ⟨[3], 5, ⟨1, 1⟩, [9], false⟩ else none
  history := fun _ => []
  fNameHistory := true

/-- A transaction that registers name 5 and then updates name 1,2 twice. -/
def exTxThreeWrites : CTransaction where
  GetHash := 19
  IsNamecoin := true
  vin := [⟨⟨1, 0⟩⟩]
  vout := [⟨100, .NameFirstUpdate [5] [] [6] true [9]⟩, ⟨7, .NonName []⟩,
    ⟨100, .NameUpdate [1, 2] [4] [9]⟩, ⟨100, .NameNew exRand [9]⟩,
    ⟨100, .NameUpdate [1, 2] [8] [9]⟩]

/-- A currency transaction that nevertheless carries an update output. -/
def exTxPlainWithUpdate : CTransaction where
  GetHash := 20
  IsNamecoin := false
  vin := [⟨⟨1, 0⟩⟩]
  vout := [⟨100, .NameUpdate [1, 2] [4] [9]⟩]

/-- A Namecoin transaction whose only output updates name 1,2. -/
def exTxSingleUpdate : CTransaction where
  GetHash := 21
  IsNamecoin := true
  vin := [⟨⟨1, 1⟩⟩]
  vout := [⟨100, .NameUpdate [1, 2] [4] [9]⟩]

/-- A call made on the view, with its arguments (of `ModifyCoins` the
transaction id). -/
inductive ViewCall where
  | SetName (name : valtype) (data : CNameData) (undo : Bool)
  | DeleteName (name : valtype)
  | ModifyCoins (txid : uint256)
  deriving DecidableEq

/-- The modelled view together with the list of the calls made on it so far:
each operation is carried out on the view and written down, with its
arguments, at the end of the list. -/
def recordingOps : ViewOps (CCoinsViewCache × List ViewCall) where
  GetName := fun s name => s.1.GetName name
  SetName := fun s name data undo =>
    (s.1.SetName name data undo, s.2 ++ [.SetName name data undo])
  DeleteName := fun s name => (s.1.DeleteName name, s.2 ++ [.DeleteName name])
  ModifyCoins := fun s txid f => (s.1.ModifyCoins txid f, s.2 ++ [.ModifyCoins txid])

/-! ## Vocabulary of the claims on `CNameMemPool` -/

/-- A name operation collides with the index: a `NameNew` whose hash is mapped
to another transaction, a first-update whose name has a pending registration,
or an update whose name has a pending update. -/
def collides (m : CNameMemPool) (txHash : uint256) : CNameScript → Bool
  | .NonName _ => false
  | .NameNew hash _ =>
    match m.mapNameNews hash with
    | some mapped => decide (mapped ≠ txHash)
    | none => false
  | .NameFirstUpdate name _ _ _ _ => (m.mapNameRegs name).isSome
  | .NameUpdate name _ _ => (m.mapNameUpdates name).isSome

/-- Add a sequence of (txid, entry) pairs in order; `none` when an assertion
of `addUnchecked` fails. -/
def addAll : CNameMemPool → List (uint256 × CTxMemPoolEntry) → Option CNameMemPool
  | m, [] => some m
  | m, (hash, entry) :: rest =>
    match m.addUnchecked hash entry with
    | none => none
    | some m1 => addAll m1 rest

/-- The empty index. -/
def exPoolEmpty : CNameMemPool where
  mapNameNews := fun _ => none
  mapNameRegs := fun _ => none
  mapNameUpdates := fun _ => none

/-- An index in which transaction 30 has published the commitment `exRand`,
transaction 31 registers name 5 and transaction 32 updates name 1,2. -/
def exPool : CNameMemPool where
  mapNameNews := fun k => if k = exRand then some 30 else none
  mapNameRegs := fun k => if k = [5] then some 31 else none
  mapNameUpdates := fun k => if k = [1, 2] then some 32 else none

/-- The pool entry of the update of name 1,2 of the examples. -/
def exEntryUpdate : CTxMemPoolEntry := ⟨exTxUpdate, .NameUpdate [1, 2] [4] [9]⟩

/-- The pool entry of the `NameNew` of the examples. -/
def exEntryNew : CTxMemPoolEntry := ⟨exTxNew, .NameNew exRand [9]⟩

/-! ## Vocabulary of the claims on the pool, `CheckNameDB` and `name_filter` -/

/-- The index without any pending operation. -/
def emptyIndex : CNameMemPool where
  mapNameNews := fun _ => none
  mapNameRegs := fun _ => none
  mapNameUpdates := fun _ => none

/-- No name is a key of both `pending_registrations` and `pending_updates`. -/
def KeysDisjoint (m : CNameMemPool) : Prop :=
  ∀ name : valtype, ¬ ((m.mapNameRegs name).isSome = true ∧ (m.mapNameUpdates name).isSome = true)

/-- Every registration and update mapping of `m1` is a mapping of `m`: keys
were only erased on the way from `m` to `m1`. -/
def KeysWithin (m1 m : CNameMemPool) : Prop :=
  ∀ (k : valtype) (t : uint256),
    (m1.mapNameRegs k = some t → m.mapNameRegs k = some t) ∧
    (m1.mapNameUpdates k = some t → m.mapNameUpdates k = some t)

/-- Modelled from the spec: the pool entry derived from a transaction with at
most one name output: it carries that output's name operation when the
transaction has the Namecoin flag, and no name operation otherwise. -/
def entryOf (tx : CTransaction) : CTxMemPoolEntry where
  tx := tx
  nameOp :=
    if tx.IsNamecoin then
      match nameOutputs tx with
      | [out] => out.nameOpOut
      | _ => .NonName []
    else .NonName []

/-- The list that `name_filter` is claimed to report: filter by age and
regular expression, then skip `from`, then keep `nb` when `nb > 0`. -/
def name_filter_spec (H : Int) (regexp : Option (valtype → Bool)) (maxage fromPos nb : Int)
    (entries : List (valtype × CNameData)) : List (valtype × CNameData) :=
  let kept := entries.filter (fun e =>
    (decide (maxage = 0) || decide (H - (e.2.height : Int) < maxage)) &&
      (match regexp with
        | none => true
        | some re => re e.1))
  let skipped := kept.drop fromPos.toNat
  if nb > 0 then skipped.take nb.toNat else skipped

/-- A new-style registration of name 5, transaction 40. -/
def exTxRegFive : CTransaction where
  GetHash := 40
  IsNamecoin := true
  vin := [⟨⟨1, 0⟩⟩]
  vout := [⟨100, .NameFirstUpdate [5] [] [6] true [9]⟩]

/-- An update of name 5, transaction 41. -/
def exTxUpdFive : CTransaction where
  GetHash := 41
  IsNamecoin := true
  vin := [⟨⟨3, 0⟩⟩]
  vout := [⟨100, .NameUpdate [5] [7] [9]⟩]

/-- A currency transaction whose input has no coins in the example views. -/
def exTxUnresolvable : CTransaction where
  GetHash := 42
  IsNamecoin := false
  vin := [⟨⟨1, 0⟩⟩, ⟨⟨99, 0⟩⟩]
  vout := [⟨7, .NonName []⟩]

/-- The age and regular-expression test of `name_filter_spec`. -/
def filterKeeps (H : Int) (regexp : Option (valtype → Bool)) (maxage : Int)
    (e : valtype × CNameData) : Bool :=
  (decide (maxage = 0) || decide (H - (e.2.height : Int) < maxage)) &&
    (match regexp with
      | none => true
      | some re => re e.1)

/-- Five name records at heights 1, 4, 6, 8 and 9; the names are the one-byte
strings 1 to 5. -/
def exEntries : List (valtype × CNameData) :=
  [([1], ⟨[], 1, ⟨0, 0⟩, [], false⟩), ([2], ⟨[], 4, ⟨0, 0⟩, [], false⟩),
    ([3], ⟨[], 6, ⟨0, 0⟩, [], false⟩), ([4], ⟨[], 8, ⟨0, 0⟩, [], false⟩),
    ([5], ⟨[], 9, ⟨0, 0⟩, [], false⟩)]

/-- A stand-in for a regular expression: it matches the names other than 3. -/
def exRegexp : valtype → Bool := fun name => decide (name ≠ [3])

/-! ## Vocabulary of the claims on eviction -/

/-- The entry carries a registration (`NameFirstUpdate`) of `name`. -/
def Registers (e : CTxMemPoolEntry) (name : valtype) : Prop :=
  ∃ (rand value : valtype) (ns : Bool) (addr : CScript),
    e.nameOp = .NameFirstUpdate name rand value ns addr

/-- The entry carries an update (`NameUpdate`) of `name`. -/
def Updates (e : CTxMemPoolEntry) (name : valtype) : Prop :=
  ∃ (value : valtype) (addr : CScript), e.nameOp = .NameUpdate name value addr

/-- Transaction `c` is `root` or descends from it inside the pool: it is a
pool transaction that spends an output of a transaction that is `root` or
descends from it. -/
inductive Descends (mapTx : List CTxMemPoolEntry) : uint256 → uint256 → Prop where
  | self (root : uint256) : Descends mapTx root root
  | step (e : CTxMemPoolEntry) (parent root : uint256) :
      e ∈ mapTx → spends e.tx parent = true → Descends mapTx parent root →
      Descends mapTx e.tx.GetHash root

/-- The name index is consistent with the pool's transactions, as
`CNameMemPool::check` (lines 160-223) asserts it: transaction ids are unique
in the pool, every registration key points at a pool transaction that
registers that name, and every registration and update carried by a pool
transaction is indexed under its name with its txid. -/
structure PoolConsistent (pool : CTxMemPool) : Prop where
  hashes_nodup : (pool.mapTx.map (fun e => e.tx.GetHash)).Nodup
  regs_point : ∀ (name : valtype) (txid : uint256),
    pool.names.mapNameRegs name = some txid →
    ∃ e ∈ pool.mapTx, e.tx.GetHash = txid ∧ Registers e name
  regs_indexed : ∀ e ∈ pool.mapTx, ∀ name : valtype, Registers e name →
    pool.names.mapNameRegs name = some e.tx.GetHash
  updates_indexed : ∀ e ∈ pool.mapTx, ∀ name : valtype, Updates e name →
    pool.names.mapNameUpdates name = some e.tx.GetHash

/-- The names carried by the `NameFirstUpdate` outputs, in output order. -/
def firstUpdateNames (outs : List CTxOut) : List valtype :=
  outs.filterMap (fun o =>
    match o.scriptPubKey with
    | .NameFirstUpdate name _ _ _ _ => some name
    | _ => none)

/-- Pool transaction 31: the pending registration of name 5. -/
def exEntryReg31 : CTxMemPoolEntry :=
  ⟨⟨31, true, [⟨⟨1, 0⟩⟩], [⟨100, .NameFirstUpdate [5] [] [6] true [9]⟩]⟩,
    .NameFirstUpdate [5] [] [6] true [9]⟩

/-- Pool transaction 32: the pending update of name 1,2. -/
def exEntryUpd32 : CTxMemPoolEntry :=
  ⟨⟨32, true, [⟨⟨1, 1⟩⟩], [⟨100, .NameUpdate [1, 2] [4] [9]⟩]⟩, .NameUpdate [1, 2] [4] [9]⟩

/-- Pool transaction 33: a currency transaction that spends output 0 of
transaction 31. -/
def exEntryChild33 : CTxMemPoolEntry :=
  ⟨⟨33, false, [⟨⟨31, 0⟩⟩], [⟨7, .NonName []⟩]⟩, .NonName []⟩

/-- A consistent pool with the three transactions 31, 32 and 33. -/
def exTxPool : CTxMemPool where
  mapTx := [exEntryReg31, exEntryUpd32, exEntryChild33]
  names :=
    { mapNameNews := fun _ => none
      mapNameRegs := fun k => if k = [5] then some 31 else none
      mapNameUpdates := fun k => if k = [1, 2] then some 32 else none }

/-! ## Lemmas on the two locating loops -/

theorem locate_some_cons {α : Type} (a x : α) (xs : List α) :
    locate (some a) (x :: xs) = .ret false := rfl

theorem locate_nil {α : Type} (acc : Option α) : locate acc [] = .next acc := by
  cases acc <;> rfl

theorem locate_none_single {α : Type} (x : α) : locate none [x] = .next (some x) := rfl

theorem locate_none_two {α : Type} (x y : α) (zs : List α) :
    locate none (x :: y :: zs) = .ret false := rfl

theorem locate_ret {α : Type} (acc : Option α) (xs : List α) (b : Bool)
    (h : locate acc xs = .ret b) : b = false := by
  match acc, xs with
  | acc, [] => simp [locate_nil] at h
  | some a, x :: xs => simpa [locate] using h.symm
  | none, [x] => simp [locate] at h
  | none, x :: y :: zs => simpa [locate] using h.symm

theorem locate_ne_abort {α : Type} (acc : Option α) (xs : List α) :
    locate acc xs ≠ .abort := by
  match acc, xs with
  | acc, [] => simp [locate_nil]
  | some a, x :: xs => simp [locate]
  | none, [x] => simp [locate]
  | none, x :: y :: zs => simp [locate]

theorem locate_none_next {α : Type} (xs : List α) (r : Option α)
    (h : locate none xs = .next r) : xs = r.toList := by
  match xs with
  | [] => simp [locate] at h; simp [← h]
  | [x] => simp [locate] at h; simp [← h]
  | x :: y :: zs => simp [locate] at h

theorem scanOutputs_eq_locate (vout : List CTxOut) (i : Nat) (acc : Option NameOutput) :
    scanOutputs vout i acc = locate acc (nameOutputsFrom vout i) := by
  induction vout generalizing i acc with
  | nil => simp [scanOutputs, nameOutputsFrom, locate_nil]
  | cons out rest ih =>
    simp only [scanOutputs, nameOutputsFrom]
    split
    · cases acc with
      | none => simp [locate, ih]
      | some a => simp [locate]
    · exact ih _ _

theorem scanInputs_eq_locate (view : CCoinsViewCache) (vin : List CTxIn) (i : Nat)
    (acc : Option NameInput) (h : vin.all (inputResolvable view) = true) :
    scanInputs view vin i acc = locate acc (nameInputsFrom view vin i) := by
  induction vin generalizing i acc with
  | nil => simp [scanInputs, nameInputsFrom, locate_nil]
  | cons txin rest ih =>
    simp only [List.all_cons, Bool.and_eq_true] at h
    obtain ⟨h1, h2⟩ := h
    simp only [inputResolvable] at h1
    simp only [scanInputs, nameInputsFrom]
    cases hc : view.GetCoins txin.prevout.hash with
    | none => simp [hc] at h1
    | some coins =>
      simp only [hc, decide_eq_true_eq] at h1
      have hget : coins.vout[txin.prevout.n]? = some (coins.vout[txin.prevout.n]) :=
        List.getElem?_eq_getElem h1
      simp only [hget]
      split
      · cases acc with
        | none => simp [locate, ih _ _ h2]
        | some a => simp [locate]
      · exact ih _ _ h2

theorem scanInputs_ne_abort (view : CCoinsViewCache) (vin : List CTxIn) (i : Nat)
    (acc : Option NameInput) (h : vin.all (inputInRange view) = true) :
    scanInputs view vin i acc ≠ .abort := by
  induction vin generalizing i acc with
  | nil => simp [scanInputs]
  | cons txin rest ih =>
    simp only [List.all_cons, Bool.and_eq_true] at h
    obtain ⟨h1, h2⟩ := h
    simp only [inputInRange] at h1
    simp only [scanInputs]
    cases hc : view.GetCoins txin.prevout.hash with
    | none => simp
    | some coins =>
      simp only [hc, decide_eq_true_eq] at h1
      have hget : coins.vout[txin.prevout.n]? = some (coins.vout[txin.prevout.n]) :=
        List.getElem?_eq_getElem h1
      simp only [hget]
      split
      · cases acc with
        | none => simpa using ih _ _ h2
        | some a => simp
      · exact ih _ _ h2

theorem scanInputs_ret (view : CCoinsViewCache) (vin : List CTxIn) (i : Nat)
    (acc : Option NameInput) (b : Bool) (h : scanInputs view vin i acc = .ret b) :
    b = false := by
  induction vin generalizing i acc with
  | nil => simp [scanInputs] at h
  | cons txin rest ih =>
    simp only [scanInputs] at h
    split at h
    · simpa using h.symm
    · split at h
      · simp at h
      · split at h
        · split at h
          · simpa using h.symm
          · exact ih _ _ h
        · exact ih _ _ h

theorem scanInputs_next_resolvable (view : CCoinsViewCache) (vin : List CTxIn) (i : Nat)
    (acc r : Option NameInput) (h : scanInputs view vin i acc = .next r) :
    vin.all (inputResolvable view) = true := by
  induction vin generalizing i acc with
  | nil => simp
  | cons txin rest ih =>
    simp only [scanInputs] at h
    simp only [List.all_cons, Bool.and_eq_true, inputResolvable]
    split at h
    · simp at h
    · rename_i coins hc
      split at h
      · simp at h
      · rename_i out hout
        have hlt : txin.prevout.n < coins.vout.length := by
          by_contra hge
          rw [List.getElem?_eq_none (Nat.le_of_not_lt hge)] at hout
          simp at hout
        refine ⟨by simp [hc, hlt], ?_⟩
        split at h
        · split at h
          · simp at h
          · exact ih _ _ h
        · exact ih _ _ h

/-- With every input resolvable and no historic bug, the check is the
post-loop part applied to what the two loops located. -/
theorem check_eq_of_resolvable (P : Params) (tx : CTransaction) (nHeight : Nat)
    (view : CCoinsViewCache) (flags : Nat)
    (hbug : P.IsHistoricBug tx.GetHash nHeight = none)
    (hres : InputsResolvable view tx = true) :
    CheckNameTransaction P tx nHeight view flags =
      match locate none (nameInputs view tx) with
      | .abort => none
      | .ret b => some b
      | .next nameIn =>
        match locate none (nameOutputs tx) with
        | .abort => none
        | .ret b => some b
        | .next nameOut =>
          checkLocated P tx nHeight view (fMempoolOf P flags) nameIn nameOut := by
  simp only [CheckNameTransaction, hbug, Option.isSome_none, Bool.false_eq_true, if_false]
  rw [scanInputs_eq_locate view tx.vin 0 none hres, scanOutputs_eq_locate]
  rfl

theorem nameInputsFrom_coins (v w : CCoinsViewCache) (h : w.coins = v.coins)
    (vin : List CTxIn) (i : Nat) : nameInputsFrom w vin i = nameInputsFrom v vin i := by
  induction vin generalizing i with
  | nil => rfl
  | cons txin rest ih => simp only [nameInputsFrom, CCoinsViewCache.GetCoins, h, ih]

theorem InputsResolvable_coins (v w : CCoinsViewCache) (h : w.coins = v.coins)
    (tx : CTransaction) : InputsResolvable w tx = InputsResolvable v tx := by
  have : inputResolvable w = inputResolvable v := by
    funext txin
    simp only [inputResolvable, CCoinsViewCache.GetCoins, h]
  simp only [InputsResolvable, this]

/-! ## Theorems on `CheckNameTransaction` -/

/-- C10 (historic-bug bypass): when (txid, height) is on the historic-bug list
with a disposition other than fully-apply, `CheckNameTransaction` returns
success for every transaction with that id, every view and all flags: the
inputs, the outputs, the coins and the name database are not looked at. -/
theorem C10_historic_bug_bypass (P : Params) (txid : uint256) (nHeight : Nat)
    (type : BugType) (hbug : P.IsHistoricBug txid nHeight = some type)
    (_htype : type ≠ .BUG_FULLY_APPLY) :
    ∀ (tx : CTransaction) (view : CCoinsViewCache) (flags : Nat),
      tx.GetHash = txid → CheckNameTransaction P tx nHeight view flags = some true := by
  intro tx view flags htx
  simp [CheckNameTransaction, htx, hbug]

/-- Instance of C10: transaction 666 at height 7 is accepted although its
input has no coins and it carries two name outputs. -/
theorem C10_historic_bug_bypass_witness :
    InputsResolvable exViewEmpty exTxBuggy = false ∧
    (nameOutputs exTxBuggy).length = 2 ∧
    CheckNameTransaction exParams exTxBuggy 7 exViewEmpty 0 = some true :=
  ⟨by decide, by decide,
    C10_historic_bug_bypass exParams 666 7 .BUG_OTHER (by decide) (by decide)
      exTxBuggy exViewEmpty 0 rfl⟩

/-- Verdict on a located `NameNew` output with a sufficient amount. -/
theorem check_name_new_verdict (P : Params) (tx : CTransaction) (nHeight : Nat)
    (view : CCoinsViewCache) (flags : Nat) (out : NameOutput) (hash : valtype)
    (addr : CScript)
    (hbug : P.IsHistoricBug tx.GetHash nHeight = none)
    (hflag : tx.IsNamecoin = true)
    (hres : InputsResolvable view tx = true)
    (hout : nameOutputs tx = [out])
    (hop : out.nameOpOut = .NameNew hash addr)
    (hamount : P.NAMENEW_COIN_AMOUNT ≤ out.nValue) :
    CheckNameTransaction P tx nHeight view flags
        = some (decide (nameInputs view tx = [] ∧ hash.length = 20)) := by
  rw [check_eq_of_resolvable P tx nHeight view flags hbug hres, hout]
  have hnot : ¬ out.nValue < P.NAMENEW_COIN_AMOUNT := not_lt.mpr hamount
  match hl : nameInputs view tx with
  | [] =>
    by_cases h20 : hash.length = 20 <;>
      simp [locate, checkLocated, hflag, hop, hnot, CNameScript.getNameOp,
        CNameScript.getOpHash, h20]
  | [inp] => simp [locate, checkLocated, hflag, hop, hnot, CNameScript.getNameOp]
  | x :: y :: zs => simp [locate]

/-- C8 (NameNew rule): for a transaction that is not a historic bug, has the
Namecoin flag, resolvable inputs and as single name output a NameNew with
amount at least NAMENEW_COIN_AMOUNT, `CheckNameTransaction` returns a verdict,
and it accepts exactly when no input spends a name output and the commitment
has 20 bytes; the verdict is the same at every height, for all flags and for
every name database. -/
theorem C8_name_new_rule (P : Params) (tx : CTransaction) (nHeight : Nat)
    (view : CCoinsViewCache) (flags : Nat) (out : NameOutput) (hash : valtype)
    (addr : CScript)
    (hbug : P.IsHistoricBug tx.GetHash nHeight = none)
    (hflag : tx.IsNamecoin = true)
    (hres : InputsResolvable view tx = true)
    (hout : nameOutputs tx = [out])
    (hop : out.nameOpOut = .NameNew hash addr)
    (hamount : P.NAMENEW_COIN_AMOUNT ≤ out.nValue) :
    CheckNameTransaction P tx nHeight view flags
        = some (decide (nameInputs view tx = [] ∧ hash.length = 20)) ∧
    ∀ (nHeight1 : Nat) (view1 : CCoinsViewCache) (flags1 : Nat),
      P.IsHistoricBug tx.GetHash nHeight1 = none → view1.coins = view.coins →
      CheckNameTransaction P tx nHeight1 view1 flags1
        = CheckNameTransaction P tx nHeight view flags := by
  have key : ∀ (h1 : Nat) (v1 : CCoinsViewCache) (f1 : Nat),
      P.IsHistoricBug tx.GetHash h1 = none → v1.coins = view.coins →
      CheckNameTransaction P tx h1 v1 f1
        = some (decide (nameInputs view tx = [] ∧ hash.length = 20)) := by
    intro h1 v1 f1 hb hc
    have hres1 : InputsResolvable v1 tx = true := by
      rw [InputsResolvable_coins view v1 hc]; exact hres
    have hin : nameInputs v1 tx = nameInputs view tx := nameInputsFrom_coins view v1 hc _ _
    rw [check_eq_of_resolvable P tx h1 v1 f1 hb hres1, hout, hin]
    have hnot : ¬ out.nValue < P.NAMENEW_COIN_AMOUNT := not_lt.mpr hamount
    match hl : nameInputs view tx with
    | [] =>
      by_cases h20 : hash.length = 20 <;>
        simp [locate, checkLocated, hflag, hop, hnot, CNameScript.getNameOp,
          CNameScript.getOpHash, h20]
    | [inp] => simp [locate, checkLocated, hflag, hop, hnot, CNameScript.getNameOp]
    | x :: y :: zs => simp [locate]
  refine ⟨key nHeight view flags hbug rfl, ?_⟩
  intro h1 v1 f1 hb hc
  rw [key h1 v1 f1 hb hc, key nHeight view flags hbug rfl]

/-- Instance of C8: the NameNew of the examples is accepted. -/
theorem C8_name_new_rule_witness :
    CheckNameTransaction exParams exTxNew 7 exViewEmpty 0
        = some (decide (nameInputs exViewEmpty exTxNew = [] ∧ exRand.length = 20)) ∧
    ∀ (nHeight1 : Nat) (view1 : CCoinsViewCache) (flags1 : Nat),
      exParams.IsHistoricBug exTxNew.GetHash nHeight1 = none →
      view1.coins = exViewEmpty.coins →
      CheckNameTransaction exParams exTxNew nHeight1 view1 flags1
        = CheckNameTransaction exParams exTxNew 7 exViewEmpty 0 :=
  C8_name_new_rule exParams exTxNew 7 exViewEmpty 0 ⟨0, .NameNew exRand [9], 100⟩ exRand [9]
    (by decide) (by decide) (by decide) (by decide) rfl (by decide)

/-- C5 (Namecoin-flag consistency): for a transaction that is not a historic
bug and whose inputs are all resolvable, (a) without the Namecoin flag the
check accepts exactly when no input spends a name-operation output and no
output is a name operation, and the verdict is the same at every height, for
all flags and every name database; (b) with the Namecoin flag and no name
output the check rejects. -/
theorem C5_namecoin_flag_consistency (P : Params) (tx : CTransaction) (nHeight : Nat)
    (view : CCoinsViewCache) (flags : Nat)
    (hbug : P.IsHistoricBug tx.GetHash nHeight = none)
    (hres : InputsResolvable view tx = true) :
    (tx.IsNamecoin = false →
      CheckNameTransaction P tx nHeight view flags
          = some (decide (nameInputs view tx = [] ∧ nameOutputs tx = [])) ∧
      ∀ (nHeight1 : Nat) (view1 : CCoinsViewCache) (flags1 : Nat),
        P.IsHistoricBug tx.GetHash nHeight1 = none → view1.coins = view.coins →
        CheckNameTransaction P tx nHeight1 view1 flags1
          = CheckNameTransaction P tx nHeight view flags) ∧
    (tx.IsNamecoin = true → nameOutputs tx = [] →
      CheckNameTransaction P tx nHeight view flags = some false) := by
  constructor
  · intro hflag
    have key : ∀ (h1 : Nat) (v1 : CCoinsViewCache) (f1 : Nat),
        P.IsHistoricBug tx.GetHash h1 = none → v1.coins = view.coins →
        CheckNameTransaction P tx h1 v1 f1
          = some (decide (nameInputs view tx = [] ∧ nameOutputs tx = [])) := by
      intro h1 v1 f1 hb hc
      have hres1 : InputsResolvable v1 tx = true := by
        rw [InputsResolvable_coins view v1 hc]; exact hres
      have hin : nameInputs v1 tx = nameInputs view tx := nameInputsFrom_coins view v1 hc _ _
      rw [check_eq_of_resolvable P tx h1 v1 f1 hb hres1, hin]
      match nameInputs view tx, nameOutputs tx with
      | [], [] => simp [locate, checkLocated, hflag]
      | [], [y] => simp [locate, checkLocated, hflag]
      | [], y :: y1 :: ys => simp [locate]
      | [x], [] => simp [locate, checkLocated, hflag]
      | [x], [y] => simp [locate, checkLocated, hflag]
      | [x], y :: y1 :: ys => simp [locate]
      | x :: x1 :: xs, _ => simp [locate]
    refine ⟨key nHeight view flags hbug rfl, ?_⟩
    intro h1 v1 f1 hb hc
    rw [key h1 v1 f1 hb hc, key nHeight view flags hbug rfl]
  · intro hflag hout
    rw [check_eq_of_resolvable P tx nHeight view flags hbug hres, hout]
    match nameInputs view tx with
    | [] => simp [locate, checkLocated, hflag]
    | [x] => simp [locate, checkLocated, hflag]
    | x :: x1 :: xs => simp [locate]

/-- Instance of C5: a currency transaction without name content is accepted,
and a Namecoin-flagged transaction without name output is rejected. -/
theorem C5_namecoin_flag_consistency_witness :
    CheckNameTransaction exParams exTxPlain 7 exViewEmpty 0
        = some (decide (nameInputs exViewEmpty exTxPlain = [] ∧ nameOutputs exTxPlain = [])) ∧
    CheckNameTransaction exParams exTxFlagOnly 7 exViewEmpty 0 = some false :=
  ⟨((C5_namecoin_flag_consistency exParams exTxPlain 7 exViewEmpty 0
      (by decide) (by decide)).1 (by decide)).1,
    (C5_namecoin_flag_consistency exParams exTxFlagOnly 7 exViewEmpty 0
      (by decide) (by decide)).2 (by decide) (by decide)⟩

/-- C4 (new-style NameFirstUpdate rule): for a transaction that is not a
historic bug, has the Namecoin flag, resolvable inputs and as single name
output a new-style NameFirstUpdate with amount at least NAMENEW_COIN_AMOUNT,
the check returns a verdict and accepts exactly when no input spends a name
output, the name has at most MAX_NAME_LENGTH bytes, the value at most
MAX_VALUE_LENGTH bytes, and the name has no record or a dead one; the verdict
is the same at every height and for all flags. -/
theorem C4_new_style_first_update_rule (P : Params) (tx : CTransaction) (nHeight : Nat)
    (view : CCoinsViewCache) (flags : Nat) (out : NameOutput)
    (name rand value : valtype) (addr : CScript)
    (hbug : P.IsHistoricBug tx.GetHash nHeight = none)
    (hflag : tx.IsNamecoin = true)
    (hres : InputsResolvable view tx = true)
    (hout : nameOutputs tx = [out])
    (hop : out.nameOpOut = .NameFirstUpdate name rand value true addr)
    (hamount : P.NAMENEW_COIN_AMOUNT ≤ out.nValue) :
    CheckNameTransaction P tx nHeight view flags
        = some (decide (nameInputs view tx = [] ∧ name.length ≤ P.MAX_NAME_LENGTH ∧
            value.length ≤ P.MAX_VALUE_LENGTH ∧ absentOrDead view name = true)) ∧
    ∀ (nHeight1 flags1 : Nat), P.IsHistoricBug tx.GetHash nHeight1 = none →
      CheckNameTransaction P tx nHeight1 view flags1
        = CheckNameTransaction P tx nHeight view flags := by
  have key : ∀ (h1 f1 : Nat), P.IsHistoricBug tx.GetHash h1 = none →
      CheckNameTransaction P tx h1 view f1
        = some (decide (nameInputs view tx = [] ∧ name.length ≤ P.MAX_NAME_LENGTH ∧
            value.length ≤ P.MAX_VALUE_LENGTH ∧ absentOrDead view name = true)) := by
    intro h1 f1 hb
    rw [check_eq_of_resolvable P tx h1 view f1 hb hres, hout]
    have hnot : ¬ out.nValue < P.NAMENEW_COIN_AMOUNT := not_lt.mpr hamount
    match hl : nameInputs view tx with
    | [] =>
      by_cases hn : name.length ≤ P.MAX_NAME_LENGTH
      · by_cases hv : value.length ≤ P.MAX_VALUE_LENGTH
        · have hn1 : ¬ P.MAX_NAME_LENGTH < name.length := not_lt.mpr hn
          have hv1 : ¬ P.MAX_VALUE_LENGTH < value.length := not_lt.mpr hv
          cases hrec : view.GetName name with
          | none =>
            simp [locate, checkLocated, checkAnyUpdate, checkFirstUpdate,
              checkFirstUpdateRecord, absentOrDead, hflag, hop, hnot, hn, hv, hrec, hn1, hv1,
              CNameScript.getNameOp, CNameScript.isAnyUpdate,
              CNameScript.isNewStyleRegistration, CNameScript.getOpName,
              CNameScript.getOpValue]
          | some d =>
            cases hd : d.isDead <;>
            simp [locate, checkLocated, checkAnyUpdate, checkFirstUpdate,
              checkFirstUpdateRecord, absentOrDead, hflag, hop, hnot, hn, hv, hrec, hd, hn1,
              hv1,
              CNameScript.getNameOp, CNameScript.isAnyUpdate,
              CNameScript.isNewStyleRegistration, CNameScript.getOpName,
              CNameScript.getOpValue]
        · simp [locate, checkLocated, checkAnyUpdate, hflag, hop, hnot, hn, hv,
            CNameScript.getNameOp, CNameScript.isAnyUpdate,
            CNameScript.isNewStyleRegistration, CNameScript.getOpName,
            CNameScript.getOpValue]
      · simp [locate, checkLocated, checkAnyUpdate, hflag, hop, hnot, hn,
          CNameScript.getNameOp, CNameScript.isAnyUpdate,
          CNameScript.isNewStyleRegistration, CNameScript.getOpName]
    | [inp] =>
      simp [locate, checkLocated, checkAnyUpdate, hflag, hop, hnot,
        CNameScript.getNameOp, CNameScript.isAnyUpdate,
        CNameScript.isNewStyleRegistration]
    | x :: y :: zs => simp [locate]
  refine ⟨key nHeight flags hbug, ?_⟩
  intro h1 f1 hb
  rw [key h1 f1 hb, key nHeight flags hbug]

/-- Instance of C4: the new-style registration of the examples is accepted on
the empty name database. -/
theorem C4_new_style_first_update_rule_witness :
    CheckNameTransaction exParams exTxFirstNew 7 exViewEmpty 0
        = some (decide (nameInputs exViewEmpty exTxFirstNew = [] ∧
            [1, 2].length ≤ exParams.MAX_NAME_LENGTH ∧
            [4].length ≤ exParams.MAX_VALUE_LENGTH ∧
            absentOrDead exViewEmpty [1, 2] = true)) ∧
    ∀ (nHeight1 flags1 : Nat), exParams.IsHistoricBug exTxFirstNew.GetHash nHeight1 = none →
      CheckNameTransaction exParams exTxFirstNew nHeight1 exViewEmpty flags1
        = CheckNameTransaction exParams exTxFirstNew 7 exViewEmpty 0 :=
  C4_new_style_first_update_rule exParams exTxFirstNew 7 exViewEmpty 0
    ⟨0, .NameFirstUpdate [1, 2] [] [4] true [9], 100⟩ [1, 2] [] [4] [9]
    (by decide) (by decide) (by decide) (by decide) rfl (by decide)

/-- The branch taken for a `NameUpdate` output once the loops located it and
the amount is sufficient. -/
theorem checkLocated_update (P : Params) (tx : CTransaction) (nHeight : Nat)
    (view : CCoinsViewCache) (fm : Bool) (nameIn : Option NameInput) (out : NameOutput)
    (name value : valtype) (addr : CScript)
    (hflag : tx.IsNamecoin = true)
    (hop : out.nameOpOut = .NameUpdate name value addr)
    (hamount : P.NAMENEW_COIN_AMOUNT ≤ out.nValue) :
    checkLocated P tx nHeight view fm nameIn (some out) =
      if nameIn.isNone then some false
      else if name.length > P.MAX_NAME_LENGTH then some false
      else if value.length > P.MAX_VALUE_LENGTH then some false
      else checkNameUpdate view name out nameIn := by
  have hnot : ¬ out.nValue < P.NAMENEW_COIN_AMOUNT := not_lt.mpr hamount
  cases nameIn <;>
    simp [checkLocated, checkAnyUpdate, hflag, hop, hnot, CNameScript.getNameOp,
      CNameScript.isAnyUpdate, CNameScript.getOpName, CNameScript.getOpValue]

/-- The record checks of the `NameUpdate` branch, under the consistency of
the stored record with the spent coin. -/
theorem checkUpdateRecord_spec (view : CCoinsViewCache) (name : valtype) (inp : NameInput)
    (hcons : ∀ rec : CNameData, view.GetName name = some rec → rec.isDead = false →
      inp.coinsIn.nHeight = rec.getHeight ∧ inp.prevout = rec.getUpdateOutpoint) :
    checkUpdateRecord view name inp ≠ none ∧
    (checkUpdateRecord view name inp = some true ↔
      ∃ rec : CNameData, view.GetName name = some rec ∧ rec.isDead = false) := by
  unfold checkUpdateRecord
  cases hrec : view.GetName name with
  | none => simp
  | some rec =>
    cases hd : rec.isDead with
    | true => simp [hd]
    | false =>
      obtain ⟨h1, h2⟩ := hcons rec hrec hd
      simp [hd, h1, h2]

/-- C2 (NameUpdate rule): for a transaction that is not a historic bug, has
the Namecoin flag, resolvable inputs and as single name output a NameUpdate
with amount at least NAMENEW_COIN_AMOUNT, and assuming that a stored living
record of the name agrees with the spent name coin in height and outpoint, the
check returns a verdict, and it accepts if and only if there is exactly one
name input, its operation is a NameFirstUpdate or NameUpdate, its name is the
output's name, the output amount is at least the input amount, the name has at
most MAX_NAME_LENGTH bytes, the value at most MAX_VALUE_LENGTH bytes, and the
name database has a record for the name that is not dead. -/
theorem C2_name_update_rule (P : Params) (tx : CTransaction) (nHeight : Nat)
    (view : CCoinsViewCache) (flags : Nat) (out : NameOutput)
    (name value : valtype) (addr : CScript)
    (hbug : P.IsHistoricBug tx.GetHash nHeight = none)
    (hflag : tx.IsNamecoin = true)
    (hres : InputsResolvable view tx = true)
    (hout : nameOutputs tx = [out])
    (hop : out.nameOpOut = .NameUpdate name value addr)
    (hamount : P.NAMENEW_COIN_AMOUNT ≤ out.nValue)
    (hcons : ∀ (inp : NameInput) (rec : CNameData), nameInputs view tx = [inp] →
      view.GetName name = some rec → rec.isDead = false →
      inp.coinsIn.nHeight = rec.getHeight ∧ inp.prevout = rec.getUpdateOutpoint) :
    CheckNameTransaction P tx nHeight view flags ≠ none ∧
    (CheckNameTransaction P tx nHeight view flags = some true ↔
      ∃ inp : NameInput, nameInputs view tx = [inp] ∧
        (inp.nameOpIn.getNameOp = .OP_NAME_FIRSTUPDATE ∨
          inp.nameOpIn.getNameOp = .OP_NAME_UPDATE) ∧
        inp.nameOpIn.getOpName = some name ∧
        inp.nameAmountIn ≤ out.nValue ∧
        name.length ≤ P.MAX_NAME_LENGTH ∧
        value.length ≤ P.MAX_VALUE_LENGTH ∧
        ∃ rec : CNameData, view.GetName name = some rec ∧ rec.isDead = false) := by
  rw [check_eq_of_resolvable P tx nHeight view flags hbug hres, hout]
  match hl : nameInputs view tx with
  | [] => simp [locate, checkLocated_update P tx nHeight view _ _ out name value addr hflag hop hamount]
  | x :: y :: zs => simp [locate]
  | [inp] =>
    simp only [locate, checkLocated_update P tx nHeight view _ _ out name value addr hflag hop
      hamount, Option.isNone_some, Bool.false_eq_true, if_false, List.cons.injEq, and_true,
      exists_eq_left']
    by_cases hn : name.length ≤ P.MAX_NAME_LENGTH
    swap
    · simp [hn, not_le.mp hn]
    by_cases hv : value.length ≤ P.MAX_VALUE_LENGTH
    swap
    · simp [hv, not_le.mp hv]
    by_cases ha : inp.nameAmountIn ≤ out.nValue
    swap
    · simp [checkNameUpdate, ha, not_le.mp ha, not_lt.mpr hn, not_lt.mpr hv]
    simp only [gt_iff_lt, not_lt.mpr hn, not_lt.mpr hv, if_false, checkNameUpdate,
      not_lt.mpr ha, hn, hv, ha, true_and]
    rcases hin : inp.nameOpIn with a | ⟨h, a⟩ | ⟨n, r, v, ns, a⟩ | ⟨n, v, a⟩ <;>
      simp only [CNameScript.isAnyUpdate, CNameScript.getNameOp, CNameScript.getOpName]
    · simp
    · simp
    · by_cases hnm : name = n
      · subst hnm
        simpa using checkUpdateRecord_spec view name inp (fun rec => hcons inp rec hl)
      · have hnm1 : ¬ n = name := fun h => hnm h.symm
        simp [hnm, hnm1]
    · by_cases hnm : name = n
      · subst hnm
        simpa using checkUpdateRecord_spec view name inp (fun rec => hcons inp rec hl)
      · have hnm1 : ¬ n = name := fun h => hnm h.symm
        simp [hnm, hnm1]

/-- Instance of C2: the update of the examples is accepted on the view in
which the name is living. -/
theorem C2_name_update_rule_witness :
    CheckNameTransaction exParams exTxUpdate 10 exViewLiving 0 ≠ none ∧
    (CheckNameTransaction exParams exTxUpdate 10 exViewLiving 0 = some true ↔
      ∃ inp : NameInput, nameInputs exViewLiving exTxUpdate = [inp] ∧
        (inp.nameOpIn.getNameOp = .OP_NAME_FIRSTUPDATE ∨
          inp.nameOpIn.getNameOp = .OP_NAME_UPDATE) ∧
        inp.nameOpIn.getOpName = some [1, 2] ∧
        inp.nameAmountIn ≤ (100 : CAmount) ∧
        [1, 2].length ≤ exParams.MAX_NAME_LENGTH ∧
        [4].length ≤ exParams.MAX_VALUE_LENGTH ∧
        ∃ rec : CNameData, exViewLiving.GetName [1, 2] = some rec ∧ rec.isDead = false) :=
  C2_name_update_rule exParams exTxUpdate 10 exViewLiving 0
    ⟨0, .NameUpdate [1, 2] [4] [9], 100⟩ [1, 2] [4] [9]
    (by decide) (by decide) (by decide) (by decide) rfl (by decide)
    (by
      intro inp rec h1 h2 _
      have e1 : nameInputs exViewLiving exTxUpdate =
          [⟨1, ⟨1, 1⟩, .NameUpdate [1, 2] [3] [9], 100,
            ⟨[⟨50, .NonName []⟩, ⟨100, .NameUpdate [1, 2] [3] [9]⟩], 5⟩⟩] := by decide
      have e2 : exViewLiving.GetName [1, 2] = some ⟨[3], 5, ⟨1, 1⟩, [9], false⟩ := by decide
      rw [e1] at h1
      rw [e2] at h2
      cases h1
      cases h2
      exact ⟨rfl, rfl⟩)

/-- The branch taken for an old-style `NameFirstUpdate` output once the loops
located it and the amount is sufficient. -/
theorem checkLocated_first_old (P : Params) (tx : CTransaction) (nHeight : Nat)
    (view : CCoinsViewCache) (fm : Bool) (nameIn : Option NameInput) (out : NameOutput)
    (name rand value : valtype) (addr : CScript)
    (hflag : tx.IsNamecoin = true)
    (hop : out.nameOpOut = .NameFirstUpdate name rand value false addr)
    (hamount : P.NAMENEW_COIN_AMOUNT ≤ out.nValue) :
    checkLocated P tx nHeight view fm nameIn (some out) =
      if nameIn.isNone then some false
      else if name.length > P.MAX_NAME_LENGTH then some false
      else if value.length > P.MAX_VALUE_LENGTH then some false
      else
        match checkOldStyle P nHeight fm name out nameIn with
        | .abort => none
        | .ret b => some b
        | .next _ => checkFirstUpdateRecord view name := by
  have hnot : ¬ out.nValue < P.NAMENEW_COIN_AMOUNT := not_lt.mpr hamount
  cases nameIn <;>
    simp [checkLocated, checkAnyUpdate, checkFirstUpdate, hflag, hop, hnot,
      CNameScript.getNameOp, CNameScript.isAnyUpdate, CNameScript.getOpName,
      CNameScript.getOpValue, CNameScript.isNewStyleRegistration]

/-- The last check of a first-update in terms of `absentOrDead`. -/
theorem checkFirstUpdateRecord_eq (view : CCoinsViewCache) (name : valtype) :
    checkFirstUpdateRecord view name = some (absentOrDead view name) := by
  unfold checkFirstUpdateRecord absentOrDead
  cases view.GetName name with
  | none => rfl
  | some d => cases hd : d.isDead <;> simp [hd]

/-- The old-style checks when the located input is a `NameNew` with a 20-byte
commitment whose coins are not at the mempool height. -/
theorem checkOldStyle_name_new (P : Params) (nHeight : Nat) (fm : Bool)
    (name rand value committed : valtype) (addr a : CScript) (out : NameOutput)
    (inp : NameInput)
    (hop : out.nameOpOut = .NameFirstUpdate name rand value false addr)
    (hin : inp.nameOpIn = .NameNew committed a)
    (h20 : committed.length = 20)
    (hmp : inp.coinsIn.nHeight ≠ P.MEMPOOL_HEIGHT) :
    checkOldStyle P nHeight fm name out (some inp) =
      if (fm = false → inp.coinsIn.nHeight + P.MIN_FIRSTUPDATE_DEPTH ≤ nHeight) ∧
          rand.length ≤ 20 ∧ P.Hash160 (rand ++ name) = committed
      then .next () else .ret false := by
  simp only [checkOldStyle, hin, hop, CNameScript.getNameOp, CNameScript.getOpRand,
    CNameScript.getOpHash, h20, hmp]
  cases fm <;>
    rcases Nat.lt_or_ge nHeight (inp.coinsIn.nHeight + P.MIN_FIRSTUPDATE_DEPTH) with hmat | hmat <;>
    rcases Nat.lt_or_ge 20 rand.length with hr | hr <;>
    by_cases hh : P.Hash160 (rand ++ name) = committed <;>
    simp [hmat, hr, hh, Nat.not_le.mpr, Nat.not_lt.mpr]

/-- The old-style first-update rule on the located name input. -/
theorem checkLocated_first_old_spec (P : Params) (tx : CTransaction) (nHeight : Nat)
    (view : CCoinsViewCache) (fm : Bool) (inp : NameInput) (out : NameOutput)
    (name rand value : valtype) (addr : CScript)
    (hflag : tx.IsNamecoin = true)
    (hop : out.nameOpOut = .NameFirstUpdate name rand value false addr)
    (hamount : P.NAMENEW_COIN_AMOUNT ≤ out.nValue)
    (hsafe : ∀ (committed : valtype) (a : CScript), inp.nameOpIn = .NameNew committed a →
      committed.length = 20 ∧ inp.coinsIn.nHeight ≠ P.MEMPOOL_HEIGHT) :
    checkLocated P tx nHeight view fm (some inp) (some out) ≠ none ∧
    (checkLocated P tx nHeight view fm (some inp) (some out) = some true ↔
      ∃ (committed : valtype) (a : CScript),
        inp.nameOpIn = .NameNew committed a ∧
        rand.length ≤ 20 ∧
        P.Hash160 (rand ++ name) = committed ∧
        (fm = false → inp.coinsIn.nHeight + P.MIN_FIRSTUPDATE_DEPTH ≤ nHeight) ∧
        name.length ≤ P.MAX_NAME_LENGTH ∧
        value.length ≤ P.MAX_VALUE_LENGTH ∧
        absentOrDead view name = true) := by
  rw [checkLocated_first_old P tx nHeight view fm _ out name rand value addr hflag hop hamount]
  simp only [Option.isNone_some, Bool.false_eq_true, if_false]
  by_cases hn : name.length ≤ P.MAX_NAME_LENGTH
  swap
  · simp [hn, not_le.mp hn]
  by_cases hv : value.length ≤ P.MAX_VALUE_LENGTH
  swap
  · simp [hv, not_le.mp hv]
  simp only [gt_iff_lt, not_lt.mpr hn, not_lt.mpr hv, if_false, hn, hv, true_and,
    checkFirstUpdateRecord_eq]
  rcases hin : inp.nameOpIn with a | ⟨h, a⟩ | ⟨n, r, v, ns, a⟩ | ⟨n, v, a⟩
  · simp [checkOldStyle, hin, CNameScript.getNameOp]
  · obtain ⟨h20, hmp⟩ := hsafe h a hin
    rw [checkOldStyle_name_new P nHeight _ name rand value h addr a out inp hop hin h20 hmp]
    by_cases hc : (fm = false →
        inp.coinsIn.nHeight + P.MIN_FIRSTUPDATE_DEPTH ≤ nHeight) ∧
        rand.length ≤ 20 ∧ P.Hash160 (rand ++ name) = h
    · rw [if_pos hc]
      obtain ⟨c1, c2, c3⟩ := hc
      refine ⟨by simp, ?_, ?_⟩
      · intro hacc
        exact ⟨h, a, rfl, c2, c3, c1, by simpa using hacc⟩
      · rintro ⟨h1, a1, _, _, _, _, hdead⟩
        simp [hdead]
    · rw [if_neg hc]
      refine ⟨by simp, ?_, ?_⟩
      · intro hacc
        simp at hacc
      · rintro ⟨h1, a1, heq, c2, c3, c1, _⟩
        cases heq
        exact absurd ⟨c1, c2, c3⟩ hc
  · simp [checkOldStyle, hin, CNameScript.getNameOp]
  · simp [checkOldStyle, hin, CNameScript.getNameOp]

/-- C3 (old-style NameFirstUpdate rule): for a transaction that is not a
historic bug, has the Namecoin flag, resolvable inputs and as single name
output an old-style NameFirstUpdate with amount at least NAMENEW_COIN_AMOUNT
(and, when its name input is a NameNew, a 20-byte committed hash and an input
height different from MEMPOOL_HEIGHT), the check returns a verdict, and it
accepts if and only if there is exactly one name input and it is a NameNew,
rand has at most 20 bytes, Hash160 (rand ++ name) is the committed hash,
outside mempool context input height + MIN_FIRSTUPDATE_DEPTH <= height, the
name has at most MAX_NAME_LENGTH bytes, the value at most MAX_VALUE_LENGTH
bytes, and the name has no record or a dead one. -/
theorem C3_old_style_first_update_rule (P : Params) (tx : CTransaction) (nHeight : Nat)
    (view : CCoinsViewCache) (flags : Nat) (out : NameOutput)
    (name rand value : valtype) (addr : CScript)
    (hbug : P.IsHistoricBug tx.GetHash nHeight = none)
    (hflag : tx.IsNamecoin = true)
    (hres : InputsResolvable view tx = true)
    (hout : nameOutputs tx = [out])
    (hop : out.nameOpOut = .NameFirstUpdate name rand value false addr)
    (hamount : P.NAMENEW_COIN_AMOUNT ≤ out.nValue)
    (hsafe : ∀ (inp : NameInput) (committed : valtype) (a : CScript),
      nameInputs view tx = [inp] → inp.nameOpIn = .NameNew committed a →
      committed.length = 20 ∧ inp.coinsIn.nHeight ≠ P.MEMPOOL_HEIGHT) :
    CheckNameTransaction P tx nHeight view flags ≠ none ∧
    (CheckNameTransaction P tx nHeight view flags = some true ↔
      ∃ (inp : NameInput) (committed : valtype) (a : CScript),
        nameInputs view tx = [inp] ∧
        inp.nameOpIn = .NameNew committed a ∧
        rand.length ≤ 20 ∧
        P.Hash160 (rand ++ name) = committed ∧
        (fMempoolOf P flags = false →
          inp.coinsIn.nHeight + P.MIN_FIRSTUPDATE_DEPTH ≤ nHeight) ∧
        name.length ≤ P.MAX_NAME_LENGTH ∧
        value.length ≤ P.MAX_VALUE_LENGTH ∧
        absentOrDead view name = true) := by
  rw [check_eq_of_resolvable P tx nHeight view flags hbug hres, hout]
  match hl : nameInputs view tx with
  | [] =>
    simp [locate, checkLocated_first_old P tx nHeight view _ _ out name rand value addr hflag
      hop hamount]
  | x :: y :: zs => simp [locate]
  | [inp] =>
    obtain ⟨k1, k2⟩ := checkLocated_first_old_spec P tx nHeight view (fMempoolOf P flags) inp
      out name rand value addr hflag hop hamount (fun c a => hsafe inp c a hl)
    refine ⟨k1, k2.trans ⟨?_, ?_⟩⟩
    · rintro ⟨c, a, h1, h2, h3, h4, h5, h6, h7⟩
      exact ⟨inp, c, a, rfl, h1, h2, h3, h4, h5, h6, h7⟩
    · rintro ⟨inp1, c, a, heq, h1, h2, h3, h4, h5, h6, h7⟩
      cases heq
      exact ⟨c, a, h1, h2, h3, h4, h5, h6, h7⟩

/-- Instance of C3: the old-style registration of the examples, whose
NameNew was mined at height 5, is accepted at height 7 = 5 + 2. -/
theorem C3_old_style_first_update_rule_witness :
    CheckNameTransaction exParams exTxFirstOld 7 exViewEmpty 0 ≠ none ∧
    (CheckNameTransaction exParams exTxFirstOld 7 exViewEmpty 0 = some true ↔
      ∃ (inp : NameInput) (committed : valtype) (a : CScript),
        nameInputs exViewEmpty exTxFirstOld = [inp] ∧
        inp.nameOpIn = .NameNew committed a ∧
        exRand.length ≤ 20 ∧
        exParams.Hash160 (exRand ++ [1, 2]) = committed ∧
        (fMempoolOf exParams 0 = false →
          inp.coinsIn.nHeight + exParams.MIN_FIRSTUPDATE_DEPTH ≤ 7) ∧
        [1, 2].length ≤ exParams.MAX_NAME_LENGTH ∧
        [4].length ≤ exParams.MAX_VALUE_LENGTH ∧
        absentOrDead exViewEmpty [1, 2] = true) :=
  C3_old_style_first_update_rule exParams exTxFirstOld 7 exViewEmpty 0
    ⟨0, .NameFirstUpdate [1, 2] exRand [4] false [9], 100⟩ [1, 2] exRand [4] [9]
    (by decide) (by decide) (by decide) (by decide) rfl (by decide)
    (by
      intro inp committed a h1 h2
      have e1 : nameInputs exViewEmpty exTxFirstOld =
          [⟨0, ⟨2, 0⟩, .NameNew exRand [9], 100, ⟨[⟨100, .NameNew exRand [9]⟩], 5⟩⟩] := by
        decide
      rw [e1] at h1
      cases h1
      cases h2
      exact ⟨by decide, by decide⟩)

/-- C6 (at most one name input and output): for a transaction that is not a
historic bug, (a) if two or more inputs spend name-operation coins, or two or
more outputs are name operations, the check returns failure (inputs are
assumed not to index outside the coins found for them, where the source is
undefined); (b) every accepted transaction has at most one name input and at
most one name output. -/
theorem C6_at_most_one_name_input_and_output (P : Params) (tx : CTransaction)
    (nHeight : Nat) (view : CCoinsViewCache) (flags : Nat)
    (hbug : P.IsHistoricBug tx.GetHash nHeight = none) :
    (InputsInRange view tx = true →
      (2 ≤ (nameInputs view tx).length ∨ 2 ≤ (nameOutputs tx).length) →
      CheckNameTransaction P tx nHeight view flags = some false) ∧
    (CheckNameTransaction P tx nHeight view flags = some true →
      (nameInputs view tx).length ≤ 1 ∧ (nameOutputs tx).length ≤ 1) := by
  simp only [CheckNameTransaction, hbug, Option.isSome_none, Bool.false_eq_true, if_false]
  cases hs : scanInputs view tx.vin 0 none with
  | abort =>
    refine ⟨fun hr _ => absurd hs (scanInputs_ne_abort view tx.vin 0 none hr), ?_⟩
    intro h
    simp at h
  | ret b =>
    have hb := scanInputs_ret view tx.vin 0 none b hs
    subst hb
    simp
  | next r =>
    have hres := scanInputs_next_resolvable view tx.vin 0 none r hs
    rw [scanInputs_eq_locate view tx.vin 0 none hres] at hs
    have hin : nameInputs view tx = r.toList := locate_none_next _ r hs
    have hinlen : (nameInputs view tx).length ≤ 1 := by
      rw [hin]; cases r <;> simp
    simp only [scanOutputs_eq_locate]
    cases ho : locate none (nameOutputsFrom tx.vout 0) with
    | abort => exact absurd ho (locate_ne_abort _ _)
    | ret b =>
      have hb := locate_ret _ _ b ho
      subst hb
      simp
    | next r1 =>
      have hout : nameOutputs tx = r1.toList := locate_none_next _ r1 ho
      have houtlen : (nameOutputs tx).length ≤ 1 := by
        rw [hout]; cases r1 <;> simp
      refine ⟨fun _ h2 => ?_, fun _ => ⟨hinlen, houtlen⟩⟩
      omega

/-- Instance of C6: a transaction with two name outputs is rejected. -/
theorem C6_at_most_one_name_input_and_output_witness :
    (nameOutputs exTxTwoOutputs).length = 2 ∧
    CheckNameTransaction exParams exTxTwoOutputs 7 exViewEmpty 0 = some false :=
  ⟨by decide,
    (C6_at_most_one_name_input_and_output exParams exTxTwoOutputs 7 exViewEmpty 0
      (by decide)).1 (by decide) (Or.inr (by decide))⟩

/-- C7 (minimum locked amount): for a Namecoin-flagged transaction that is not
a historic bug, (a) if the check accepts, the transaction has exactly one name
output and its value is at least NAMENEW_COIN_AMOUNT, whatever the operation;
(b) a NameNew with no name input, a 20-byte hash and exactly
NAMENEW_COIN_AMOUNT is accepted; (c) a name output below NAMENEW_COIN_AMOUNT
(so also NAMENEW_COIN_AMOUNT - 1) is rejected. -/
theorem C7_minimum_locked_amount (P : Params) (tx : CTransaction) (nHeight : Nat)
    (view : CCoinsViewCache) (flags : Nat)
    (hbug : P.IsHistoricBug tx.GetHash nHeight = none)
    (hflag : tx.IsNamecoin = true) :
    (CheckNameTransaction P tx nHeight view flags = some true →
      ∃ out : NameOutput, nameOutputs tx = [out] ∧ P.NAMENEW_COIN_AMOUNT ≤ out.nValue) ∧
    (∀ (out : NameOutput) (hash : valtype) (addr : CScript),
      InputsResolvable view tx = true → nameInputs view tx = [] →
      nameOutputs tx = [out] → out.nameOpOut = .NameNew hash addr → hash.length = 20 →
      out.nValue = P.NAMENEW_COIN_AMOUNT →
      CheckNameTransaction P tx nHeight view flags = some true) ∧
    (∀ out : NameOutput, InputsInRange view tx = true → nameOutputs tx = [out] →
      out.nValue < P.NAMENEW_COIN_AMOUNT →
      CheckNameTransaction P tx nHeight view flags = some false) := by
  refine ⟨?_, ?_, ?_⟩
  · simp only [CheckNameTransaction, hbug, Option.isSome_none, Bool.false_eq_true, if_false]
    cases hs : scanInputs view tx.vin 0 none with
    | abort => simp
    | ret b =>
      have hb := scanInputs_ret view tx.vin 0 none b hs
      subst hb
      simp
    | next r =>
      simp only [scanOutputs_eq_locate]
      cases ho : locate none (nameOutputsFrom tx.vout 0) with
      | abort => simp
      | ret b =>
        have hb := locate_ret _ _ b ho
        subst hb
        simp
      | next r1 =>
        have hout : nameOutputs tx = r1.toList := locate_none_next _ r1 ho
        cases r1 with
        | none => simp [checkLocated, hflag]
        | some out =>
          intro hacc
          refine ⟨out, by simpa using hout, ?_⟩
          by_contra hlt
          simp [checkLocated, hflag, not_le.mp hlt] at hacc
  · intro out hash addr hres hin hout hop h20 hval
    have h8 := (check_name_new_verdict P tx nHeight view flags out hash addr hbug hflag hres hout
      hop (le_of_eq hval.symm))
    rw [h8]
    simp [hin, h20]
  · intro out hr hout hlt
    simp only [CheckNameTransaction, hbug, Option.isSome_none, Bool.false_eq_true, if_false]
    cases hs : scanInputs view tx.vin 0 none with
    | abort => exact absurd hs (scanInputs_ne_abort view tx.vin 0 none hr)
    | ret b =>
      have hb := scanInputs_ret view tx.vin 0 none b hs
      subst hb
      rfl
    | next r =>
      have ho : locate none (nameOutputsFrom tx.vout 0) = .next (some out) := by
        have : nameOutputsFrom tx.vout 0 = [out] := hout
        rw [this]; rfl
      simp [scanOutputs_eq_locate, ho, checkLocated, hflag, hlt]

/-- Instance of C7: the NameNew of the examples carries exactly the minimum
amount 100 and is accepted; with 99 it is rejected. -/
theorem C7_minimum_locked_amount_witness :
    CheckNameTransaction exParams exTxNew 7 exViewEmpty 0 = some true ∧
    CheckNameTransaction exParams exTxGreedy 7 exViewEmpty 0 = some false :=
  ⟨(C7_minimum_locked_amount exParams exTxNew 7 exViewEmpty 0 (by decide) (by decide)).2.1
      ⟨0, .NameNew exRand [9], 100⟩ exRand [9] (by decide) (by decide) (by decide) rfl
      (by decide) (by decide),
    (C7_minimum_locked_amount exParams exTxGreedy 7 exViewEmpty 0 (by decide) (by decide)).2.2
      ⟨0, .NameNew exRand [9], 99⟩ (by decide) (by decide) (by decide)⟩

/-! ### The mempool flag -/

/-- The old-style checks without the mempool flag either agree with those
under the flag, or abort, or reject for immaturity. -/
theorem checkOldStyle_flag (P : Params) (nHeight : Nat) (name : valtype)
    (out : NameOutput) (nameIn : Option NameInput) :
    checkOldStyle P nHeight false name out nameIn
        = checkOldStyle P nHeight true name out nameIn ∨
    checkOldStyle P nHeight false name out nameIn = .abort ∨
    (checkOldStyle P nHeight false name out nameIn = .ret false ∧
      ∃ inp : NameInput, nameIn = some inp ∧
        nHeight < inp.coinsIn.nHeight + P.MIN_FIRSTUPDATE_DEPTH) := by
  cases nameIn with
  | none => left; rfl
  | some inp =>
    by_cases h1 : inp.nameOpIn.getNameOp = .OP_NAME_NEW
    swap
    · left; simp [checkOldStyle, h1]
    by_cases h2 : inp.coinsIn.nHeight = P.MEMPOOL_HEIGHT
    · right; left; simp [checkOldStyle, h1, h2]
    by_cases h3 : nHeight < inp.coinsIn.nHeight + P.MIN_FIRSTUPDATE_DEPTH
    · right; right
      exact ⟨by simp [checkOldStyle, h1, h2, h3], inp, rfl, h3⟩
    · left; simp [checkOldStyle, h1, h2, h3]

/-- Closed form of `checkAnyUpdate` on an old-style first-update. -/
theorem checkAnyUpdate_first_old (P : Params) (nHeight : Nat) (view : CCoinsViewCache)
    (fm : Bool) (nameIn : Option NameInput) (out : NameOutput)
    (name rand value : valtype) (addr : CScript)
    (hop : out.nameOpOut = .NameFirstUpdate name rand value false addr) :
    checkAnyUpdate P nHeight view fm out nameIn =
      if nameIn.isNone then some false
      else if name.length > P.MAX_NAME_LENGTH then some false
      else if value.length > P.MAX_VALUE_LENGTH then some false
      else
        match checkOldStyle P nHeight fm name out nameIn with
        | .abort => none
        | .ret b => some b
        | .next _ => checkFirstUpdateRecord view name := by
  cases nameIn <;>
    simp [checkAnyUpdate, checkFirstUpdate, hop, CNameScript.getNameOp,
      CNameScript.isAnyUpdate, CNameScript.getOpName, CNameScript.getOpValue,
      CNameScript.isNewStyleRegistration]

/-- Apart from an old-style first-update, `checkAnyUpdate` ignores the flag. -/
theorem checkAnyUpdate_flag_irrelevant (P : Params) (nHeight : Nat)
    (view : CCoinsViewCache) (fm1 fm2 : Bool) (nameIn : Option NameInput) (out : NameOutput)
    (hnot : out.nameOpOut.isNewStyleRegistration ≠ some false) :
    checkAnyUpdate P nHeight view fm1 out nameIn
      = checkAnyUpdate P nHeight view fm2 out nameIn := by
  rcases hop : out.nameOpOut with a | ⟨h, a⟩ | ⟨n, r, v, ns, a⟩ | ⟨n, v, a⟩
  · simp [checkAnyUpdate, hop, CNameScript.isAnyUpdate]
  · simp [checkAnyUpdate, hop, CNameScript.isAnyUpdate]
  · cases ns with
    | false => simp [hop, CNameScript.isNewStyleRegistration] at hnot
    | true =>
      simp [checkAnyUpdate, checkFirstUpdate, hop, CNameScript.getNameOp,
        CNameScript.isAnyUpdate, CNameScript.getOpName, CNameScript.getOpValue,
        CNameScript.isNewStyleRegistration]
  · simp [checkAnyUpdate, hop, CNameScript.getNameOp,
      CNameScript.isAnyUpdate, CNameScript.getOpName, CNameScript.getOpValue]

/-- The flag relation lifted to `checkAnyUpdate`. -/
theorem checkAnyUpdate_flag (P : Params) (nHeight : Nat) (view : CCoinsViewCache)
    (nameIn : Option NameInput) (out : NameOutput) :
    checkAnyUpdate P nHeight view false out nameIn
        = checkAnyUpdate P nHeight view true out nameIn ∨
    checkAnyUpdate P nHeight view false out nameIn = none ∨
    (checkAnyUpdate P nHeight view false out nameIn = some false ∧
      ∃ inp : NameInput, nameIn = some inp ∧
        nHeight < inp.coinsIn.nHeight + P.MIN_FIRSTUPDATE_DEPTH) := by
  by_cases hold : out.nameOpOut.isNewStyleRegistration = some false
  swap
  · left; exact checkAnyUpdate_flag_irrelevant P nHeight view false true nameIn out hold
  rcases hop : out.nameOpOut with a | ⟨h, a⟩ | ⟨name, rand, value, ns, addr⟩ | ⟨n, v, a⟩
  · simp [hop, CNameScript.isNewStyleRegistration] at hold
  · simp [hop, CNameScript.isNewStyleRegistration] at hold
  · simp only [hop, CNameScript.isNewStyleRegistration, Option.some.injEq] at hold
    subst hold
    rw [checkAnyUpdate_first_old P nHeight view false nameIn out name rand value addr hop,
      checkAnyUpdate_first_old P nHeight view true nameIn out name rand value addr hop]
    by_cases c1 : nameIn.isNone = true
    · left; simp [c1]
    by_cases c2 : name.length > P.MAX_NAME_LENGTH
    · left; simp [c1, c2]
    by_cases c3 : value.length > P.MAX_VALUE_LENGTH
    · left; simp [c1, c2, c3]
    simp only [c1, c2, c3, if_false, Bool.false_eq_true]
    rcases checkOldStyle_flag P nHeight name out nameIn with e | e | ⟨e, himm⟩
    · left; rw [e]
    · right; left; rw [e]
    · right; right; rw [e]; exact ⟨rfl, himm⟩
  · simp [hop, CNameScript.isNewStyleRegistration] at hold

/-- The flag relation lifted to the part after the loops. -/
theorem checkLocated_flag (P : Params) (tx : CTransaction) (nHeight : Nat)
    (view : CCoinsViewCache) (nameIn : Option NameInput) (nameOut : Option NameOutput) :
    checkLocated P tx nHeight view false nameIn nameOut
        = checkLocated P tx nHeight view true nameIn nameOut ∨
    checkLocated P tx nHeight view false nameIn nameOut = none ∨
    (checkLocated P tx nHeight view false nameIn nameOut = some false ∧
      ∃ inp : NameInput, nameIn = some inp ∧
        nHeight < inp.coinsIn.nHeight + P.MIN_FIRSTUPDATE_DEPTH) := by
  by_cases hflag : tx.IsNamecoin = true
  swap
  · left; simp [checkLocated, hflag]
  cases nameOut with
  | none => left; simp [checkLocated, hflag]
  | some out =>
    by_cases c1 : out.nValue < P.NAMENEW_COIN_AMOUNT
    · left; simp [checkLocated, hflag, c1]
    by_cases c2 : out.nameOpOut.getNameOp = .OP_NAME_NEW
    · left; simp [checkLocated, hflag, c1, c2]
    simpa [checkLocated, hflag, c1, c2] using checkAnyUpdate_flag P nHeight view nameIn out

/-- Apart from an old-style first-update, the part after the loops ignores
the flag. -/
theorem checkLocated_flag_irrelevant (P : Params) (tx : CTransaction) (nHeight : Nat)
    (view : CCoinsViewCache) (fm1 fm2 : Bool) (nameIn : Option NameInput)
    (nameOut : Option NameOutput)
    (hnot : ∀ out ∈ nameOut.toList, out.nameOpOut.isNewStyleRegistration ≠ some false) :
    checkLocated P tx nHeight view fm1 nameIn nameOut
      = checkLocated P tx nHeight view fm2 nameIn nameOut := by
  cases nameOut with
  | none => simp [checkLocated]
  | some out =>
    have h := checkAnyUpdate_flag_irrelevant P nHeight view fm1 fm2 nameIn out
      (hnot out (by simp))
    simp only [checkLocated, h]

/-- C9 (the mempool flag only suppresses the maturity check): for every
transaction, height and view, with flags `f` that lack the bit
SCRIPT_VERIFY_NAMES_MEMPOOL and flags `g` that carry it, (a) acceptance under
`f` implies acceptance under `g`; (b) when no name output is an old-style
NameFirstUpdate the two outcomes are equal; (c) whenever the two verdicts
differ, the check rejects under `f`, accepts under `g` (every condition except
maturity holds), and the located name input is immature:
input height + MIN_FIRSTUPDATE_DEPTH > height. -/
theorem C9_mempool_flag_only_suppresses_maturity (P : Params) (tx : CTransaction)
    (nHeight : Nat) (view : CCoinsViewCache) (f g : Nat)
    (hf : f &&& P.SCRIPT_VERIFY_NAMES_MEMPOOL = 0)
    (hg : g &&& P.SCRIPT_VERIFY_NAMES_MEMPOOL ≠ 0) :
    (CheckNameTransaction P tx nHeight view f = some true →
      CheckNameTransaction P tx nHeight view g = some true) ∧
    ((∀ out ∈ nameOutputs tx, out.nameOpOut.isNewStyleRegistration ≠ some false) →
      CheckNameTransaction P tx nHeight view f = CheckNameTransaction P tx nHeight view g) ∧
    (∀ b1 b2 : Bool, CheckNameTransaction P tx nHeight view f = some b1 →
      CheckNameTransaction P tx nHeight view g = some b2 → b1 ≠ b2 →
      b1 = false ∧ b2 = true ∧
      ∃ inp : NameInput, nameInputs view tx = [inp] ∧
        nHeight < inp.coinsIn.nHeight + P.MIN_FIRSTUPDATE_DEPTH) := by
  have ef : ((f &&& P.SCRIPT_VERIFY_NAMES_MEMPOOL) != 0) = false := by simp [hf]
  have eg : ((g &&& P.SCRIPT_VERIFY_NAMES_MEMPOOL) != 0) = true := by simp [hg]
  simp only [CheckNameTransaction, ef, eg]
  by_cases hbug : (P.IsHistoricBug tx.GetHash nHeight).isSome = true
  · simp [hbug]
  simp only [hbug, if_false, Bool.false_eq_true]
  cases hs : scanInputs view tx.vin 0 none with
  | abort => simp
  | ret b => simp
  | next r =>
    have hres := scanInputs_next_resolvable view tx.vin 0 none r hs
    rw [scanInputs_eq_locate view tx.vin 0 none hres] at hs
    have hin : nameInputs view tx = r.toList := locate_none_next _ r hs
    simp only [scanOutputs_eq_locate]
    cases ho : locate none (nameOutputsFrom tx.vout 0) with
    | abort => simp
    | ret b => simp
    | next r1 =>
      have hout : nameOutputs tx = r1.toList := locate_none_next _ r1 ho
      simp only
      refine ⟨?_, ?_, ?_⟩
      · intro hacc
        rcases checkLocated_flag P tx nHeight view r r1 with e | e | ⟨e, _⟩
        · rw [← e]; exact hacc
        · rw [e] at hacc; simp at hacc
        · rw [e] at hacc; simp at hacc
      · intro hnot
        exact checkLocated_flag_irrelevant P tx nHeight view false true r r1
          (by rw [← hout]; exact hnot)
      · intro b1 b2 h1 h2 hne
        rcases checkLocated_flag P tx nHeight view r r1 with e | e | ⟨e, inp, hinp, himm⟩
        · rw [e, h2] at h1
          exact absurd (Option.some.inj h1).symm hne
        · rw [e] at h1; simp at h1
        · rw [e] at h1
          have hb1 : b1 = false := (Option.some.inj h1).symm
          subst hb1
          refine ⟨rfl, ?_, inp, by rw [hin, hinp]; rfl, himm⟩
          cases b2 with
          | true => rfl
          | false => exact absurd rfl hne

/-- Instance of C9: the old-style registration of the examples at height 6,
one block early, is rejected without the flag and accepted with it. -/
theorem C9_mempool_flag_only_suppresses_maturity_witness :
    CheckNameTransaction exParams exTxFirstOld 6 exViewEmpty 0 = some false ∧
    CheckNameTransaction exParams exTxFirstOld 6 exViewEmpty 16777216 = some true ∧
    ∃ inp : NameInput, nameInputs exViewEmpty exTxFirstOld = [inp] ∧
      6 < inp.coinsIn.nHeight + exParams.MIN_FIRSTUPDATE_DEPTH :=
  have h := (C9_mempool_flag_only_suppresses_maturity exParams exTxFirstOld 6 exViewEmpty
    0 16777216 (by decide) (by decide)).2.2 false true (by decide) (by decide) (by decide)
  ⟨by decide, by decide, h.2.2⟩

/-! ## Theorems on `ApplyNameTransaction` and `CNameTxUndo` -/

theorem undo_apply_names (u : CNameTxUndo) (w : CCoinsViewCache) :
    (u.apply w).names =
      fun n => if n = u.name then (if u.isNew then none else some u.oldData)
        else w.names n := by
  unfold CNameTxUndo.apply
  cases hnew : u.isNew <;>
    simp [CCoinsViewCache.SetName, CCoinsViewCache.DeleteName]

theorem applyUndos_names_congr (es : List CNameTxUndo) (w1 w2 : CCoinsViewCache)
    (h : w1.names = w2.names) : (applyUndos es w1).names = (applyUndos es w2).names := by
  induction es generalizing w1 w2 with
  | nil => exact h
  | cons u rest ih =>
    simp only [applyUndos]
    apply ih
    rw [undo_apply_names, undo_apply_names, h]

theorem applyUndos_append (es fs : List CNameTxUndo) (w : CCoinsViewCache) :
    applyUndos (es ++ fs) w = applyUndos fs (applyUndos es w) := by
  induction es generalizing w with
  | nil => rfl
  | cons u rest ih =>
    show applyUndos (rest ++ fs) (u.apply w) = applyUndos fs (applyUndos rest (u.apply w))
    exact ih _

/-- The entry captured before a write restores the name map after it. -/
theorem undo_fromOldState_names (v w : CCoinsViewCache) (name : valtype) (data : CNameData)
    (flag : Bool) (hw : w.names = (v.SetName name data flag).names) :
    ((CNameTxUndo.fromOldState name v).apply w).names = v.names := by
  rw [undo_apply_names, hw]
  funext n
  unfold CNameTxUndo.fromOldState CCoinsViewCache.GetName
  cases hv : v.names name with
  | none =>
    by_cases hn : n = name
    · simp [hn, hv]
    · simp [hn, CCoinsViewCache.SetName]
  | some d =>
    by_cases hn : n = name
    · simp [hn, hv]
    · simp [hn, CCoinsViewCache.SetName]

/-- The output loop always completes, only appends to the undo list, and the
appended entries replayed in reverse restore the name map. -/
theorem applyOutputs_round_trip (txHash : uint256) (nHeight : Nat) (outs : List CTxOut)
    (i : Nat) (v : CCoinsViewCache) (u : CBlockUndo) :
    ∃ (v1 : CCoinsViewCache) (es : List CNameTxUndo),
      applyOutputs txHash nHeight outs i v u = some (v1, ⟨u.vnameundo ++ es⟩) ∧
      (applyUndos es.reverse v1).names = v.names := by
  induction outs generalizing i v u with
  | nil => exact ⟨v, [], by simp [applyOutputs], rfl⟩
  | cons out rest ih =>
    simp only [applyOutputs]
    by_cases hop : out.scriptPubKey.isNameOp = true ∧ out.scriptPubKey.isAnyUpdate = true
    swap
    · rw [if_neg hop]
      exact ih (i + 1) v u
    rw [if_pos hop]
    rcases hs : out.scriptPubKey with a | ⟨h, a⟩ | ⟨name, rand, value, ns, addr⟩ | ⟨name, value, addr⟩
    · simp [hs, CNameScript.isNameOp] at hop
    · simp [hs, CNameScript.isAnyUpdate] at hop
    · simp only [CNameScript.getOpName, CNameData.fromScript, CNameScript.getOpValue]
      obtain ⟨v1, es, h1, h2⟩ := ih (i + 1)
        (v.SetName name ⟨value, nHeight, ⟨txHash, i⟩,
          (CNameScript.NameFirstUpdate name rand value ns addr).getAddress, false⟩ false)
        ⟨u.vnameundo ++ [CNameTxUndo.fromOldState name v]⟩
      refine ⟨v1, CNameTxUndo.fromOldState name v :: es, ?_, ?_⟩
      · rw [h1]; simp
      · rw [List.reverse_cons, applyUndos_append]
        exact undo_fromOldState_names v _ name _ false h2
    · simp only [CNameScript.getOpName, CNameData.fromScript, CNameScript.getOpValue]
      obtain ⟨v1, es, h1, h2⟩ := ih (i + 1)
        (v.SetName name ⟨value, nHeight, ⟨txHash, i⟩,
          (CNameScript.NameUpdate name value addr).getAddress, false⟩ false)
        ⟨u.vnameundo ++ [CNameTxUndo.fromOldState name v]⟩
      refine ⟨v1, CNameTxUndo.fromOldState name v :: es, ?_, ?_⟩
      · rw [h1]; simp
      · rw [List.reverse_cons, applyUndos_append]
        exact undo_fromOldState_names v _ name _ false h2

theorem ModifyCoins_names (v : CCoinsViewCache) (txid : uint256) (f : CCoins → CCoins) :
    (v.ModifyCoins txid f).names = v.names := by
  unfold CCoinsViewCache.ModifyCoins
  cases v.coins txid <;> rfl

/-- One application completes at a height other than MEMPOOL_HEIGHT, only
appends to the undo list, and the appended entries replayed in reverse restore
the name map. -/
theorem ApplyNameTransaction_round_trip (P : Params) (tx : CTransaction) (nHeight : Nat)
    (v : CCoinsViewCache) (u : CBlockUndo) (hh : nHeight ≠ P.MEMPOOL_HEIGHT) :
    ∃ (v1 : CCoinsViewCache) (es : List CNameTxUndo),
      ApplyNameTransaction P tx nHeight v u = some (v1, ⟨u.vnameundo ++ es⟩) ∧
      (applyUndos es.reverse v1).names = v.names := by
  simp only [ApplyNameTransaction, hh, if_false]
  split
  · split
    · exact ⟨v.ModifyCoins tx.GetHash (spendBuggyOutputs tx.vout 0), [], by simp,
        ModifyCoins_names _ _ _⟩
    · exact ⟨v, [], by simp, rfl⟩
  · split
    · exact ⟨v, [], by simp, rfl⟩
    · exact applyOutputs_round_trip _ _ _ _ _ _

theorem applyBlock_round_trip (P : Params) (nHeight : Nat) (txs : List CTransaction)
    (v : CCoinsViewCache) (u : CBlockUndo) (hh : nHeight ≠ P.MEMPOOL_HEIGHT) :
    ∃ (v1 : CCoinsViewCache) (es : List CNameTxUndo),
      applyBlock P nHeight txs v u = some (v1, ⟨u.vnameundo ++ es⟩) ∧
      (applyUndos es.reverse v1).names = v.names := by
  induction txs generalizing v u with
  | nil => exact ⟨v, [], by simp [applyBlock], rfl⟩
  | cons tx rest ih =>
    obtain ⟨v1, es1, h1, h2⟩ := ApplyNameTransaction_round_trip P tx nHeight v u hh
    obtain ⟨v2, es2, h3, h4⟩ := ih v1 ⟨u.vnameundo ++ es1⟩
    refine ⟨v2, es1 ++ es2, ?_, ?_⟩
    · simp only [applyBlock, h1, h3, List.append_assoc]
    · rw [List.reverse_append, applyUndos_append,
        applyUndos_names_congr es1.reverse _ v1 h4, h2]

/-- C1 (reorg round trip): for every name database state, every height
different from MEMPOOL_HEIGHT and every finite sequence of transactions,
running `ApplyNameTransaction` on each transaction in order from an empty undo
list completes, and calling `CNameTxUndo::apply` on the entries of the
resulting undo list in reverse order yields a name -> record map equal to the
one before the first application (also when several outputs write the same
name). -/
theorem C1_reorg_round_trip (P : Params) (nHeight : Nat) (txs : List CTransaction)
    (view : CCoinsViewCache) (hh : nHeight ≠ P.MEMPOOL_HEIGHT) :
    ∃ (view1 : CCoinsViewCache) (undo1 : CBlockUndo),
      applyBlock P nHeight txs view ⟨[]⟩ = some (view1, undo1) ∧
      (undoBlock undo1 view1).names = view.names := by
  obtain ⟨v1, es, h1, h2⟩ := applyBlock_round_trip P nHeight txs view ⟨[]⟩ hh
  exact ⟨v1, ⟨[] ++ es⟩, h1, by simpa [undoBlock] using h2⟩

/-- Instance of C1: a block that registers name 1,2 and then updates it (two
writes of the same name) on the empty name database. -/
theorem C1_reorg_round_trip_witness :
    ∃ (view1 : CCoinsViewCache) (undo1 : CBlockUndo),
      applyBlock exParams 8 [exTxFirstNew, exTxUpdate] exViewEmpty ⟨[]⟩
        = some (view1, undo1) ∧
      (undoBlock undo1 view1).names = exViewEmpty.names :=
  C1_reorg_round_trip exParams 8 [exTxFirstNew, exTxUpdate] exViewEmpty (by decide)

/-! ### What the output loop computes -/

/-- The output loop always completes: it writes the name writes of the
outputs in order and appends the entries captured on the way. -/
theorem applyOutputs_eq (txHash : uint256) (nHeight : Nat) (outs : List CTxOut) (i : Nat)
    (v : CCoinsViewCache) (u : CBlockUndo) :
    applyOutputs txHash nHeight outs i v u =
      some (viewAfter v (nameWritesFrom txHash nHeight outs i),
        ⟨u.vnameundo ++ undoEntries v (nameWritesFrom txHash nHeight outs i)⟩) := by
  induction outs generalizing i v u with
  | nil => simp [applyOutputs, nameWritesFrom, viewAfter, undoEntries]
  | cons out rest ih =>
    rcases hs : out.scriptPubKey with a | ⟨h, a⟩ | ⟨name, rand, value, ns, addr⟩ | ⟨name, value, addr⟩
    · simp [applyOutputs, nameWritesFrom, hs, updateOf, CNameScript.isNameOp, ih]
    · simp [applyOutputs, nameWritesFrom, hs, updateOf, CNameScript.isAnyUpdate, ih]
    · simp [applyOutputs, nameWritesFrom, hs, updateOf, CNameScript.isAnyUpdate,
        CNameScript.isNameOp, CNameScript.getOpName, CNameData.fromScript,
        CNameScript.getOpValue, CNameScript.getAddress, ih, viewAfter, undoEntries]
    · simp [applyOutputs, nameWritesFrom, hs, updateOf, CNameScript.isAnyUpdate,
        CNameScript.isNameOp, CNameScript.getOpName, CNameData.fromScript,
        CNameScript.getOpValue, CNameScript.getAddress, ih, viewAfter, undoEntries]

/-- For a Namecoin-flagged transaction that is not bypassed, at a height other
than MEMPOOL_HEIGHT, the application is the output loop. -/
theorem ApplyNameTransaction_eq_writes (P : Params) (tx : CTransaction) (nHeight : Nat)
    (view : CCoinsViewCache) (undo : CBlockUndo)
    (hh : nHeight ≠ P.MEMPOOL_HEIGHT) (hnb : bypassed P tx nHeight = false)
    (hflag : tx.IsNamecoin = true) :
    ApplyNameTransaction P tx nHeight view undo =
      some (viewAfter view (nameWrites tx nHeight),
        ⟨undo.vnameundo ++ undoEntries view (nameWrites tx nHeight)⟩) := by
  have hcond : ¬ ((P.IsHistoricBug tx.GetHash nHeight).isSome = true ∧
      P.IsHistoricBug tx.GetHash nHeight ≠ some .BUG_FULLY_APPLY) := by
    intro hc
    simp [bypassed, hc.1, hc.2] at hnb
  simp only [ApplyNameTransaction, hh, if_false, hcond, hflag, Bool.not_true,
    Bool.false_eq_true, nameWrites]
  exact applyOutputs_eq _ _ _ _ _ _

/-- The writes of an output list without first-update or update. -/
theorem nameWritesFrom_none (txHash : uint256) (h : Nat) (outs : List CTxOut) (k : Nat)
    (hno : ∀ out ∈ outs, out.scriptPubKey.isAnyUpdate = false) :
    nameWritesFrom txHash h outs k = [] := by
  induction outs generalizing k with
  | nil => rfl
  | cons out rest ih =>
    have h1 := hno out (by simp)
    have h2 : updateOf out.scriptPubKey = none := by
      cases hs : out.scriptPubKey <;> simp [hs, CNameScript.isAnyUpdate, updateOf] at h1 ⊢
    simp only [nameWritesFrom, h2]
    exact ih _ (fun o ho => hno o (by simp [ho]))

/-- The writes of an output list whose only first-update or update sits at
position `j`. -/
theorem nameWritesFrom_single (txHash : uint256) (h : Nat) (outs : List CTxOut) (k j : Nat)
    (out : CTxOut) (name value : valtype) (addr : CScript)
    (hj : outs[j]? = some out)
    (hup : updateOf out.scriptPubKey = some (name, value, addr))
    (honly : ∀ (j1 : Nat) (o : CTxOut), j1 ≠ j → outs[j1]? = some o →
      o.scriptPubKey.isAnyUpdate = false) :
    nameWritesFrom txHash h outs k = [(name, ⟨value, h, ⟨txHash, k + j⟩, addr, false⟩)] := by
  induction outs generalizing k j with
  | nil => simp at hj
  | cons o rest ih =>
    cases j with
    | zero =>
      simp only [List.getElem?_cons_zero, Option.some.injEq] at hj
      subst hj
      have hrest : nameWritesFrom txHash h rest (k + 1) = [] := by
        apply nameWritesFrom_none
        intro o1 ho1
        obtain ⟨n1, hn1⟩ := List.getElem?_of_mem ho1
        exact honly (n1 + 1) o1 (by omega) (by simpa using hn1)
      simp [nameWritesFrom, hup, hrest]
    | succ j0 =>
      have ho : updateOf o.scriptPubKey = none := by
        have h1 := honly 0 o (by omega) (by simp)
        cases hs : o.scriptPubKey <;> simp [hs, CNameScript.isAnyUpdate, updateOf] at h1 ⊢
      simp only [nameWritesFrom, ho]
      have := ih (k + 1) j0 (by simpa using hj)
        (fun j1 o1 hne h1 => honly (j1 + 1) o1 (by omega) (by simpa using h1))
      rw [this]
      simp [Nat.add_assoc, Nat.add_comm 1 j0]

/-- C11 (amended): the validation bypass is not limited to dispositions other
than fully-apply.  For a transaction on the historic-bug list with disposition
BUG_FULLY_APPLY, `CheckNameTransaction` returns success without any validation
step, for every view and all flags, while `ApplyNameTransaction` (at a height
other than MEMPOOL_HEIGHT) applies its outputs as for any other transaction:
it is a no-op without the Namecoin flag and runs the output loop with it. -/
theorem C11_bypass_covers_fully_apply (P : Params) (tx : CTransaction) (nHeight : Nat)
    (view : CCoinsViewCache) (flags : Nat) (undo : CBlockUndo)
    (hbug : P.IsHistoricBug tx.GetHash nHeight = some .BUG_FULLY_APPLY)
    (hh : nHeight ≠ P.MEMPOOL_HEIGHT) :
    CheckNameTransaction P tx nHeight view flags = some true ∧
    ApplyNameTransaction P tx nHeight view undo =
      (if tx.IsNamecoin then applyOutputs tx.GetHash nHeight tx.vout 0 view undo
       else some (view, undo)) := by
  constructor
  · simp [CheckNameTransaction, hbug]
  · cases hflag : tx.IsNamecoin <;> simp [ApplyNameTransaction, hh, hbug, hflag]

/-- Instance of the amended C11 on transaction 667 at height 7. -/
theorem C11_bypass_covers_fully_apply_witness :
    CheckNameTransaction exParamsBugs exTxBugApply 7 exViewEmpty 0 = some true ∧
    ApplyNameTransaction exParamsBugs exTxBugApply 7 exViewEmpty ⟨[]⟩ =
      (if exTxBugApply.IsNamecoin then
        applyOutputs exTxBugApply.GetHash 7 exTxBugApply.vout 0 exViewEmpty ⟨[]⟩
       else some (exViewEmpty, ⟨[]⟩)) :=
  C11_bypass_covers_fully_apply exParamsBugs exTxBugApply 7 exViewEmpty 0 ⟨[]⟩
    (by decide) (by decide)

/-- C11 as stated fails: transaction 667 is on the historic-bug list at height
7 with disposition BUG_FULLY_APPLY, has two name outputs and a name output
below NAMENEW_COIN_AMOUNT, yet `CheckNameTransaction` accepts it; the same
transaction under an id that is not on the list is rejected, and
`ApplyNameTransaction` writes the record of the unvalidated update. -/
theorem C11_counterexample :
    exParamsBugs.IsHistoricBug exTxBugApply.GetHash 7 = some .BUG_FULLY_APPLY ∧
    (nameOutputs exTxBugApply).length = 2 ∧
    (∃ out ∈ nameOutputs exTxBugApply, out.nValue < exParamsBugs.NAMENEW_COIN_AMOUNT) ∧
    CheckNameTransaction exParamsBugs exTxBugApply 7 exViewEmpty 0 = some true ∧
    CheckNameTransaction exParamsBugs exTxNoBugApply 7 exViewEmpty 0 = some false ∧
    (ApplyNameTransaction exParamsBugs exTxBugApply 7 exViewEmpty ⟨[]⟩).map
        (fun r => r.1.names [1, 2]) = some (some ⟨[4], 7, ⟨667, 1⟩, [9], false⟩) := by
  refine ⟨by decide, by decide, ?_, by decide, by decide, by decide⟩
  exact ⟨⟨1, .NameUpdate [1, 2] [4] [9], 1⟩, by decide, by decide⟩

theorem bypassed_eq_false (P : Params) (tx : CTransaction) (nHeight : Nat)
    (h : P.IsHistoricBug tx.GetHash nHeight = none ∨
      P.IsHistoricBug tx.GetHash nHeight = some .BUG_FULLY_APPLY) :
    bypassed P tx nHeight = false := by
  rcases h with h | h <;> simp [bypassed, h]

theorem updateOf_of_accessors (op : CNameScript) (name value : valtype)
    (hn : op.getOpName = some name) (hv : op.getOpValue = some value) :
    updateOf op = some (name, value, op.getAddress) := by
  cases op <;>
    simp_all [CNameScript.getOpName, CNameScript.getOpValue, updateOf, CNameScript.getAddress]

theorem SetName_names (v : CCoinsViewCache) (name : valtype) (data : CNameData)
    (flag : Bool) :
    (v.SetName name data flag).names = fun n => if n = name then some data else v.names n :=
  rfl

/-- C12 (apply postcondition and frame): for a Namecoin-flagged transaction
that is not bypassed as a historic bug, at a height `h` other than
MEMPOOL_HEIGHT and for every view, (a) if output `i` is the only
NameFirstUpdate/NameUpdate output and it carries name `n` and value `value`,
the application completes, the record of `n` afterwards has that value, height
`h`, update outpoint (txid, i), the output's address and is not dead, and the
record of every other name is unchanged; (b) a transaction without
NameFirstUpdate/NameUpdate output (for instance with a NameNew only) changes no
record. -/
theorem C12_apply_postcondition_and_frame (P : Params) (tx : CTransaction) (nHeight : Nat)
    (view : CCoinsViewCache) (undo : CBlockUndo)
    (hh : nHeight ≠ P.MEMPOOL_HEIGHT)
    (hnb : P.IsHistoricBug tx.GetHash nHeight = none ∨
      P.IsHistoricBug tx.GetHash nHeight = some .BUG_FULLY_APPLY)
    (hflag : tx.IsNamecoin = true) :
    (∀ (i : Nat) (out : CTxOut) (n value : valtype),
      tx.vout[i]? = some out →
      out.scriptPubKey.getOpName = some n → out.scriptPubKey.getOpValue = some value →
      (∀ (j : Nat) (o : CTxOut), j ≠ i → tx.vout[j]? = some o →
        o.scriptPubKey.isAnyUpdate = false) →
      ∃ (view1 : CCoinsViewCache) (undo1 : CBlockUndo),
        ApplyNameTransaction P tx nHeight view undo = some (view1, undo1) ∧
        view1.GetName n
          = some ⟨value, nHeight, ⟨tx.GetHash, i⟩, out.scriptPubKey.getAddress, false⟩ ∧
        ∀ m : valtype, m ≠ n → view1.GetName m = view.GetName m) ∧
    ((∀ out ∈ tx.vout, out.scriptPubKey.isAnyUpdate = false) →
      ∃ (view1 : CCoinsViewCache) (undo1 : CBlockUndo),
        ApplyNameTransaction P tx nHeight view undo = some (view1, undo1) ∧
        view1.names = view.names) := by
  have happ := ApplyNameTransaction_eq_writes P tx nHeight view undo hh
    (bypassed_eq_false P tx nHeight hnb) hflag
  constructor
  · intro i out n value hi hn hv honly
    have hw : nameWrites tx nHeight
        = [(n, ⟨value, nHeight, ⟨tx.GetHash, i⟩, out.scriptPubKey.getAddress, false⟩)] := by
      have := nameWritesFrom_single tx.GetHash nHeight tx.vout 0 i out n value
        out.scriptPubKey.getAddress hi (updateOf_of_accessors _ n value hn hv) honly
      simpa [nameWrites] using this
    rw [hw] at happ
    refine ⟨_, _, happ, ?_, ?_⟩
    · simp [viewAfter, CCoinsViewCache.GetName, SetName_names]
    · intro m hm
      simp [viewAfter, CCoinsViewCache.GetName, SetName_names, hm]
  · intro hno
    have hw : nameWrites tx nHeight = [] := nameWritesFrom_none _ _ _ _ hno
    rw [hw] at happ
    exact ⟨_, _, happ, rfl⟩

/-- Instance of C12: the update of the examples applied at height 8 replaces
the living record of name 1,2. -/
theorem C12_apply_postcondition_and_frame_witness :
    ∃ (view1 : CCoinsViewCache) (undo1 : CBlockUndo),
      ApplyNameTransaction exParams exTxUpdate 8 exViewLiving ⟨[]⟩ = some (view1, undo1) ∧
      view1.GetName [1, 2] = some ⟨[4], 8, ⟨10, 0⟩, [9], false⟩ ∧
      ∀ m : valtype, m ≠ [1, 2] → view1.GetName m = exViewLiving.GetName m :=
  (C12_apply_postcondition_and_frame exParams exTxUpdate 8 exViewLiving ⟨[]⟩
    (by decide) (Or.inl (by decide)) (by decide)).1 0
    ⟨100, .NameUpdate [1, 2] [4] [9]⟩ [1, 2] [4] (by decide) (by decide) (by decide)
    (by
      intro j o hj ho
      match j, hj with
      | 1, _ =>
        have : o = ⟨7, .NonName []⟩ := by
          have h1 : exTxUpdate.vout[1]? = some ⟨7, .NonName []⟩ := by decide
          rw [h1] at ho
          exact (Option.some.inj ho).symm
        rw [this]; rfl
      | j + 2, _ =>
        have h1 : exTxUpdate.vout[j + 2]? = none := by
          simp [exTxUpdate]
        rw [h1] at ho
        simp at ho)

/-! ### The undo list -/

theorem undoEntries_length (v : CCoinsViewCache) (ws : List (valtype × CNameData)) :
    (undoEntries v ws).length = ws.length := by
  induction ws generalizing v with
  | nil => rfl
  | cons w rest ih =>
    obtain ⟨n, d⟩ := w
    simp [undoEntries, ih]

theorem undoEntries_getElem (v : CCoinsViewCache) (ws : List (valtype × CNameData))
    (k : Nat) (w : valtype × CNameData) (hk : ws[k]? = some w) :
    (undoEntries v ws)[k]? = some (CNameTxUndo.fromOldState w.1 (viewAfter v (ws.take k))) := by
  induction ws generalizing v k with
  | nil => simp at hk
  | cons w0 rest ih =>
    obtain ⟨n, d⟩ := w0
    cases k with
    | zero =>
      simp only [List.getElem?_cons_zero, Option.some.injEq] at hk
      subst hk
      simp [undoEntries, viewAfter]
    | succ k0 =>
      simp only [List.getElem?_cons_succ] at hk
      simpa [undoEntries, viewAfter] using ih (v.SetName n d false) k0 hk

theorem nameWritesFrom_names (txHash : uint256) (h : Nat) (outs : List CTxOut) (i : Nat) :
    (nameWritesFrom txHash h outs i).map Prod.fst
      = outs.filterMap (fun o => o.scriptPubKey.getOpName) := by
  induction outs generalizing i with
  | nil => rfl
  | cons out rest ih =>
    cases hs : out.scriptPubKey <;>
      simp [nameWritesFrom, hs, updateOf, CNameScript.getOpName, List.filterMap_cons, ih]

theorem undoEntries_names (v : CCoinsViewCache) (ws : List (valtype × CNameData)) :
    (undoEntries v ws).map (fun e => e.name) = ws.map Prod.fst := by
  induction ws generalizing v with
  | nil => rfl
  | cons w rest ih =>
    obtain ⟨n, d⟩ := w
    have hn : (CNameTxUndo.fromOldState n v).name = n := by
      unfold CNameTxUndo.fromOldState
      cases v.GetName n <;> rfl
    simp [undoEntries, ih, hn]

/-- C13 (amended): at a height other than MEMPOOL_HEIGHT, (a) for a
Namecoin-flagged transaction that is not bypassed as a historic bug (it is
not on the bug list, or it is on it as fully-apply), `ApplyNameTransaction`
completes and appends, after the entries already present and without changing
them, exactly one entry per NameFirstUpdate/NameUpdate output, in output
order: the names of the appended entries are the names of those outputs in
increasing index (none for NameNew or non-name outputs), and the k-th
appended entry is the one captured from the view as it is after the first k
of those outputs have been written; (b) for a transaction without the
Namecoin flag and for a bypassed historic bug it completes and leaves the
undo list as it was, whatever the outputs. -/
theorem C13_undo_list_order (P : Params) (tx : CTransaction) (nHeight : Nat)
    (view : CCoinsViewCache) (undo : CBlockUndo) (hh : nHeight ≠ P.MEMPOOL_HEIGHT) :
    ((P.IsHistoricBug tx.GetHash nHeight = none ∨
        P.IsHistoricBug tx.GetHash nHeight = some .BUG_FULLY_APPLY) →
      tx.IsNamecoin = true →
      ∃ (view1 : CCoinsViewCache) (es : List CNameTxUndo),
        ApplyNameTransaction P tx nHeight view undo
          = some (view1, ⟨undo.vnameundo ++ es⟩) ∧
        view1 = viewAfter view (nameWrites tx nHeight) ∧
        es.map (fun e => e.name) = tx.vout.filterMap (fun o => o.scriptPubKey.getOpName) ∧
        es.length = (nameWrites tx nHeight).length ∧
        ∀ (k : Nat) (w : valtype × CNameData), (nameWrites tx nHeight)[k]? = some w →
          es[k]? = some (CNameTxUndo.fromOldState w.1
            (viewAfter view ((nameWrites tx nHeight).take k)))) ∧
    (bypassed P tx nHeight = true ∨ tx.IsNamecoin = false →
      ∃ view1 : CCoinsViewCache,
        ApplyNameTransaction P tx nHeight view undo = some (view1, undo)) := by
  constructor
  · intro hnb hflag
    refine ⟨_, _, ApplyNameTransaction_eq_writes P tx nHeight view undo hh
      (bypassed_eq_false P tx nHeight hnb) hflag, rfl, ?_, ?_, ?_⟩
    · rw [undoEntries_names]
      exact nameWritesFrom_names _ _ _ _
    · exact undoEntries_length _ _
    · intro k w hk
      exact undoEntries_getElem _ _ k w hk
  · intro hcase
    unfold ApplyNameTransaction
    rw [if_neg hh]
    by_cases hc : (P.IsHistoricBug tx.GetHash nHeight).isSome = true ∧
        P.IsHistoricBug tx.GetHash nHeight ≠ some .BUG_FULLY_APPLY
    · simp only [hc, ne_eq, not_false_eq_true, and_self, if_true]
      split
      · exact ⟨_, rfl⟩
      · exact ⟨_, rfl⟩
    · have hflag : tx.IsNamecoin = false := by
        rcases hcase with hb | hf
        · exfalso
          apply hc
          simpa [bypassed] using hb
        · exact hf
      simp only [hc, if_false, hflag, Bool.not_false, if_true]
      exact ⟨_, rfl⟩

/-- Instance of the amended C13: a transaction that registers name 5 and
updates name 1,2 twice appends three entries to an undo list that already
holds one, with the names 5, then 1,2, then 1,2. -/
theorem C13_undo_list_order_witness :
    8 ≠ exParams.MEMPOOL_HEIGHT ∧
    ∃ (view1 : CCoinsViewCache) (es : List CNameTxUndo),
      ApplyNameTransaction exParams exTxThreeWrites 8 exViewLiving
          ⟨[⟨[7], true, CNameData.null⟩]⟩
        = some (view1, ⟨[⟨[7], true, CNameData.null⟩] ++ es⟩) ∧
      es.map (fun e => e.name) = [[5], [1, 2], [1, 2]] ∧ es.length = 3 := by
  refine ⟨by decide, ?_⟩
  obtain ⟨view1, es, h1, _, h3, h4, _⟩ :=
    (C13_undo_list_order exParams exTxThreeWrites 8 exViewLiving
      ⟨[⟨[7], true, CNameData.null⟩]⟩ (by decide)).1 (Or.inl (by decide)) (by decide)
  exact ⟨view1, es, h1, h3, h4⟩

/-- C13 as stated fails: the transaction of the examples without the Namecoin
flag has one NameUpdate output, and the bypassed historic bug 666 has one as
well; `ApplyNameTransaction` completes on both and appends nothing to the
undo list. -/
theorem C13_counterexample :
    (exTxPlainWithUpdate.vout.filter (fun o => o.scriptPubKey.isAnyUpdate)).length = 1 ∧
    (ApplyNameTransaction exParams exTxPlainWithUpdate 8 exViewLiving ⟨[]⟩).map
        (fun r => r.2.vnameundo) = some [] ∧
    (exTxBuggy.vout.filter (fun o => o.scriptPubKey.isAnyUpdate)).length = 1 ∧
    exTxBuggy.IsNamecoin = true ∧
    (ApplyNameTransaction exParams exTxBuggy 7 exViewLiving ⟨[]⟩).map
        (fun r => r.2.vnameundo) = some [] := by
  refine ⟨by decide, by decide, by decide, by decide, by decide⟩

/-! ### The undo flag of `SetName` -/

theorem fromOldStateOn_model (nm : valtype) (view : CCoinsViewCache) :
    CNameTxUndo.fromOldStateOn CCoinsViewCache.ops nm view
      = CNameTxUndo.fromOldState nm view := rfl

theorem applyOn_model (u : CNameTxUndo) (view : CCoinsViewCache) :
    u.applyOn CCoinsViewCache.ops view = u.apply view := rfl

/-- On the modelled view the loop over any implementation is the loop of
`applyOutputs`. -/
theorem applyOutputsOn_model (txHash : uint256) (nHeight : Nat) (outs : List CTxOut) :
    ∀ (i : Nat) (view : CCoinsViewCache) (undo : CBlockUndo),
    applyOutputsOn CCoinsViewCache.ops txHash nHeight outs i view undo
      = applyOutputs txHash nHeight outs i view undo := by
  induction outs with
  | nil => intro i view undo; rfl
  | cons out rest ih =>
    intro i view undo
    unfold applyOutputsOn applyOutputs
    split
    · cases out.scriptPubKey.getOpName with
      | none => rfl
      | some name =>
        cases CNameData.fromScript nHeight ⟨txHash, i⟩ out.scriptPubKey with
        | none => rfl
        | some data => exact ih _ _ _
    · exact ih _ _ _

/-- On the modelled view `ApplyNameTransactionOn` is `ApplyNameTransaction`. -/
theorem ApplyNameTransactionOn_model (P : Params) (tx : CTransaction) (nHeight : Nat)
    (view : CCoinsViewCache) (undo : CBlockUndo) :
    ApplyNameTransactionOn CCoinsViewCache.ops P tx nHeight view undo
      = ApplyNameTransaction P tx nHeight view undo := by
  unfold ApplyNameTransactionOn ApplyNameTransaction
  simp only [applyOutputsOn_model]
  rfl

theorem recordingOps_SetName (v : CCoinsViewCache) (calls : List ViewCall) (name : valtype)
    (data : CNameData) (undo : Bool) :
    recordingOps.SetName (v, calls) name data undo
      = (v.SetName name data undo, calls ++ [ViewCall.SetName name data undo]) := rfl

theorem fromOldStateOn_recording (nm : valtype) (v : CCoinsViewCache)
    (calls : List ViewCall) :
    CNameTxUndo.fromOldStateOn recordingOps nm (v, calls) = CNameTxUndo.fromOldState nm v :=
  rfl

/-- The output loop on the recording view: the view is written as by
`applyOutputs`, and one call `SetName (name, record, false)` per name write is
recorded, in order. -/
theorem applyOutputsOn_recording (txHash : uint256) (nHeight : Nat) (outs : List CTxOut) :
    ∀ (i : Nat) (v : CCoinsViewCache) (calls : List ViewCall) (u : CBlockUndo),
    applyOutputsOn recordingOps txHash nHeight outs i (v, calls) u =
      some ((viewAfter v (nameWritesFrom txHash nHeight outs i),
          calls ++ (nameWritesFrom txHash nHeight outs i).map
            (fun w => ViewCall.SetName w.1 w.2 false)),
        ⟨u.vnameundo ++ undoEntries v (nameWritesFrom txHash nHeight outs i)⟩) := by
  induction outs with
  | nil =>
    intro i v calls u
    simp [applyOutputsOn, nameWritesFrom, viewAfter, undoEntries]
  | cons out rest ih =>
    intro i v calls u
    rcases hs : out.scriptPubKey with a | ⟨h, a⟩ | ⟨name, rand, value, ns, addr⟩ | ⟨name, value, addr⟩
    · simp [applyOutputsOn, nameWritesFrom, hs, updateOf, CNameScript.isNameOp, ih]
    · simp [applyOutputsOn, nameWritesFrom, hs, updateOf, CNameScript.isAnyUpdate, ih]
    · simp [applyOutputsOn, nameWritesFrom, hs, updateOf, CNameScript.isAnyUpdate,
        CNameScript.isNameOp, CNameScript.getOpName, CNameData.fromScript,
        CNameScript.getOpValue, CNameScript.getAddress, ih, viewAfter, undoEntries,
        recordingOps_SetName, fromOldStateOn_recording]
    · simp [applyOutputsOn, nameWritesFrom, hs, updateOf, CNameScript.isAnyUpdate,
        CNameScript.isNameOp, CNameScript.getOpName, CNameData.fromScript,
        CNameScript.getOpValue, CNameScript.getAddress, ih, viewAfter, undoEntries,
        recordingOps_SetName, fromOldStateOn_recording]

/-- C14 (amended): the history flag goes the other way round.  (a) For a
Namecoin-flagged transaction that is not bypassed, at a height other than
MEMPOOL_HEIGHT, the calls that `ApplyNameTransaction` makes on the view are, in
output order, one `SetName (name, record, false)` for each new record (one per
NameFirstUpdate/NameUpdate output), and nothing else: every new record is
written with the undo flag set to false.  (b) `CNameTxUndo::apply` on an entry
with `isNew = false` makes the one call `SetName (name, oldData, true)`: the
old record is restored with the undo flag set to true.  (c) On the modelled
view the code run on the recording view is `ApplyNameTransaction` and
`CNameTxUndo::apply` as embedded above, so that the application yields the
view after those writes and the restore yields `SetName (name, oldData,
true)`. -/
theorem C14_history_flag_direction :
    (∀ (P : Params) (tx : CTransaction) (nHeight : Nat) (view : CCoinsViewCache)
      (calls : List ViewCall) (undo : CBlockUndo),
      nHeight ≠ P.MEMPOOL_HEIGHT →
      (P.IsHistoricBug tx.GetHash nHeight = none ∨
        P.IsHistoricBug tx.GetHash nHeight = some .BUG_FULLY_APPLY) →
      tx.IsNamecoin = true →
      ApplyNameTransactionOn recordingOps P tx nHeight (view, calls) undo =
        some ((viewAfter view (nameWrites tx nHeight),
            calls ++ (nameWrites tx nHeight).map (fun w => ViewCall.SetName w.1 w.2 false)),
          ⟨undo.vnameundo ++ undoEntries view (nameWrites tx nHeight)⟩)) ∧
    (∀ (u : CNameTxUndo) (view : CCoinsViewCache) (calls : List ViewCall),
      u.isNew = false →
      u.applyOn recordingOps (view, calls) =
        (view.SetName u.name u.oldData true,
          calls ++ [ViewCall.SetName u.name u.oldData true])) ∧
    (∀ (P : Params) (tx : CTransaction) (nHeight : Nat) (view : CCoinsViewCache)
      (undo : CBlockUndo),
      ApplyNameTransactionOn CCoinsViewCache.ops P tx nHeight view undo
        = ApplyNameTransaction P tx nHeight view undo ∧
      (nHeight ≠ P.MEMPOOL_HEIGHT →
        (P.IsHistoricBug tx.GetHash nHeight = none ∨
          P.IsHistoricBug tx.GetHash nHeight = some .BUG_FULLY_APPLY) →
        tx.IsNamecoin = true →
        ApplyNameTransaction P tx nHeight view undo =
          some (viewAfter view (nameWrites tx nHeight),
            ⟨undo.vnameundo ++ undoEntries view (nameWrites tx nHeight)⟩))) ∧
    (∀ (u : CNameTxUndo) (view : CCoinsViewCache),
      u.applyOn CCoinsViewCache.ops view = u.apply view ∧
      (u.isNew = false → u.apply view = view.SetName u.name u.oldData true)) := by
  refine ⟨?_, ?_, ?_, ?_⟩
  · intro P tx nHeight view calls undo hh hnb hflag
    have hcond : ¬ ((P.IsHistoricBug tx.GetHash nHeight).isSome = true ∧
        P.IsHistoricBug tx.GetHash nHeight ≠ some .BUG_FULLY_APPLY) := by
      intro hc
      have := bypassed_eq_false P tx nHeight hnb
      simp [bypassed, hc.1, hc.2] at this
    simp only [ApplyNameTransactionOn, hh, if_false, hcond, hflag, Bool.not_true,
      Bool.false_eq_true, nameWrites]
    exact applyOutputsOn_recording _ _ _ _ _ _ _
  · intro u view calls hnew
    simp [CNameTxUndo.applyOn, hnew, recordingOps]
  · intro P tx nHeight view undo
    refine ⟨ApplyNameTransactionOn_model P tx nHeight view undo, ?_⟩
    intro hh hnb hflag
    exact ApplyNameTransaction_eq_writes P tx nHeight view undo hh
      (bypassed_eq_false P tx nHeight hnb) hflag
  · intro u view
    refine ⟨rfl, ?_⟩
    intro hnew
    simp [CNameTxUndo.apply, hnew]

/-- Instance of the amended C14: the transaction that registers name 5 and
updates name 1,2 twice makes three calls of `SetName`, each with the undo
flag set to false; applying the undo entry of name 1,2 makes one call of
`SetName` with the undo flag set to true. -/
theorem C14_history_flag_direction_witness :
    (ApplyNameTransactionOn recordingOps exParams exTxThreeWrites 8 (exViewHistory, [])
        ⟨[]⟩).map (fun r => r.1.2) =
      some [ViewCall.SetName [5] ⟨[6], 8, ⟨19, 0⟩, [9], false⟩ false,
        ViewCall.SetName [1, 2] ⟨[4], 8, ⟨19, 2⟩, [9], false⟩ false,
        ViewCall.SetName [1, 2] ⟨[8], 8, ⟨19, 4⟩, [9], false⟩ false] ∧
    ((CNameTxUndo.fromOldState [1, 2] exViewHistory).applyOn recordingOps
        (exViewHistory, [])).2 =
      [ViewCall.SetName [1, 2] ⟨[3], 5, ⟨1, 1⟩, [9], false⟩ true] := by
  constructor
  · rw [C14_history_flag_direction.1 exParams exTxThreeWrites 8 exViewHistory [] ⟨[]⟩
      (by decide) (Or.inl (by decide)) (by decide)]
    decide
  · rw [C14_history_flag_direction.2.1 (CNameTxUndo.fromOldState [1, 2] exViewHistory)
      exViewHistory [] (by decide)]
    decide

/-- C14 as stated fails: applying the update of the living name 1,2 makes one
call on the view, `SetName` with the undo flag set to false where the claim
has true; applying the undo entry of that name makes one call, `SetName` with
the undo flag set to true where the claim has false. -/
theorem C14_counterexample :
    (ApplyNameTransactionOn recordingOps exParams exTxSingleUpdate 8 (exViewHistory, [])
        ⟨[]⟩).map (fun r => r.1.2) =
      some [ViewCall.SetName [1, 2] ⟨[4], 8, ⟨21, 0⟩, [9], false⟩ false] ∧
    ((CNameTxUndo.fromOldState [1, 2] exViewHistory).applyOn recordingOps
        (exViewHistory, [])).2 =
      [ViewCall.SetName [1, 2] ⟨[3], 5, ⟨1, 1⟩, [9], false⟩ true] := by
  refine ⟨by decide, by decide⟩

/-! ### Undo entries -/

/-- C15 (undo entry semantics): `fromOldState (n, v)` stores name `n`, has
`isNew = true` exactly when `v` has no record for `n`, and stores the record of
`n` as `oldData` when there is one; `apply` deletes the name when `isNew` is
true and otherwise sets its record to `oldData`, leaving the other names
alone; hence for every view that differs from `v` at most in the record of
`n`, applying the entry captured from `v` gives the name map of `v`. -/
theorem C15_undo_entry_semantics (n : valtype) (v : CCoinsViewCache) :
    (CNameTxUndo.fromOldState n v).name = n ∧
    ((CNameTxUndo.fromOldState n v).isNew = true ↔ v.GetName n = none) ∧
    (∀ d : CNameData, v.GetName n = some d → (CNameTxUndo.fromOldState n v).oldData = d) ∧
    (∀ (u : CNameTxUndo) (w : CCoinsViewCache),
      (u.isNew = true → u.apply w = w.DeleteName u.name ∧ (u.apply w).GetName u.name = none) ∧
      (u.isNew = false → (u.apply w).GetName u.name = some u.oldData) ∧
      (∀ m : valtype, m ≠ u.name → (u.apply w).GetName m = w.GetName m)) ∧
    (∀ w : CCoinsViewCache, (∀ m : valtype, m ≠ n → w.GetName m = v.GetName m) →
      ((CNameTxUndo.fromOldState n v).apply w).names = v.names) := by
  refine ⟨?_, ?_, ?_, ?_, ?_⟩
  · unfold CNameTxUndo.fromOldState
    cases v.GetName n <;> rfl
  · unfold CNameTxUndo.fromOldState
    cases v.GetName n <;> simp
  · intro d hd
    simp [CNameTxUndo.fromOldState, hd]
  · intro u w
    refine ⟨?_, ?_, ?_⟩
    · intro hnew
      simp [CNameTxUndo.apply, hnew, CCoinsViewCache.DeleteName, CCoinsViewCache.GetName]
    · intro hnew
      simp [CNameTxUndo.apply, hnew, CCoinsViewCache.SetName, CCoinsViewCache.GetName]
    · intro m hm
      cases hnew : u.isNew <;>
        simp [CNameTxUndo.apply, hnew, CCoinsViewCache.SetName, CCoinsViewCache.DeleteName,
          CCoinsViewCache.GetName, hm]
  · intro w hw
    rw [undo_apply_names]
    funext m
    have hname : (CNameTxUndo.fromOldState n v).name = n := by
      unfold CNameTxUndo.fromOldState
      cases v.GetName n <;> rfl
    rw [hname]
    by_cases hm : m = n
    · subst hm
      unfold CNameTxUndo.fromOldState
      cases hv : v.GetName m with
      | none => simpa [CCoinsViewCache.GetName] using hv.symm
      | some d => simpa [CCoinsViewCache.GetName] using hv.symm
    · simpa [hm, CCoinsViewCache.GetName] using hw m hm

/-- Instance of C15: the entry captured for name 1,2 from the view in which it
is living, applied to the view in which it is absent, restores the name map. -/
theorem C15_undo_entry_semantics_witness :
    ((CNameTxUndo.fromOldState [1, 2] exViewLiving).apply exViewEmpty).names
      = exViewLiving.names :=
  (C15_undo_entry_semantics [1, 2] exViewLiving).2.2.2.2 exViewEmpty
    (by
      intro m hm
      simp [exViewEmpty, exViewLiving, CCoinsViewCache.GetName, hm])

/-! ### No-op cases and the fully-ignore bug -/

/-- C16 (no-op cases): at a height other than MEMPOOL_HEIGHT, (a) for a
transaction on the historic-bug list with a disposition other than
BUG_FULLY_APPLY, whatever its flag and outputs, `ApplyNameTransaction`
completes with the undo list unchanged and every name record unchanged, and
when the disposition is not BUG_FULLY_IGNORE either the whole view (coins
included) is unchanged; (b) for a transaction without the Namecoin flag that
is not bypassed, view and undo list are unchanged. -/
theorem C16_apply_no_op_cases (P : Params) (tx : CTransaction) (nHeight : Nat)
    (view : CCoinsViewCache) (undo : CBlockUndo) (hh : nHeight ≠ P.MEMPOOL_HEIGHT) :
    (∀ type : BugType, P.IsHistoricBug tx.GetHash nHeight = some type →
      type ≠ .BUG_FULLY_APPLY →
      ∃ view1 : CCoinsViewCache,
        ApplyNameTransaction P tx nHeight view undo = some (view1, undo) ∧
        view1.names = view.names ∧
        (type ≠ .BUG_FULLY_IGNORE → view1 = view)) ∧
    ((P.IsHistoricBug tx.GetHash nHeight = none ∨
        P.IsHistoricBug tx.GetHash nHeight = some .BUG_FULLY_APPLY) →
      tx.IsNamecoin = false →
      ApplyNameTransaction P tx nHeight view undo = some (view, undo)) := by
  constructor
  · intro type hbug hty
    cases type with
    | BUG_FULLY_APPLY => exact absurd rfl hty
    | BUG_FULLY_IGNORE =>
      refine ⟨view.ModifyCoins tx.GetHash (spendBuggyOutputs tx.vout 0), ?_,
        ModifyCoins_names _ _ _, fun h => absurd rfl h⟩
      simp [ApplyNameTransaction, hh, hbug]
    | BUG_OTHER =>
      refine ⟨view, ?_, rfl, fun _ => rfl⟩
      simp [ApplyNameTransaction, hh, hbug]
  · intro hnb hflag
    rcases hnb with hnb | hnb <;> simp [ApplyNameTransaction, hh, hnb, hflag]

/-- Instance of C16: the bypassed transaction 666 and a currency transaction
that carries an update output both leave view and undo list as they are. -/
theorem C16_apply_no_op_cases_witness :
    (∃ view1 : CCoinsViewCache,
      ApplyNameTransaction exParamsBugs exTxBuggy 7 exViewLiving ⟨[]⟩ = some (view1, ⟨[]⟩) ∧
      view1.names = exViewLiving.names ∧
      (BugType.BUG_OTHER ≠ .BUG_FULLY_IGNORE → view1 = exViewLiving)) ∧
    ApplyNameTransaction exParamsBugs exTxPlainWithUpdate 7 exViewLiving ⟨[]⟩
      = some (exViewLiving, ⟨[]⟩) :=
  ⟨(C16_apply_no_op_cases exParamsBugs exTxBuggy 7 exViewLiving ⟨[]⟩ (by decide)).1
      .BUG_OTHER (by decide) (by decide),
    (C16_apply_no_op_cases exParamsBugs exTxPlainWithUpdate 7 exViewLiving ⟨[]⟩
      (by decide)).2 (Or.inl (by decide)) (by decide)⟩

theorem Spend_available (c : CCoins) (i j : Nat) (h : c.IsAvailable i = true) :
    (c.Spend i).1.IsAvailable j = (if j = i then false else c.IsAvailable j) := by
  have hs : (c.Spend i).1 = { c with vout := c.vout.set i CCoins.nullOut } := by
    simp [CCoins.Spend, h]
  rw [hs]
  by_cases hji : j = i
  · subst hji
    simp only [CCoins.IsAvailable, if_true]
    rw [List.getElem?_set]
    simp only [if_true]
    by_cases hlt : j < c.vout.length
    · simp [hlt, CCoins.nullOut]
    · simp [hlt]
  · have hij : i ≠ j := fun e => hji e.symm
    simp [CCoins.IsAvailable, hji, List.getElem?_set_ne hij]

/-- Availability after the spending loop of the fully-ignore branch: output
`j` is available iff it was and it is no first-update or update output. -/
theorem spendBuggyOutputs_available (outs : List CTxOut) (k : Nat) (c : CCoins) (j : Nat) :
    (spendBuggyOutputs outs k c).IsAvailable j =
      (c.IsAvailable j &&
        !(decide (k ≤ j) &&
          (match outs[j - k]? with
            | some o => o.scriptPubKey.isAnyUpdate
            | none => false))) := by
  induction outs generalizing k c with
  | nil => simp [spendBuggyOutputs]
  | cons out rest ih =>
    simp only [spendBuggyOutputs]
    by_cases hup : out.scriptPubKey.isAnyUpdate = true
    · have hop : out.scriptPubKey.isNameOp = true := by
        cases hs : out.scriptPubKey <;> simp_all [CNameScript.isAnyUpdate, CNameScript.isNameOp]
      simp only [hop, hup, and_self, if_true]
      rw [ih]
      have hc1 : (if c.IsAvailable k = true then (c.Spend k).1 else c).IsAvailable j
          = (if j = k then false else c.IsAvailable j) := by
        by_cases hav : c.IsAvailable k = true
        · simp only [hav, if_true]
          exact Spend_available c k j hav
        · simp only [hav, Bool.false_eq_true, if_false]
          by_cases hjk : j = k
          · subst hjk; simpa using hav
          · simp [hjk]
      rw [hc1]
      by_cases hjk : j = k
      · subst hjk
        simp [hup]
      · by_cases hlt : k ≤ j
        · have h1 : k + 1 ≤ j := by omega
          have h2 : j - k = (j - (k + 1)) + 1 := by omega
          simp [hjk, hlt, h1, h2]
        · have h1 : ¬ k + 1 ≤ j := by omega
          simp [hjk, hlt, h1]
    · have hcond : ¬ (out.scriptPubKey.isNameOp = true ∧ out.scriptPubKey.isAnyUpdate = true) :=
        fun h => hup h.2
      simp only [hcond, if_false]
      rw [ih]
      by_cases hjk : j = k
      · subst hjk
        simp [hup]
      · by_cases hlt : k ≤ j
        · have h1 : k + 1 ≤ j := by omega
          have h2 : j - k = (j - (k + 1)) + 1 := by omega
          simp [hlt, h1, h2]
        · have h1 : ¬ k + 1 ≤ j := by omega
          simp [hlt, h1]

theorem outputAvailable_ModifyCoins (v : CCoinsViewCache) (txid : uint256)
    (f : CCoins → CCoins) (i : Nat) :
    outputAvailable (v.ModifyCoins txid f) txid i =
      (match v.GetCoins txid with
        | some c => (f c).IsAvailable i
        | none => false) := by
  unfold outputAvailable CCoinsViewCache.ModifyCoins CCoinsViewCache.GetCoins
  cases hc : v.coins txid with
  | none => simp [hc]
  | some c => simp

/-- C17 (amended): for a transaction on the historic-bug list with
disposition BUG_FULLY_IGNORE, at a height other than MEMPOOL_HEIGHT,
`ApplyNameTransaction` completes with the undo list and the name database
unchanged; afterwards every output of the transaction that is a
NameFirstUpdate or NameUpdate is not available in the coin view, every other
position (a non-name output, a NameNew output, or no output of the
transaction) keeps its availability, and the coins of other transactions are
unchanged. -/
theorem C17_fully_ignore_spends_update_outputs (P : Params) (tx : CTransaction)
    (nHeight : Nat) (view : CCoinsViewCache) (undo : CBlockUndo)
    (hbug : P.IsHistoricBug tx.GetHash nHeight = some .BUG_FULLY_IGNORE)
    (hh : nHeight ≠ P.MEMPOOL_HEIGHT) :
    ∃ view1 : CCoinsViewCache,
      ApplyNameTransaction P tx nHeight view undo = some (view1, undo) ∧
      view1.names = view.names ∧
      (∀ (i : Nat) (out : CTxOut), tx.vout[i]? = some out →
        out.scriptPubKey.isAnyUpdate = true →
        outputAvailable view1 tx.GetHash i = false) ∧
      (∀ i : Nat, (∀ out : CTxOut, tx.vout[i]? = some out →
          out.scriptPubKey.isAnyUpdate = false) →
        outputAvailable view1 tx.GetHash i = outputAvailable view tx.GetHash i) ∧
      (∀ txid : uint256, txid ≠ tx.GetHash → view1.GetCoins txid = view.GetCoins txid) := by
  refine ⟨view.ModifyCoins tx.GetHash (spendBuggyOutputs tx.vout 0), ?_,
    ModifyCoins_names _ _ _, ?_, ?_, ?_⟩
  · simp [ApplyNameTransaction, hh, hbug]
  · intro i out hi hup
    rw [outputAvailable_ModifyCoins]
    cases hc : view.GetCoins tx.GetHash with
    | none => rfl
    | some c => simp [spendBuggyOutputs_available, hi, hup]
  · intro i hno
    rw [outputAvailable_ModifyCoins]
    unfold outputAvailable
    cases hc : view.GetCoins tx.GetHash with
    | none => rfl
    | some c =>
      simp only [spendBuggyOutputs_available, Nat.zero_le, decide_True, Bool.true_and,
        Nat.sub_zero]
      cases ho : tx.vout[i]? with
      | none => simp
      | some out => simp [hno out ho]
  · intro txid hne
    unfold CCoinsViewCache.ModifyCoins CCoinsViewCache.GetCoins
    cases hc : view.coins tx.GetHash with
    | none => rfl
    | some c => simp [hne]

/-- Instance of the amended C17 on transaction 668: the update output at
index 1 is spent. -/
theorem C17_fully_ignore_spends_update_outputs_witness :
    ∃ view1 : CCoinsViewCache,
      ApplyNameTransaction exParamsBugs exTxBugIgnore 7 exViewHistory ⟨[]⟩
        = some (view1, ⟨[]⟩) ∧
      view1.names = exViewHistory.names ∧
      outputAvailable view1 668 1 = false :=
  have h := C17_fully_ignore_spends_update_outputs exParamsBugs exTxBugIgnore 7
    exViewHistory ⟨[]⟩ (by decide) (by decide)
  h.elim fun view1 hv =>
    ⟨view1, hv.1, hv.2.1,
      hv.2.2.1 1 ⟨100, .NameUpdate [1, 2] [4] [9]⟩ (by decide) (by decide)⟩

/-- C17 as stated fails: transaction 668 is a fully-ignore bug at height 7,
its output 0 is a name operation (a NameNew) that is available in the coin
view, and after `ApplyNameTransaction` that output is still available; only
the update output at index 1 has been spent. -/
theorem C17_counterexample :
    exParamsBugs.IsHistoricBug exTxBugIgnore.GetHash 7 = some .BUG_FULLY_IGNORE ∧
    (exTxBugIgnore.vout[0]?).map (fun o => o.scriptPubKey.isNameOp) = some true ∧
    outputAvailable exViewHistory 668 0 = true ∧
    (ApplyNameTransaction exParamsBugs exTxBugIgnore 7 exViewHistory ⟨[]⟩).map
        (fun r => (outputAvailable r.1 668 0, outputAvailable r.1 668 1,
          outputAvailable r.1 668 2)) = some (true, false, true) := by
  refine ⟨by decide, by decide, by decide, by decide⟩

/-- C18 (check accepts implies apply never panics): for every transaction,
view, flags and height other than MEMPOOL_HEIGHT for which
`CheckNameTransaction` returned success, `ApplyNameTransaction` completes: it
fails neither the height assertion nor a precondition of the name and value
accessors it calls on the outputs. -/
theorem C18_check_accepts_apply_completes (P : Params) (tx : CTransaction) (nHeight : Nat)
    (view : CCoinsViewCache) (flags : Nat) (undo : CBlockUndo)
    (_hcheck : CheckNameTransaction P tx nHeight view flags = some true)
    (hh : nHeight ≠ P.MEMPOOL_HEIGHT) :
    ∃ r : CCoinsViewCache × CBlockUndo,
      ApplyNameTransaction P tx nHeight view undo = some r := by
  obtain ⟨v1, es, h1, _⟩ := ApplyNameTransaction_round_trip P tx nHeight view undo hh
  exact ⟨_, h1⟩

/-- Instance of C18: the accepted update of the examples is applied. -/
theorem C18_check_accepts_apply_completes_witness :
    ∃ r : CCoinsViewCache × CBlockUndo,
      ApplyNameTransaction exParams exTxUpdate 10 exViewLiving ⟨[]⟩ = some r :=
  C18_check_accepts_apply_completes exParams exTxUpdate 10 exViewLiving 0 ⟨[]⟩
    (by decide) (by decide)

/-! ## Theorems on `CNameMemPool` -/

theorem count_pos_iff (m : NameTxMap) (k : valtype) :
    NameTxMap.count m k > 0 ↔ (m k).isSome = true := by
  unfold NameTxMap.count
  cases m k <;> simp

theorem count_eq_zero_iff (m : NameTxMap) (k : valtype) :
    NameTxMap.count m k = 0 ↔ m k = none := by
  unfold NameTxMap.count
  cases m k <;> simp

/-- The output loop of `checkTx` returns a verdict: true exactly when no
output collides. -/
theorem checkTxOutputs_eq (m : CNameMemPool) (txHash : uint256) (outs : List CTxOut) :
    m.checkTxOutputs txHash outs
      = some (!outs.any (fun o => collides m txHash o.scriptPubKey)) := by
  induction outs with
  | nil => rfl
  | cons out rest ih =>
    rcases hs : out.scriptPubKey with a | ⟨h, a⟩ | ⟨name, rand, value, ns, addr⟩ | ⟨name, value, addr⟩
    · simp [CNameMemPool.checkTxOutputs, hs, CNameScript.isNameOp, collides, ih]
    · cases hm : m.mapNameNews h with
      | none =>
        simp [CNameMemPool.checkTxOutputs, hs, CNameScript.isNameOp, CNameScript.getNameOp,
          CNameScript.getOpHash, collides, hm, ih]
      | some mapped =>
        by_cases hne : mapped = txHash <;>
          simp [CNameMemPool.checkTxOutputs, hs, CNameScript.isNameOp, CNameScript.getNameOp,
            CNameScript.getOpHash, collides, hm, hne, ih]
    · cases hm : m.mapNameRegs name <;>
        simp [CNameMemPool.checkTxOutputs, hs, CNameScript.isNameOp, CNameScript.getNameOp,
          CNameScript.getOpName, collides, CNameMemPool.registersName, count_pos_iff, hm, ih]
    · cases hm : m.mapNameUpdates name <;>
        simp [CNameMemPool.checkTxOutputs, hs, CNameScript.isNameOp, CNameScript.getNameOp,
          CNameScript.getOpName, collides, CNameMemPool.updatesName, count_pos_iff, hm, ih]

theorem collides_iff (m : CNameMemPool) (txHash : uint256) (op : CNameScript) :
    collides m txHash op = true ↔
      (∃ (hash : valtype) (addr : CScript) (mapped : uint256),
        op = .NameNew hash addr ∧ m.mapNameNews hash = some mapped ∧ mapped ≠ txHash) ∨
      (∃ (name rand value : valtype) (ns : Bool) (addr : CScript),
        op = .NameFirstUpdate name rand value ns addr ∧ (m.mapNameRegs name).isSome = true) ∨
      (∃ (name value : valtype) (addr : CScript),
        op = .NameUpdate name value addr ∧ (m.mapNameUpdates name).isSome = true) := by
  cases op with
  | NonName a => simp [collides]
  | NameNew h a =>
    cases hm : m.mapNameNews h <;> simp [collides, hm]
  | NameFirstUpdate name rand value ns addr => simp [collides]
  | NameUpdate name value addr => simp [collides]

/-- C19 (mempool pre-admission check): for every index state and transaction,
`checkTx` returns a verdict (it is a function of the index and cannot modify
it); the verdict is false if and only if the transaction has the Namecoin flag
and one of its outputs is (a) a NameNew whose commitment hash is mapped in
pending_news to a txid other than the transaction's hash, (b) a
NameFirstUpdate whose name is a key of pending_registrations, or (c) a
NameUpdate whose name is a key of pending_updates; without the Namecoin flag
the verdict is true. -/
theorem C19_mempool_pre_admission_check (m : CNameMemPool) (tx : CTransaction) :
    (∃ b : Bool, m.checkTx tx = some b) ∧
    (m.checkTx tx = some false ↔
      tx.IsNamecoin = true ∧ ∃ out ∈ tx.vout,
        (∃ (hash : valtype) (addr : CScript) (mapped : uint256),
          out.scriptPubKey = .NameNew hash addr ∧ m.mapNameNews hash = some mapped ∧
          mapped ≠ tx.GetHash) ∨
        (∃ (name rand value : valtype) (ns : Bool) (addr : CScript),
          out.scriptPubKey = .NameFirstUpdate name rand value ns addr ∧
          (m.mapNameRegs name).isSome = true) ∨
        (∃ (name value : valtype) (addr : CScript),
          out.scriptPubKey = .NameUpdate name value addr ∧
          (m.mapNameUpdates name).isSome = true)) ∧
    (tx.IsNamecoin = false → m.checkTx tx = some true) := by
  cases hflag : tx.IsNamecoin with
  | false => simp [CNameMemPool.checkTx, hflag]
  | true =>
    simp only [CNameMemPool.checkTx, hflag, Bool.not_true, Bool.false_eq_true, if_false,
      checkTxOutputs_eq, true_and]
    refine ⟨⟨_, rfl⟩, ?_, by simp⟩
    simp only [Option.some.injEq, Bool.not_eq_false', List.any_eq_true]
    constructor
    · rintro ⟨out, hmem, hc⟩
      exact ⟨out, hmem, (collides_iff m tx.GetHash _).mp hc⟩
    · rintro ⟨out, hmem, hc⟩
      exact ⟨out, hmem, (collides_iff m tx.GetHash _).mpr hc⟩

/-- Instance of C19: with an update of name 1,2 pending, the update of the
examples is refused, and a currency transaction is admitted. -/
theorem C19_mempool_pre_admission_check_witness :
    exPool.checkTx exTxUpdate = some false ∧ exPool.checkTx exTxPlain = some true :=
  ⟨(C19_mempool_pre_admission_check exPool exTxUpdate).2.1.mpr
      ⟨by decide, ⟨100, .NameUpdate [1, 2] [4] [9]⟩, by decide,
        Or.inr (Or.inr ⟨[1, 2], [4], [9], rfl, by decide⟩)⟩,
    (C19_mempool_pre_admission_check exPool exTxPlain).2.2 (by decide)⟩

theorem insert_of_none (m : NameTxMap) (k : valtype) (v : uint256) (h : m k = none) :
    NameTxMap.insert m k v = fun k1 => if k1 = k then some v else m k1 := by
  funext k1
  simp [NameTxMap.insert, h]

/-- Closed form of `addUnchecked` by the shape of the entry's name operation. -/
theorem addUnchecked_eq (m : CNameMemPool) (hash : uint256) (entry : CTxMemPoolEntry) :
    m.addUnchecked hash entry =
      match entry.nameOp with
      | .NonName _ => some m
      | .NameNew h _ =>
        (match m.mapNameNews h with
          | some mapped => if mapped = hash then some m else none
          | none => some { m with mapNameNews := fun k => if k = h then some hash else m.mapNameNews k })
      | .NameFirstUpdate name _ _ _ _ =>
        (match m.mapNameRegs name with
          | some _ => none
          | none => some { m with mapNameRegs := fun k => if k = name then some hash else m.mapNameRegs k })
      | .NameUpdate name _ _ =>
        (match m.mapNameUpdates name with
          | some _ => none
          | none => some { m with mapNameUpdates := fun k => if k = name then some hash else m.mapNameUpdates k }) := by
  rcases hs : entry.nameOp with a | ⟨h, a⟩ | ⟨name, rand, value, ns, addr⟩ | ⟨name, value, addr⟩
  · simp [CNameMemPool.addUnchecked, CNameMemPool.addNameNew, CNameMemPool.addNameRegistration,
      CNameMemPool.addNameUpdate, CTxMemPoolEntry.isNameNew, CTxMemPoolEntry.isNameRegistration,
      CTxMemPoolEntry.isNameUpdate, hs, CNameScript.isNameOp]
  · cases hm : m.mapNameNews h with
    | none =>
      simp [CNameMemPool.addUnchecked, CNameMemPool.addNameNew,
        CNameMemPool.addNameRegistration, CNameMemPool.addNameUpdate,
        CTxMemPoolEntry.isNameNew, CTxMemPoolEntry.isNameRegistration,
        CTxMemPoolEntry.isNameUpdate, CTxMemPoolEntry.getNameNewHash, hs,
        CNameScript.isNameOp, CNameScript.getNameOp, CNameScript.getOpHash, hm,
        insert_of_none]
    | some mapped =>
      by_cases he : mapped = hash <;>
        simp [CNameMemPool.addUnchecked, CNameMemPool.addNameNew,
          CNameMemPool.addNameRegistration, CNameMemPool.addNameUpdate,
          CTxMemPoolEntry.isNameNew, CTxMemPoolEntry.isNameRegistration,
          CTxMemPoolEntry.isNameUpdate, CTxMemPoolEntry.getNameNewHash, hs,
          CNameScript.isNameOp, CNameScript.getNameOp, CNameScript.getOpHash, hm, he]
  · cases hm : m.mapNameRegs name with
    | none =>
      simp [CNameMemPool.addUnchecked, CNameMemPool.addNameNew,
        CNameMemPool.addNameRegistration, CNameMemPool.addNameUpdate,
        CTxMemPoolEntry.isNameNew, CTxMemPoolEntry.isNameRegistration,
        CTxMemPoolEntry.isNameUpdate, CTxMemPoolEntry.getName, hs,
        CNameScript.isNameOp, CNameScript.getNameOp, CNameScript.getOpName,
        count_eq_zero_iff, hm, insert_of_none]
    | some t =>
      simp [CNameMemPool.addUnchecked, CNameMemPool.addNameNew,
        CNameMemPool.addNameRegistration, CNameMemPool.addNameUpdate,
        CTxMemPoolEntry.isNameNew, CTxMemPoolEntry.isNameRegistration,
        CTxMemPoolEntry.isNameUpdate, CTxMemPoolEntry.getName, hs,
        CNameScript.isNameOp, CNameScript.getNameOp, CNameScript.getOpName,
        count_eq_zero_iff, hm]
  · cases hm : m.mapNameUpdates name with
    | none =>
      simp [CNameMemPool.addUnchecked, CNameMemPool.addNameNew,
        CNameMemPool.addNameRegistration, CNameMemPool.addNameUpdate,
        CTxMemPoolEntry.isNameNew, CTxMemPoolEntry.isNameRegistration,
        CTxMemPoolEntry.isNameUpdate, CTxMemPoolEntry.getName, hs,
        CNameScript.isNameOp, CNameScript.getNameOp, CNameScript.getOpName,
        count_eq_zero_iff, hm, insert_of_none]
    | some t =>
      simp [CNameMemPool.addUnchecked, CNameMemPool.addNameNew,
        CNameMemPool.addNameRegistration, CNameMemPool.addNameUpdate,
        CTxMemPoolEntry.isNameNew, CTxMemPoolEntry.isNameRegistration,
        CTxMemPoolEntry.isNameUpdate, CTxMemPoolEntry.getName, hs,
        CNameScript.isNameOp, CNameScript.getNameOp, CNameScript.getOpName,
        count_eq_zero_iff, hm]

/-- A successful add keeps every mapping that was present. -/
theorem addUnchecked_frame (m m1 : CNameMemPool) (hash : uint256) (entry : CTxMemPoolEntry)
    (hadd : m.addUnchecked hash entry = some m1) (k : valtype) (t : uint256) :
    (m.mapNameNews k = some t → m1.mapNameNews k = some t) ∧
    (m.mapNameRegs k = some t → m1.mapNameRegs k = some t) ∧
    (m.mapNameUpdates k = some t → m1.mapNameUpdates k = some t) := by
  rw [addUnchecked_eq] at hadd
  rcases hs : entry.nameOp with a | ⟨h, a⟩ | ⟨name, rand, value, ns, addr⟩ | ⟨name, value, addr⟩
  · simp only [hs, Option.some.injEq] at hadd
    subst hadd
    exact ⟨id, id, id⟩
  · simp only [hs] at hadd
    cases hm : m.mapNameNews h with
    | none =>
      simp only [hm, Option.some.injEq] at hadd
      subst hadd
      refine ⟨?_, id, id⟩
      intro hk
      by_cases hkh : k = h
      · subst hkh; rw [hm] at hk; simp at hk
      · simp [hkh, hk]
    | some mapped =>
      simp only [hm] at hadd
      split at hadd
      · simp only [Option.some.injEq] at hadd
        subst hadd
        exact ⟨id, id, id⟩
      · simp at hadd
  · simp only [hs] at hadd
    cases hm : m.mapNameRegs name with
    | none =>
      simp only [hm, Option.some.injEq] at hadd
      subst hadd
      refine ⟨id, ?_, id⟩
      intro hk
      by_cases hkh : k = name
      · subst hkh; rw [hm] at hk; simp at hk
      · simp [hkh, hk]
    | some t1 => simp [hm] at hadd
  · simp only [hs] at hadd
    cases hm : m.mapNameUpdates name with
    | none =>
      simp only [hm, Option.some.injEq] at hadd
      subst hadd
      refine ⟨id, id, ?_⟩
      intro hk
      by_cases hkh : k = name
      · subst hkh; rw [hm] at hk; simp at hk
      · simp [hkh, hk]
    | some t1 => simp [hm] at hadd

theorem addAll_frame (adds : List (uint256 × CTxMemPoolEntry)) (m m1 : CNameMemPool)
    (hadd : addAll m adds = some m1) (k : valtype) (t : uint256) :
    (m.mapNameNews k = some t → m1.mapNameNews k = some t) ∧
    (m.mapNameRegs k = some t → m1.mapNameRegs k = some t) ∧
    (m.mapNameUpdates k = some t → m1.mapNameUpdates k = some t) := by
  induction adds generalizing m with
  | nil =>
    simp only [addAll, Option.some.injEq] at hadd
    subst hadd
    exact ⟨id, id, id⟩
  | cons a rest ih =>
    obtain ⟨hash, entry⟩ := a
    simp only [addAll] at hadd
    cases h1 : m.addUnchecked hash entry with
    | none => simp [h1] at hadd
    | some m2 =>
      simp only [h1] at hadd
      obtain ⟨f1, f2, f3⟩ := addUnchecked_frame m m2 hash entry h1 k t
      obtain ⟨g1, g2, g3⟩ := ih m2 hadd
      exact ⟨fun h => g1 (f1 h), fun h => g2 (f2 h), fun h => g3 (f3 h)⟩

/-- C20 (effect of add): `addUnchecked (txid, entry)` completes exactly when
its assertions hold (a NameNew hash unmapped or mapped to `txid`; a
registration or update name unmapped), and then (a) for a NameNew entry the
hash maps to `txid` if it was unmapped, with the other hashes untouched, and
the index is unchanged if the hash was mapped to `txid` already; (b) for a
registration entry the name maps to `txid` in pending_registrations; (c) for
an update entry the name maps to `txid` in pending_updates; the maps not
concerned are unchanged, and no key present before changes its txid or
disappears, also over any sequence of adds: every key keeps the first
transaction that claimed it. -/
theorem C20_effect_of_add (m : CNameMemPool) (hash : uint256) (entry : CTxMemPoolEntry) :
    ((m.addUnchecked hash entry).isSome = true ↔
      (∀ (h : valtype) (addr : CScript), entry.nameOp = .NameNew h addr →
        m.mapNameNews h = none ∨ m.mapNameNews h = some hash) ∧
      (∀ (name rand value : valtype) (ns : Bool) (addr : CScript),
        entry.nameOp = .NameFirstUpdate name rand value ns addr → m.mapNameRegs name = none) ∧
      (∀ (name value : valtype) (addr : CScript),
        entry.nameOp = .NameUpdate name value addr → m.mapNameUpdates name = none)) ∧
    (∀ m1 : CNameMemPool, m.addUnchecked hash entry = some m1 →
      (∀ (h : valtype) (addr : CScript), entry.nameOp = .NameNew h addr →
        (m.mapNameNews h = none →
          m1.mapNameNews h = some hash ∧
          ∀ k : valtype, k ≠ h → m1.mapNameNews k = m.mapNameNews k) ∧
        (m.mapNameNews h = some hash → m1.mapNameNews = m.mapNameNews) ∧
        m1.mapNameRegs = m.mapNameRegs ∧ m1.mapNameUpdates = m.mapNameUpdates) ∧
      (∀ (name rand value : valtype) (ns : Bool) (addr : CScript),
        entry.nameOp = .NameFirstUpdate name rand value ns addr →
        m1.mapNameRegs name = some hash ∧
        (∀ k : valtype, k ≠ name → m1.mapNameRegs k = m.mapNameRegs k) ∧
        m1.mapNameNews = m.mapNameNews ∧ m1.mapNameUpdates = m.mapNameUpdates) ∧
      (∀ (name value : valtype) (addr : CScript),
        entry.nameOp = .NameUpdate name value addr →
        m1.mapNameUpdates name = some hash ∧
        (∀ k : valtype, k ≠ name → m1.mapNameUpdates k = m.mapNameUpdates k) ∧
        m1.mapNameNews = m.mapNameNews ∧ m1.mapNameRegs = m.mapNameRegs) ∧
      (∀ (k : valtype) (t : uint256),
        (m.mapNameNews k = some t → m1.mapNameNews k = some t) ∧
        (m.mapNameRegs k = some t → m1.mapNameRegs k = some t) ∧
        (m.mapNameUpdates k = some t → m1.mapNameUpdates k = some t))) ∧
    (∀ (adds : List (uint256 × CTxMemPoolEntry)) (m1 : CNameMemPool),
      addAll m adds = some m1 →
      ∀ (k : valtype) (t : uint256),
        (m.mapNameNews k = some t → m1.mapNameNews k = some t) ∧
        (m.mapNameRegs k = some t → m1.mapNameRegs k = some t) ∧
        (m.mapNameUpdates k = some t → m1.mapNameUpdates k = some t)) := by
  refine ⟨?_, ?_, fun adds m1 h k t => addAll_frame adds m m1 h k t⟩
  · rw [addUnchecked_eq]
    rcases hs : entry.nameOp with a | ⟨h, a⟩ | ⟨name, rand, value, ns, addr⟩ | ⟨name, value, addr⟩
    · simp
    · cases hm : m.mapNameNews h with
      | none => simp [hm]
      | some mapped =>
        by_cases he : mapped = hash <;> simp [hm, he]
    · cases hm : m.mapNameRegs name with
      | none =>
        simp only [hm, Option.isSome_some, true_iff]
        refine ⟨fun h a he => (by cases he), fun n r v s a he => ?_,
          fun n v a he => (by cases he)⟩
        cases he
        exact hm
      | some t =>
        simp only [hm, Option.isSome_none, Bool.false_eq_true, false_iff]
        intro hc
        have := hc.2.1 name rand value ns addr rfl
        rw [hm] at this
        simp at this
    · cases hm : m.mapNameUpdates name <;> simp [hm]
  · intro m1 hadd
    refine ⟨?_, ?_, ?_, fun k t => addUnchecked_frame m m1 hash entry hadd k t⟩
    · intro h addr hs
      rw [addUnchecked_eq] at hadd
      simp only [hs] at hadd
      cases hm : m.mapNameNews h with
      | none =>
        simp only [hm, Option.some.injEq] at hadd
        subst hadd
        refine ⟨fun _ => ⟨by simp, fun k hk => by simp [hk]⟩, fun hc => by simp at hc, rfl, rfl⟩
      | some mapped =>
        simp only [hm] at hadd
        split at hadd
        · simp only [Option.some.injEq] at hadd
          subst hadd
          exact ⟨fun hc => by simp at hc, fun _ => rfl, rfl, rfl⟩
        · simp at hadd
    · intro name rand value ns addr hs
      rw [addUnchecked_eq] at hadd
      simp only [hs] at hadd
      cases hm : m.mapNameRegs name with
      | none =>
        simp only [hm, Option.some.injEq] at hadd
        subst hadd
        exact ⟨by simp, fun k hk => by simp [hk], rfl, rfl⟩
      | some t1 => simp [hm] at hadd
    · intro name value addr hs
      rw [addUnchecked_eq] at hadd
      simp only [hs] at hadd
      cases hm : m.mapNameUpdates name with
      | none =>
        simp only [hm, Option.some.injEq] at hadd
        subst hadd
        exact ⟨by simp, fun k hk => by simp [hk], rfl, rfl⟩
      | some t1 => simp [hm] at hadd

/-- Instance of C20: adding the update of name 1,2 as transaction 10 to the
empty index maps the name to 10 in pending_updates and leaves the other maps
empty; re-adding the NameNew of transaction 30 leaves its hash mapped to 30. -/
theorem C20_effect_of_add_witness :
    (∃ m1 : CNameMemPool, exPoolEmpty.addUnchecked 10 exEntryUpdate = some m1 ∧
      m1.mapNameUpdates [1, 2] = some 10 ∧
      m1.mapNameNews = exPoolEmpty.mapNameNews ∧ m1.mapNameRegs = exPoolEmpty.mapNameRegs) ∧
    (∃ m1 : CNameMemPool, exPool.addUnchecked 30 exEntryNew = some m1 ∧
      m1.mapNameNews = exPool.mapNameNews) := by
  constructor
  · have hsome : (exPoolEmpty.addUnchecked 10 exEntryUpdate).isSome = true := by decide
    obtain ⟨m1, hm1⟩ := Option.isSome_iff_exists.mp hsome
    have h := ((C20_effect_of_add exPoolEmpty 10 exEntryUpdate).2.1 m1 hm1).2.2.1
      [1, 2] [4] [9] rfl
    exact ⟨m1, hm1, h.1, h.2.2.1, h.2.2.2⟩
  · have hsome : (exPool.addUnchecked 30 exEntryNew).isSome = true := by decide
    obtain ⟨m1, hm1⟩ := Option.isSome_iff_exists.mp hsome
    have h := ((C20_effect_of_add exPool 30 exEntryNew).2.1 m1 hm1).1 exRand [9] rfl
    exact ⟨m1, hm1, h.2.1 (by decide)⟩

/-! ## Theorems of the last group of claims -/

/-- Once the input loop meets an input without coins it returns false, unless
it aborted or returned false before. -/
theorem scanInputs_unresolvable (view : CCoinsViewCache) (vin : List CTxIn) (i : Nat)
    (acc : Option NameInput)
    (h : ∃ txin ∈ vin, view.GetCoins txin.prevout.hash = none) :
    scanInputs view vin i acc = .abort ∨ scanInputs view vin i acc = .ret false := by
  induction vin generalizing i acc with
  | nil => simp at h
  | cons txin rest ih =>
    simp only [scanInputs]
    cases hc : view.GetCoins txin.prevout.hash with
    | none => right; rfl
    | some coins =>
      have hrest : ∃ t ∈ rest, view.GetCoins t.prevout.hash = none := by
        obtain ⟨t, ht, hn⟩ := h
        rcases List.mem_cons.mp ht with e | e
        · subst e; rw [hc] at hn; simp at hn
        · exact ⟨t, e, hn⟩
      simp only
      split
      · left; rfl
      · split
        · split
          · right; rfl
          · exact ih _ _ hrest
        · exact ih _ _ hrest

/-- C28 (unresolvable input): for a transaction that is not on the
historic-bug list and has an input whose previous transaction has no coins in
the view, `CheckNameTransaction` never accepts, whatever the Namecoin flag, the
outputs, the height and the flags, and it returns failure when no input
indexes outside the coins found for it (where the source is undefined). -/
theorem C28_unresolvable_input (P : Params) (tx : CTransaction) (nHeight : Nat)
    (view : CCoinsViewCache) (flags : Nat)
    (hbug : P.IsHistoricBug tx.GetHash nHeight = none)
    (hun : ∃ txin ∈ tx.vin, view.GetCoins txin.prevout.hash = none) :
    CheckNameTransaction P tx nHeight view flags ≠ some true ∧
    (InputsInRange view tx = true →
      CheckNameTransaction P tx nHeight view flags = some false) := by
  simp only [CheckNameTransaction, hbug, Option.isSome_none, Bool.false_eq_true, if_false]
  rcases scanInputs_unresolvable view tx.vin 0 none hun with h | h
  · rw [h]
    refine ⟨by simp, fun hr => absurd h (scanInputs_ne_abort view tx.vin 0 none hr)⟩
  · rw [h]
    exact ⟨by simp, fun _ => rfl⟩

/-- Instance of C28: a currency transaction without name content whose second
input has no coins is rejected. -/
theorem C28_unresolvable_input_witness :
    exTxUnresolvable.IsNamecoin = false ∧ nameOutputs exTxUnresolvable = [] ∧
    CheckNameTransaction exParams exTxUnresolvable 7 exViewEmpty 0 = some false :=
  ⟨by decide, by decide,
    (C28_unresolvable_input exParams exTxUnresolvable 7 exViewEmpty 0 (by decide)
      ⟨⟨⟨99, 0⟩⟩, by decide, by decide⟩).2 (by decide)⟩

theorem nameOutputsFrom_mem (outs : List CTxOut) (i : Nat) (out : NameOutput)
    (h : out ∈ nameOutputsFrom outs i) :
    ∃ o ∈ outs, o.scriptPubKey = out.nameOpOut := by
  induction outs generalizing i with
  | nil => simp [nameOutputsFrom] at h
  | cons o rest ih =>
    simp only [nameOutputsFrom] at h
    split at h
    · rcases List.mem_cons.mp h with e | e
      · exact ⟨o, by simp, by rw [e]⟩
      · obtain ⟨o1, h1, h2⟩ := ih _ e
        exact ⟨o1, by simp [h1], h2⟩
    · obtain ⟨o1, h1, h2⟩ := ih _ h
      exact ⟨o1, by simp [h1], h2⟩

/-- C29 (checkTx guards add): for every index state and every transaction
with at most one name output, if `checkTx` returns true then `addUnchecked`
with the transaction's hash and the pool entry derived from it completes: none
of its assertions fails. -/
theorem C29_checkTx_guards_add (m : CNameMemPool) (tx : CTransaction)
    (_hone : (nameOutputs tx).length ≤ 1)
    (hcheck : m.checkTx tx = some true) :
    ∃ m1 : CNameMemPool, m.addUnchecked tx.GetHash (entryOf tx) = some m1 := by
  apply Option.isSome_iff_exists.mp
  rw [addUnchecked_eq]
  cases hflag : tx.IsNamecoin with
  | false => simp [entryOf, hflag]
  | true =>
    simp only [CNameMemPool.checkTx, hflag, Bool.not_true, Bool.false_eq_true, if_false,
      checkTxOutputs_eq, Option.some.injEq, Bool.not_eq_true', List.any_eq_false] at hcheck
    match hl : nameOutputs tx with
    | [] => simp [entryOf, hflag, hl]
    | _ :: _ :: _ => simp [entryOf, hflag, hl]
    | [out] =>
      have hmem : out ∈ nameOutputsFrom tx.vout 0 := by
        have : nameOutputsFrom tx.vout 0 = [out] := hl
        rw [this]; simp
      obtain ⟨o, ho, hop⟩ := nameOutputsFrom_mem tx.vout 0 out hmem
      have hnc := hcheck o ho
      rw [hop] at hnc
      have hen : (entryOf tx).nameOp = out.nameOpOut := by simp [entryOf, hflag, hl]
      rw [hen]
      rcases hs : out.nameOpOut with a | ⟨h, a⟩ | ⟨name, rand, value, ns, addr⟩ | ⟨name, value, addr⟩
      · rfl
      · rw [hs] at hnc
        cases hm : m.mapNameNews h with
        | none => simp [hm]
        | some mapped =>
          have : mapped = tx.GetHash := by
            by_contra hne
            simp [collides, hm, hne] at hnc
          simp [hm, this]
      · rw [hs] at hnc
        cases hm : m.mapNameRegs name with
        | none => simp [hm]
        | some t => simp [collides, hm] at hnc
      · rw [hs] at hnc
        cases hm : m.mapNameUpdates name with
        | none => simp [hm]
        | some t => simp [collides, hm] at hnc

/-- Instance of C29: the registration of name 5 passes `checkTx` on the empty
index and is then added. -/
theorem C29_checkTx_guards_add_witness :
    ∃ m1 : CNameMemPool,
      emptyIndex.addUnchecked exTxRegFive.GetHash (entryOf exTxRegFive) = some m1 :=
  C29_checkTx_guards_add emptyIndex exTxRegFive (by decide) (by decide)

/-- C25 (pending-transaction lookup): when pending_registrations and
pending_updates have disjoint keys, `getTxForName` fails no assertion and
returns the txid mapped to the name in pending_registrations if there is one,
otherwise the txid mapped to it in pending_updates if there is one, otherwise
the null hash; the answer does not depend on pending_news. -/
theorem C25_pending_transaction_lookup (m : CNameMemPool) (name : valtype)
    (hdis : KeysDisjoint m) :
    m.getTxForName name =
      some (match m.mapNameRegs name with
        | some txid => txid
        | none =>
          match m.mapNameUpdates name with
          | some txid => txid
          | none => 0) ∧
    ∀ news : NameTxMap,
      ({ m with mapNameNews := news } : CNameMemPool).getTxForName name
        = m.getTxForName name := by
  refine ⟨?_, fun _ => rfl⟩
  have h := hdis name
  unfold CNameMemPool.getTxForName
  cases hr : m.mapNameRegs name with
  | none =>
    cases hu : m.mapNameUpdates name with
    | none => rfl
    | some t => simp [count_eq_zero_iff, hr]
  | some t =>
    cases hu : m.mapNameUpdates name with
    | none => simp [count_eq_zero_iff, hu]
    | some t1 => simp [hr, hu] at h

/-- Instance of C25: in the example index name 5 has a pending registration
(transaction 31), name 1,2 a pending update (32) and name 9 neither. -/
theorem C25_pending_transaction_lookup_witness :
    exPool.getTxForName [5] = some 31 ∧ exPool.getTxForName [1, 2] = some 32 ∧
    exPool.getTxForName [9] = some 0 := by
  have hdis : KeysDisjoint exPool := by
    intro name h
    simp only [exPool] at h
    by_cases h5 : name = [5]
    · subst h5
      simp at h
    · simp [h5] at h
  refine ⟨?_, ?_, ?_⟩
  · rw [(C25_pending_transaction_lookup exPool [5] hdis).1]; decide
  · rw [(C25_pending_transaction_lookup exPool [1, 2] hdis).1]; decide
  · rw [(C25_pending_transaction_lookup exPool [9] hdis).1]; decide

/-- C26 (name-database check schedule): `CheckNameDB (disconnect)` goes on to
the validation if and only if the option is 0 (whatever `disconnect`), or the
option is N > 0, `disconnect` is false and the chain height is a multiple of
N; with option -1 it returns without validating; an option below -1 fails the
assertion.  In terms of the whole function: it returns without having
validated exactly when the schedule says so, and with a consistent database
it completes a validation exactly in the scheduled cases. -/
theorem C26_check_name_db_schedule (option height : Int) (disconnect : Bool) :
    (CheckNameDB_schedule option disconnect height = some true ↔
      option = 0 ∨ (0 < option ∧ disconnect = false ∧ option ∣ height)) ∧
    (option = -1 → ∀ ok : Bool, CheckNameDB option disconnect height ok = some false) ∧
    (option < -1 → ∀ ok : Bool, CheckNameDB option disconnect height ok = none) ∧
    (∀ ok : Bool, CheckNameDB option disconnect height ok = some false ↔
      CheckNameDB_schedule option disconnect height = some false) ∧
    (CheckNameDB option disconnect height true = some true ↔
      option = 0 ∨ (0 < option ∧ disconnect = false ∧ option ∣ height)) := by
  have hA : CheckNameDB_schedule option disconnect height = some true ↔
      option = 0 ∨ (0 < option ∧ disconnect = false ∧ option ∣ height) := by
    unfold CheckNameDB_schedule
    by_cases h1 : option = -1
    · subst h1
      simp
    by_cases h2 : option ≥ 0
    swap
    · have : ¬ 0 < option := by omega
      have h0 : option ≠ 0 := by omega
      simp [h1, h2, this, h0]
    by_cases h3 : option = 0
    · simp [h3]
    have hpos : 0 < option := by omega
    cases disconnect with
    | true => simp [h1, h2, h3]
    | false =>
      simp only [h1, h2, h3, if_false, not_true_eq_false, ne_eq, not_false_eq_true, if_true,
        Bool.false_eq_true, false_or, hpos, true_and, false_or]
      by_cases hd : Int.tmod height option = 0
      · simp [hd, Int.dvd_of_tmod_eq_zero hd]
      · have : ¬ option ∣ height := fun hdv => hd (Int.tmod_eq_zero_of_dvd hdv)
        simp [hd, this]
  refine ⟨hA, ?_, ?_, ?_, ?_⟩
  · intro h ok
    subst h
    simp [CheckNameDB, CheckNameDB_schedule]
  · intro h ok
    have h1 : option ≠ -1 := by omega
    have h2 : ¬ option ≥ 0 := by omega
    simp [CheckNameDB, CheckNameDB_schedule, h1, h2]
  · intro ok
    unfold CheckNameDB
    cases hs : CheckNameDB_schedule option disconnect height with
    | none => simp
    | some b =>
      cases b with
      | false => simp
      | true => cases ok <;> simp
  · rw [← hA]
    unfold CheckNameDB
    cases hs : CheckNameDB_schedule option disconnect height with
    | none => simp
    | some b => cases b <;> simp

/-- Instance of C26: with option 5 the database is checked at height 10 when
connecting, not at height 11 and not when disconnecting; with option 0 it is
checked also when disconnecting. -/
theorem C26_check_name_db_schedule_witness :
    CheckNameDB 5 false 10 true = some true ∧ CheckNameDB 5 false 11 true = some false ∧
    CheckNameDB 5 true 10 true = some false ∧ CheckNameDB 0 true 11 true = some true ∧
    CheckNameDB (-1) false 10 true = some false ∧ CheckNameDB (-2) false 10 true = none :=
  ⟨(C26_check_name_db_schedule 5 10 false).2.2.2.2.mpr
      (Or.inr ⟨by decide, rfl, ⟨2, by decide⟩⟩),
    by decide, by decide, by decide, by decide, by decide⟩

/-! ### `remove` and the disjointness of the keys -/

/-- Closed form of `remove` by the shape of the entry's name operation. -/
theorem remove_eq (m : CNameMemPool) (entry : CTxMemPoolEntry) :
    m.remove entry =
      match entry.nameOp with
      | .NameFirstUpdate name _ _ _ _ =>
        (match m.mapNameRegs name with
          | none => none
          | some _ => some { m with mapNameRegs := NameTxMap.erase m.mapNameRegs name })
      | .NameUpdate name _ _ =>
        (match m.mapNameUpdates name with
          | none => none
          | some _ => some { m with mapNameUpdates := NameTxMap.erase m.mapNameUpdates name })
      | _ => some m := by
  rcases hs : entry.nameOp with a | ⟨h, a⟩ | ⟨name, rand, value, ns, addr⟩ | ⟨name, value, addr⟩
  · simp [CNameMemPool.remove, CNameMemPool.removeRegistration, CNameMemPool.removeUpdate,
      CTxMemPoolEntry.isNameRegistration, CTxMemPoolEntry.isNameUpdate, hs,
      CNameScript.isNameOp]
  · simp [CNameMemPool.remove, CNameMemPool.removeRegistration, CNameMemPool.removeUpdate,
      CTxMemPoolEntry.isNameRegistration, CTxMemPoolEntry.isNameUpdate, hs,
      CNameScript.isNameOp, CNameScript.getNameOp]
  · cases hm : m.mapNameRegs name <;>
      simp [CNameMemPool.remove, CNameMemPool.removeRegistration, CNameMemPool.removeUpdate,
        CTxMemPoolEntry.isNameRegistration, CTxMemPoolEntry.isNameUpdate,
        CTxMemPoolEntry.getName, hs, CNameScript.isNameOp, CNameScript.getNameOp,
        CNameScript.getOpName, hm]
  · cases hm : m.mapNameUpdates name <;>
      simp [CNameMemPool.remove, CNameMemPool.removeRegistration, CNameMemPool.removeUpdate,
        CTxMemPoolEntry.isNameRegistration, CTxMemPoolEntry.isNameUpdate,
        CTxMemPoolEntry.getName, hs, CNameScript.isNameOp, CNameScript.getNameOp,
        CNameScript.getOpName, hm]

theorem KeysWithin_refl (m : CNameMemPool) : KeysWithin m m :=
  fun _ _ => ⟨id, id⟩

theorem KeysWithin_trans (m1 m2 m3 : CNameMemPool) (h12 : KeysWithin m1 m2)
    (h23 : KeysWithin m2 m3) : KeysWithin m1 m3 :=
  fun k t => ⟨fun h => (h23 k t).1 ((h12 k t).1 h), fun h => (h23 k t).2 ((h12 k t).2 h)⟩

theorem KeysDisjoint_of_within (m1 m : CNameMemPool) (hw : KeysWithin m1 m)
    (hd : KeysDisjoint m) : KeysDisjoint m1 := by
  intro name h
  apply hd name
  obtain ⟨h1, h2⟩ := h
  obtain ⟨t1, ht1⟩ := Option.isSome_iff_exists.mp h1
  obtain ⟨t2, ht2⟩ := Option.isSome_iff_exists.mp h2
  exact ⟨by rw [(hw name t1).1 ht1]; rfl, by rw [(hw name t2).2 ht2]; rfl⟩

theorem erase_some (mp : NameTxMap) (name k : valtype) (t : uint256)
    (h : NameTxMap.erase mp name k = some t) : mp k = some t := by
  unfold NameTxMap.erase at h
  split at h
  · simp at h
  · exact h

/-- `remove` only erases keys. -/
theorem remove_within (m m1 : CNameMemPool) (entry : CTxMemPoolEntry)
    (h : m.remove entry = some m1) : KeysWithin m1 m ∧ m1.mapNameNews = m.mapNameNews := by
  rw [remove_eq] at h
  rcases hs : entry.nameOp with a | ⟨hh, a⟩ | ⟨name, rand, value, ns, addr⟩ | ⟨name, value, addr⟩
  · simp only [hs, Option.some.injEq] at h
    subst h
    exact ⟨KeysWithin_refl m, rfl⟩
  · simp only [hs, Option.some.injEq] at h
    subst h
    exact ⟨KeysWithin_refl m, rfl⟩
  · simp only [hs] at h
    cases hm : m.mapNameRegs name with
    | none => simp [hm] at h
    | some t0 =>
      simp only [hm, Option.some.injEq] at h
      subst h
      exact ⟨fun k t => ⟨fun hk => erase_some _ _ _ _ hk, id⟩, rfl⟩
  · simp only [hs] at h
    cases hm : m.mapNameUpdates name with
    | none => simp [hm] at h
    | some t0 =>
      simp only [hm, Option.some.injEq] at h
      subst h
      exact ⟨fun k t => ⟨id, fun hk => erase_some _ _ _ _ hk⟩, rfl⟩

theorem removeEntries_within (es : List CTxMemPoolEntry) (m m1 : CNameMemPool)
    (h : CTxMemPool.removeEntries m es = some m1) : KeysWithin m1 m := by
  induction es generalizing m with
  | nil =>
    simp only [CTxMemPool.removeEntries, Option.some.injEq] at h
    subst h
    exact KeysWithin_refl m
  | cons e rest ih =>
    simp only [CTxMemPool.removeEntries] at h
    cases h1 : m.remove e with
    | none => simp [h1] at h
    | some m2 =>
      simp only [h1] at h
      exact KeysWithin_trans _ _ _ (ih m2 h) (remove_within m m2 e h1).1

theorem removeRecursive_within (pool pool1 : CTxMemPool) (tx : CTransaction)
    (removed removed1 : List CTransaction)
    (h : pool.removeRecursive tx removed = some (pool1, removed1)) :
    KeysWithin pool1.names pool.names := by
  simp only [CTxMemPool.removeRecursive] at h
  split at h
  · simp at h
  · rename_i names1 hn
    simp only [Option.some.injEq, Prod.mk.injEq] at h
    obtain ⟨h1, _⟩ := h
    subst h1
    exact removeEntries_within _ _ _ hn

theorem evictRegistration_within (pool pool1 : CTxMemPool) (name : valtype)
    (removed removed1 : List CTransaction)
    (h : CNameMemPool.evictRegistration pool name removed = some (pool1, removed1)) :
    KeysWithin pool1.names pool.names := by
  simp only [CNameMemPool.evictRegistration] at h
  split at h
  · simp only [Option.some.injEq, Prod.mk.injEq] at h
    obtain ⟨h1, _⟩ := h
    subst h1
    exact KeysWithin_refl _
  · split at h
    · simp at h
    · exact removeRecursive_within _ _ _ _ _ h

theorem removeReviveConflicts_within (names : List valtype) (pool pool1 : CTxMemPool)
    (removed removed1 : List CTransaction)
    (h : CNameMemPool.removeReviveConflicts names pool removed = some (pool1, removed1)) :
    KeysWithin pool1.names pool.names := by
  induction names generalizing pool removed with
  | nil =>
    simp only [CNameMemPool.removeReviveConflicts, Option.some.injEq, Prod.mk.injEq] at h
    obtain ⟨h1, _⟩ := h
    subst h1
    exact KeysWithin_refl _
  | cons n rest ih =>
    simp only [CNameMemPool.removeReviveConflicts] at h
    cases h1 : CNameMemPool.evictRegistration pool n removed with
    | none => simp [h1] at h
    | some r =>
      obtain ⟨p2, r2⟩ := r
      simp only [h1] at h
      exact KeysWithin_trans _ _ _ (ih p2 r2 h) (evictRegistration_within _ _ _ _ _ h1)

theorem removeConflictsOutputs_within (outs : List CTxOut) (pool pool1 : CTxMemPool)
    (removed removed1 : List CTransaction)
    (h : CNameMemPool.removeConflictsOutputs outs pool removed = some (pool1, removed1)) :
    KeysWithin pool1.names pool.names := by
  induction outs generalizing pool removed with
  | nil =>
    simp only [CNameMemPool.removeConflictsOutputs, Option.some.injEq, Prod.mk.injEq] at h
    obtain ⟨h1, _⟩ := h
    subst h1
    exact KeysWithin_refl _
  | cons o rest ih =>
    simp only [CNameMemPool.removeConflictsOutputs] at h
    split at h
    · split at h
      · simp at h
      · rename_i name hname
        cases h1 : CNameMemPool.evictRegistration pool name removed with
        | none => simp [h1] at h
        | some r =>
          obtain ⟨p2, r2⟩ := r
          simp only [h1] at h
          exact KeysWithin_trans _ _ _ (ih p2 r2 h) (evictRegistration_within _ _ _ _ _ h1)
    · exact ih pool removed h

/-- C21 (amended): the keys of pending_registrations and pending_updates are
disjoint in the empty index and stay disjoint (a) under every successful
`addUnchecked` that adds a registration only for a name that is not a key of
pending_updates and an update only for a name that is not a key of
pending_registrations, and (b) under every `remove`, `removeConflicts` and
`removeReviveConflicts`, which only erase keys. -/
theorem C21_keys_stay_disjoint :
    KeysDisjoint emptyIndex ∧
    (∀ (m m1 : CNameMemPool) (txid : uint256) (entry : CTxMemPoolEntry),
      KeysDisjoint m → m.addUnchecked txid entry = some m1 →
      (∀ (name rand value : valtype) (ns : Bool) (addr : CScript),
        entry.nameOp = .NameFirstUpdate name rand value ns addr →
        m.mapNameUpdates name = none) →
      (∀ (name value : valtype) (addr : CScript),
        entry.nameOp = .NameUpdate name value addr → m.mapNameRegs name = none) →
      KeysDisjoint m1) ∧
    (∀ (m m1 : CNameMemPool) (entry : CTxMemPoolEntry),
      KeysDisjoint m → m.remove entry = some m1 → KeysDisjoint m1) ∧
    (∀ (pool pool1 : CTxMemPool) (tx : CTransaction) (removed removed1 : List CTransaction),
      KeysDisjoint pool.names →
      CNameMemPool.removeConflicts pool tx removed = some (pool1, removed1) →
      KeysDisjoint pool1.names) ∧
    (∀ (pool pool1 : CTxMemPool) (revived : List valtype)
      (removed removed1 : List CTransaction),
      KeysDisjoint pool.names →
      CNameMemPool.removeReviveConflicts revived pool removed = some (pool1, removed1) →
      KeysDisjoint pool1.names) := by
  refine ⟨?_, ?_, ?_, ?_, ?_⟩
  · intro name h
    simp [emptyIndex] at h
  · intro m m1 txid entry hd hadd hreg hupd
    rw [addUnchecked_eq] at hadd
    rcases hs : entry.nameOp with a | ⟨hh, a⟩ | ⟨name, rand, value, ns, addr⟩ | ⟨name, value, addr⟩
    · simp only [hs, Option.some.injEq] at hadd
      subst hadd
      exact hd
    · simp only [hs] at hadd
      have hsame : m1.mapNameRegs = m.mapNameRegs ∧ m1.mapNameUpdates = m.mapNameUpdates := by
        cases hm : m.mapNameNews hh with
        | none =>
          simp only [hm, Option.some.injEq] at hadd
          subst hadd
          exact ⟨rfl, rfl⟩
        | some mapped =>
          simp only [hm] at hadd
          split at hadd
          · simp only [Option.some.injEq] at hadd
            subst hadd
            exact ⟨rfl, rfl⟩
          · simp at hadd
      intro n h
      rw [hsame.1, hsame.2] at h
      exact hd n h
    · have hu := hreg name rand value ns addr hs
      simp only [hs] at hadd
      cases hm : m.mapNameRegs name with
      | some t => simp [hm] at hadd
      | none =>
        simp only [hm, Option.some.injEq] at hadd
        subst hadd
        intro n h
        by_cases hn : n = name
        · subst hn
          simp [hu] at h
        · apply hd n
          simpa [hn] using h
    · have hr := hupd name value addr hs
      simp only [hs] at hadd
      cases hm : m.mapNameUpdates name with
      | some t => simp [hm] at hadd
      | none =>
        simp only [hm, Option.some.injEq] at hadd
        subst hadd
        intro n h
        by_cases hn : n = name
        · subst hn
          simp [hr] at h
        · apply hd n
          simpa [hn] using h
  · intro m m1 entry hd hrem
    exact KeysDisjoint_of_within m1 m (remove_within m m1 entry hrem).1 hd
  · intro pool pool1 tx removed removed1 hd h
    simp only [CNameMemPool.removeConflicts] at h
    split at h
    · simp only [Option.some.injEq, Prod.mk.injEq] at h
      obtain ⟨h1, _⟩ := h
      subst h1
      exact hd
    · exact KeysDisjoint_of_within _ _ (removeConflictsOutputs_within _ _ _ _ _ h) hd
  · intro pool pool1 revived removed removed1 hd h
    exact KeysDisjoint_of_within _ _ (removeReviveConflicts_within _ _ _ _ _ h) hd

/-- Instance of the amended C21: adding the registration of name 5 to the
empty index keeps the keys disjoint. -/
theorem C21_keys_stay_disjoint_witness :
    ∃ m1 : CNameMemPool,
      emptyIndex.addUnchecked 40 (entryOf exTxRegFive) = some m1 ∧ KeysDisjoint m1 := by
  have hsome : (emptyIndex.addUnchecked 40 (entryOf exTxRegFive)).isSome = true := by decide
  obtain ⟨m1, hm1⟩ := Option.isSome_iff_exists.mp hsome
  refine ⟨m1, hm1, C21_keys_stay_disjoint.2.1 emptyIndex m1 40 (entryOf exTxRegFive)
    C21_keys_stay_disjoint.1 hm1 (fun _ _ _ _ _ _ => rfl) (fun _ _ _ _ => rfl)⟩

/-- C21 as stated fails: from the empty index, the registration of name 5
(transaction 40) passes `checkTx` and is added, then the update of name 5
(transaction 41) passes `checkTx` and is added, and name 5 is a key of both
pending_registrations and pending_updates. -/
theorem C21_counterexample :
    ∃ m1 m2 : CNameMemPool,
      emptyIndex.checkTx exTxRegFive = some true ∧
      emptyIndex.addUnchecked exTxRegFive.GetHash (entryOf exTxRegFive) = some m1 ∧
      m1.checkTx exTxUpdFive = some true ∧
      m1.addUnchecked exTxUpdFive.GetHash (entryOf exTxUpdFive) = some m2 ∧
      m2.mapNameRegs [5] = some 40 ∧ m2.mapNameUpdates [5] = some 41 ∧
      ¬ KeysDisjoint m2 := by
  refine ⟨⟨fun _ => none, fun k => if k = [5] then some 40 else none, fun _ => none⟩,
    ⟨fun _ => none, fun k => if k = [5] then some 40 else none,
      fun k => if k = [5] then some 41 else none⟩, by decide, ?_, by decide, ?_, by decide,
    by decide, ?_⟩
  · rw [addUnchecked_eq]
    rfl
  · rw [addUnchecked_eq]
    rfl
  · intro h
    exact h [5] ⟨by decide, by decide⟩

theorem erase_inserted (name : valtype) (txid : uint256) :
    NameTxMap.erase (fun k => if k = name then some txid else none) name = fun _ => none := by
  funext k
  unfold NameTxMap.erase
  by_cases hk : k = name <;> simp [hk]

/-- C22 (amended): starting from the empty index, for every txid,
(a) for an entry that carries a NameFirstUpdate or a NameUpdate,
`addUnchecked (txid, entry)` completes and `remove (entry)` then hits none of
its presence assertions and gives back the empty index; (b) for an entry that
carries a NameNew both calls complete as well, pending_registrations and
pending_updates are empty afterwards, but the commitment hash stays mapped to
`txid` in pending_news: `remove` never erases from that map. -/
theorem C22_add_then_remove (txid : uint256) (entry : CTxMemPoolEntry) :
    ((∃ (name rand value : valtype) (ns : Bool) (addr : CScript),
        entry.nameOp = .NameFirstUpdate name rand value ns addr) ∨
      (∃ (name value : valtype) (addr : CScript), entry.nameOp = .NameUpdate name value addr) →
      ∃ m1 : CNameMemPool, emptyIndex.addUnchecked txid entry = some m1 ∧
        m1.remove entry = some emptyIndex) ∧
    (∀ (h : valtype) (addr : CScript), entry.nameOp = .NameNew h addr →
      ∃ m1 m2 : CNameMemPool, emptyIndex.addUnchecked txid entry = some m1 ∧
        m1.remove entry = some m2 ∧
        m2.mapNameNews h = some txid ∧
        (∀ k : valtype, k ≠ h → m2.mapNameNews k = none) ∧
        m2.mapNameRegs = emptyIndex.mapNameRegs ∧
        m2.mapNameUpdates = emptyIndex.mapNameUpdates) := by
  constructor
  · rintro (⟨name, rand, value, ns, addr, hs⟩ | ⟨name, value, addr, hs⟩)
    · refine ⟨⟨fun _ => none, fun k => if k = name then some txid else none, fun _ => none⟩,
        ?_, ?_⟩
      · rw [addUnchecked_eq, hs]
        rfl
      · rw [remove_eq, hs]
        simp [erase_inserted, emptyIndex]
    · refine ⟨⟨fun _ => none, fun _ => none, fun k => if k = name then some txid else none⟩,
        ?_, ?_⟩
      · rw [addUnchecked_eq, hs]
        rfl
      · rw [remove_eq, hs]
        simp [erase_inserted, emptyIndex]
  · intro h addr hs
    refine ⟨⟨fun k => if k = h then some txid else none, fun _ => none, fun _ => none⟩,
      ⟨fun k => if k = h then some txid else none, fun _ => none, fun _ => none⟩,
      ?_, ?_, by simp, fun k hk => by simp [hk], rfl, rfl⟩
    · rw [addUnchecked_eq, hs]
      rfl
    · rw [remove_eq, hs]

/-- Instance of the amended C22: the update entry of the examples added as
transaction 10 and removed again. -/
theorem C22_add_then_remove_witness :
    ∃ m1 : CNameMemPool, emptyIndex.addUnchecked 10 exEntryUpdate = some m1 ∧
      m1.remove exEntryUpdate = some emptyIndex :=
  (C22_add_then_remove 10 exEntryUpdate).1 (Or.inr ⟨[1, 2], [4], [9], rfl⟩)

/-- C22 as stated fails: starting from the empty index, adding the NameNew
entry of the examples as transaction 13 and removing it again leaves its
commitment hash mapped to 13 in pending_news. -/
theorem C22_counterexample :
    ((emptyIndex.addUnchecked 13 exEntryNew).bind (fun m1 => m1.remove exEntryNew)).map
        (fun m2 => m2.mapNameNews exRand) = some (some 13) ∧
    emptyIndex.mapNameNews exRand = none := by
  refine ⟨by decide, by decide⟩

/-! ### `name_filter` -/

theorem filterKeeps_eq (H : Int) (regexp : Option (valtype → Bool)) (maxage : Int)
    (e : valtype × CNameData) :
    filterKeeps H regexp maxage e =
      ((decide (maxage = 0) || decide (H - (e.2.height : Int) < maxage)) &&
        !regexpRejects regexp e.1) := by
  cases regexp <;> simp [filterKeeps, regexpRejects]

theorem name_filter_spec_eq (H : Int) (regexp : Option (valtype → Bool))
    (maxage fromPos nb : Int) (entries : List (valtype × CNameData)) :
    name_filter_spec H regexp maxage fromPos nb entries =
      if nb > 0 then
        ((entries.filter (filterKeeps H regexp maxage)).drop fromPos.toNat).take nb.toNat
      else (entries.filter (filterKeeps H regexp maxage)).drop fromPos.toNat := rfl

theorem spec_cons_dropped (H : Int) (regexp : Option (valtype → Bool))
    (maxage fromPos nb : Int) (e : valtype × CNameData) (rest : List (valtype × CNameData))
    (hk : filterKeeps H regexp maxage e = false) :
    name_filter_spec H regexp maxage fromPos nb (e :: rest)
      = name_filter_spec H regexp maxage fromPos nb rest := by
  simp [name_filter_spec_eq, List.filter_cons, hk]

theorem spec_cons_skipped (H : Int) (regexp : Option (valtype → Bool))
    (maxage fromPos nb : Int) (e : valtype × CNameData) (rest : List (valtype × CNameData))
    (hk : filterKeeps H regexp maxage e = true) (hpos : 0 < fromPos) :
    name_filter_spec H regexp maxage fromPos nb (e :: rest)
      = name_filter_spec H regexp maxage (fromPos - 1) nb rest := by
  have h1 : fromPos.toNat = (fromPos - 1).toNat + 1 := by omega
  rw [name_filter_spec_eq, name_filter_spec_eq, List.filter_cons, if_pos hk, h1,
    List.drop_succ_cons]

theorem spec_cons_reported (H : Int) (regexp : Option (valtype → Bool))
    (maxage nb : Int) (e : valtype × CNameData) (rest : List (valtype × CNameData))
    (hk : filterKeeps H regexp maxage e = true) (hnb : 0 ≤ nb) :
    name_filter_spec H regexp maxage 0 nb (e :: rest) =
      if nb = 1 then [e]
      else e :: name_filter_spec H regexp maxage 0 (if nb = 0 then 0 else nb - 1) rest := by
  have hz : (0 : Int).toNat = 0 := rfl
  rw [name_filter_spec_eq, name_filter_spec_eq, List.filter_cons, if_pos hk, hz,
    List.drop_zero, List.drop_zero]
  by_cases h1 : nb = 1
  · subst h1
    have : (1 : Int).toNat = 1 := rfl
    rw [if_pos (by decide), if_pos rfl, this]
    rfl
  · rw [if_neg h1]
    by_cases h0 : nb = 0
    · subst h0
      rw [if_neg (by decide), if_pos rfl, if_neg (by decide)]
    · have hpos : nb > 0 := by omega
      have hpos1 : nb - 1 > 0 := by omega
      have h2 : nb.toNat = (nb - 1).toNat + 1 := by omega
      rw [if_pos hpos, if_neg h0, if_pos hpos1, h2, List.take_succ_cons]

/-- What the loop reports, whenever it completes, is the filter-skip-limit
list appended to what was reported before. -/
theorem name_filter_loop_spec (H : Int) (regexp : Option (valtype → Bool)) (maxage : Int)
    (stats : Bool) (entries : List (valtype × CNameData)) (fromPos nb : Int) (count : Nat)
    (names : List (valtype × CNameData)) (hfrom : 0 ≤ fromPos) (hnb : 0 ≤ nb)
    (r : Nat × List (valtype × CNameData))
    (h : name_filter_loop H regexp maxage stats entries fromPos nb count names = some r) :
    r = (if stats then count + (name_filter_spec H regexp maxage fromPos nb entries).length
          else count,
        if stats then names
          else names ++ name_filter_spec H regexp maxage fromPos nb entries) := by
  induction entries generalizing fromPos nb count names with
  | nil =>
    simp only [name_filter_loop, Option.some.injEq] at h
    subst h
    cases stats <;> simp [name_filter_spec_eq]
  | cons e rest ih =>
    obtain ⟨name, data⟩ := e
    unfold name_filter_loop at h
    by_cases hage : H - (data.getHeight : Int) < 0
    · rw [if_pos hage] at h
      simp at h
    rw [if_neg hage] at h
    by_cases hold : maxage ≠ 0 ∧ H - (data.getHeight : Int) ≥ maxage
    · rw [if_pos hold] at h
      have hk : filterKeeps H regexp maxage (name, data) = false := by
        have h1 : ¬ (H - (data.height : Int) < maxage) := by
          have := hold.2
          simp only [CNameData.getHeight] at this
          omega
        rw [filterKeeps_eq]
        simp [hold.1, h1]
      rw [spec_cons_dropped H regexp maxage fromPos nb _ rest hk]
      exact ih fromPos nb count names hfrom hnb h
    rw [if_neg hold] at h
    have hageok : maxage = 0 ∨ H - (data.height : Int) < maxage := by
      by_cases hm : maxage = 0
      · exact Or.inl hm
      · right
        have : ¬ (H - (data.getHeight : Int) ≥ maxage) := fun hc => hold ⟨hm, hc⟩
        simp only [CNameData.getHeight] at this
        omega
    by_cases hre : regexpRejects regexp name = true
    · rw [if_pos hre] at h
      have hk : filterKeeps H regexp maxage (name, data) = false := by
        rw [filterKeeps_eq]
        simp [hre]
      rw [spec_cons_dropped H regexp maxage fromPos nb _ rest hk]
      exact ih fromPos nb count names hfrom hnb h
    rw [if_neg hre] at h
    have hk : filterKeeps H regexp maxage (name, data) = true := by
      rw [filterKeeps_eq]
      rcases hageok with h1 | h1 <;> simp [h1, hre]
    by_cases hskip : fromPos > 0
    · rw [if_pos hskip] at h
      rw [spec_cons_skipped H regexp maxage fromPos nb _ rest hk hskip]
      exact ih (fromPos - 1) nb count names (by omega) hnb h
    rw [if_neg hskip] at h
    have hzero : fromPos = 0 := by omega
    subst hzero
    rw [if_neg (by simp)] at h
    rw [spec_cons_reported H regexp maxage nb _ rest hk hnb]
    by_cases hpos : nb > 0
    · rw [if_pos hpos] at h
      by_cases hone : nb - 1 = 0
      · have h1 : nb = 1 := by omega
        rw [if_pos hone, Option.some.injEq] at h
        subst h
        cases stats <;> simp [h1]
      · have h1 : ¬ nb = 1 := by omega
        have h0 : ¬ nb = 0 := by omega
        rw [if_neg hone] at h
        have := ih 0 (nb - 1) _ _ (le_refl 0) (by omega) h
        rw [this, if_neg h1, if_neg h0]
        cases stats <;> simp [Nat.add_assoc, Nat.add_comm 1]
    · have h0 : nb = 0 := by omega
      subst h0
      rw [if_neg hpos] at h
      have := ih 0 0 _ _ (le_refl 0) (le_refl 0) h
      rw [this]
      cases stats <;> simp [Nat.add_assoc, Nat.add_comm 1]

/-- The loop completes when no record is younger than the chain tip. -/
theorem name_filter_loop_completes (H : Int) (regexp : Option (valtype → Bool))
    (maxage : Int) (stats : Bool) (entries : List (valtype × CNameData)) (fromPos nb : Int)
    (count : Nat) (names : List (valtype × CNameData)) (hfrom : 0 ≤ fromPos)
    (hage : ∀ e ∈ entries, (e.2.height : Int) ≤ H) :
    (name_filter_loop H regexp maxage stats entries fromPos nb count names).isSome = true := by
  induction entries generalizing fromPos nb count names with
  | nil => simp [name_filter_loop]
  | cons e rest ih =>
    obtain ⟨name, data⟩ := e
    have h1 : ¬ (H - (data.getHeight : Int) < 0) := by
      have := hage (name, data) (by simp)
      simp only [CNameData.getHeight]
      simp only at this
      omega
    have hrest : ∀ e ∈ rest, (e.2.height : Int) ≤ H := fun e he => hage e (by simp [he])
    simp only [name_filter_loop, h1, if_false]
    split
    · exact ih _ _ _ _ hfrom hrest
    · split
      · exact ih _ _ _ _ hfrom hrest
      · split
        · exact ih _ _ _ _ (by omega) hrest
        · have hz : fromPos = 0 := by omega
          subst hz
          simp only [ne_eq, not_true_eq_false, if_false]
          split
          · split
            · simp
            · exact ih _ _ _ _ (le_refl 0) hrest
          · exact ih _ _ _ _ (le_refl 0) hrest

/-- C27 (name_filter is filter, then skip, then limit): for non-negative
`maxage`, `from` and `nb`, every list of entries from the name iterator, chain
height H and optional regular expression, `name_filter` throws no parameter
error; whatever it reports is, in iteration order, the entries with (maxage =
0 or H - record.height < maxage) and (no regexp or the regexp matches the
name), with the first `from` dropped and, when nb > 0, only the first nb of
the remainder kept; in "stat" mode the count is the length of that list; and
it does report when no record is higher than the chain tip (the assertion
`age >= 0`). -/
theorem C27_name_filter_is_filter_skip_limit (H : Int) (regexp : Option (valtype → Bool))
    (maxage fromPos nb : Int) (stats : Bool) (entries : List (valtype × CNameData))
    (hmax : 0 ≤ maxage) (hfrom : 0 ≤ fromPos) (hnb : 0 ≤ nb) :
    name_filter H regexp maxage fromPos nb stats entries ≠ .rpcError ∧
    (∀ r : FilterResult, name_filter H regexp maxage fromPos nb stats entries = .result r →
      r = if stats then
            .stat H (name_filter_spec H regexp maxage fromPos nb entries).length
          else .names (name_filter_spec H regexp maxage fromPos nb entries)) ∧
    ((∀ e ∈ entries, (e.2.height : Int) ≤ H) →
      name_filter H regexp maxage fromPos nb stats entries =
        .result (if stats then
            .stat H (name_filter_spec H regexp maxage fromPos nb entries).length
          else .names (name_filter_spec H regexp maxage fromPos nb entries))) := by
  have e1 : ¬ maxage < 0 := by omega
  have e2 : ¬ fromPos < 0 := by omega
  have e3 : ¬ nb < 0 := by omega
  simp only [name_filter, e1, e2, e3, if_false]
  cases hl : name_filter_loop H regexp maxage stats entries fromPos nb 0 [] with
  | none =>
    refine ⟨by simp, by simp, ?_⟩
    intro hage
    have := name_filter_loop_completes H regexp maxage stats entries fromPos nb 0 [] hfrom hage
    rw [hl] at this
    simp at this
  | some r =>
    have hr := name_filter_loop_spec H regexp maxage stats entries fromPos nb 0 [] hfrom hnb r hl
    obtain ⟨c, ns⟩ := r
    cases stats with
    | true =>
      simp only [if_true, Prod.mk.injEq, Nat.zero_add] at hr
      obtain ⟨hc, _⟩ := hr
      subst hc
      simp
    | false =>
      simp only [Bool.false_eq_true, if_false, Prod.mk.injEq, List.nil_append] at hr
      obtain ⟨_, hn⟩ := hr
      subst hn
      simp

/-- Instance of C27 at chain height 10 with maxage 7, from 1 and nb 2: the
records at heights 4, 6, 8, 9 are young enough, the regular expression drops
name 3, the first remaining entry is skipped and two are kept. -/
theorem C27_name_filter_is_filter_skip_limit_witness :
    name_filter 10 (some exRegexp) 7 1 2 false exEntries =
      .result (.names [([4], ⟨[], 8, ⟨0, 0⟩, [], false⟩), ([5], ⟨[], 9, ⟨0, 0⟩, [], false⟩)]) ∧
    name_filter 10 (some exRegexp) 7 1 2 true exEntries = .result (.stat 10 2) := by
  have h1 := (C27_name_filter_is_filter_skip_limit 10 (some exRegexp) 7 1 2 false exEntries
    (by decide) (by decide) (by decide)).2.2 (by decide)
  have h2 := (C27_name_filter_is_filter_skip_limit 10 (some exRegexp) 7 1 2 true exEntries
    (by decide) (by decide) (by decide)).2.2 (by decide)
  refine ⟨h1.trans ?_, h2.trans ?_⟩
  · decide
  · decide

/-! ### Eviction from the pool -/

theorem stageStep_subset (mapTx : List CTxMemPoolEntry) (S : List uint256) (h : uint256)
    (hh : h ∈ S) : h ∈ CTxMemPool.stageStep mapTx S := by
  simp [CTxMemPool.stageStep, hh]

theorem stageStep_sound (mapTx : List CTxMemPoolEntry) (S : List uint256) (root : uint256)
    (hS : ∀ h ∈ S, Descends mapTx h root) :
    ∀ h ∈ CTxMemPool.stageStep mapTx S, Descends mapTx h root := by
  intro h hh
  simp only [CTxMemPool.stageStep, List.mem_append, List.mem_map, List.mem_filter,
    Bool.and_eq_true, decide_eq_true_eq, List.any_eq_true] at hh
  rcases hh with hh | ⟨e, ⟨he, _, p, hp, hsp⟩, rfl⟩
  · exact hS h hh
  · exact Descends.step e p root he hsp (hS p hp)

theorem iterate_stage_root (mapTx : List CTxMemPoolEntry) (n : Nat) (S : List uint256)
    (h : uint256) (hh : h ∈ S) : h ∈ Nat.iterate (CTxMemPool.stageStep mapTx) n S := by
  induction n generalizing S with
  | zero => exact hh
  | succ k ih => exact ih _ (stageStep_subset mapTx S h hh)

theorem iterate_stage_sound (mapTx : List CTxMemPoolEntry) (n : Nat) (S : List uint256)
    (root : uint256) (hS : ∀ h ∈ S, Descends mapTx h root) :
    ∀ h ∈ Nat.iterate (CTxMemPool.stageStep mapTx) n S, Descends mapTx h root := by
  induction n generalizing S with
  | zero => exact hS
  | succ k ih => exact ih _ (stageStep_sound mapTx S root hS)

/-- The root is staged. -/
theorem stagedFor_root (mapTx : List CTxMemPoolEntry) (root : uint256) :
    root ∈ CTxMemPool.stagedFor mapTx root :=
  iterate_stage_root mapTx _ _ root (by simp)

/-- Whatever is staged is the root or descends from it. -/
theorem stagedFor_sound (mapTx : List CTxMemPoolEntry) (root h : uint256)
    (hh : h ∈ CTxMemPool.stagedFor mapTx root) : Descends mapTx h root :=
  iterate_stage_sound mapTx _ _ root
    (fun x hx => by
      simp only [List.mem_singleton] at hx
      subst hx
      exact Descends.self x) h hh

theorem Descends_mono (l1 l2 : List CTxMemPoolEntry) (hsub : ∀ e ∈ l1, e ∈ l2)
    (c root : uint256) (h : Descends l1 c root) : Descends l2 c root := by
  induction h with
  | self r => exact Descends.self r
  | step e parent r he hsp _ ih => exact Descends.step e parent r (hsub e he) hsp ih

theorem Registers_iff (e : CTxMemPoolEntry) (name : valtype) :
    Registers e name ↔ ∃ (rand value : valtype) (ns : Bool) (addr : CScript),
      e.nameOp = .NameFirstUpdate name rand value ns addr := Iff.rfl

/-- Removing a list of entries whose keys are present and pairwise different
completes; it erases exactly their keys. -/
theorem removeEntries_spec (gone : List CTxMemPoolEntry) (m : CNameMemPool)
    (hreg : ∀ e ∈ gone, ∀ name : valtype, Registers e name →
      (m.mapNameRegs name).isSome = true)
    (hupd : ∀ e ∈ gone, ∀ name : valtype, Updates e name →
      (m.mapNameUpdates name).isSome = true)
    (hpair : gone.Pairwise (fun a b => ∀ name : valtype,
      ¬ (Registers a name ∧ Registers b name) ∧ ¬ (Updates a name ∧ Updates b name))) :
    ∃ m1 : CNameMemPool, CTxMemPool.removeEntries m gone = some m1 ∧
      m1.mapNameNews = m.mapNameNews ∧
      (∀ e ∈ gone, ∀ name : valtype, Registers e name → m1.mapNameRegs name = none) ∧
      (∀ name : valtype, (∀ e ∈ gone, ¬ Registers e name) →
        m1.mapNameRegs name = m.mapNameRegs name) ∧
      (∀ name : valtype, (∀ e ∈ gone, ¬ Updates e name) →
        m1.mapNameUpdates name = m.mapNameUpdates name) := by
  induction gone generalizing m with
  | nil => exact ⟨m, rfl, rfl, by simp, fun _ _ => rfl, fun _ _ => rfl⟩
  | cons e rest ih =>
    obtain ⟨hhead, htail⟩ := List.pairwise_cons.mp hpair
    simp only [CTxMemPool.removeEntries]
    rw [remove_eq]
    rcases hs : e.nameOp with a | ⟨hh, a⟩ | ⟨name, rand, value, ns, addr⟩ | ⟨name, value, addr⟩
    · have hnr : ∀ k, ¬ Registers e k := by
        intro k ⟨_, _, _, _, hk⟩; rw [hs] at hk; cases hk
      have hnu : ∀ k, ¬ Updates e k := by
        intro k ⟨_, _, hk⟩; rw [hs] at hk; cases hk
      obtain ⟨m1, h1, h2, h3, h4, h5⟩ := ih m
        (fun x hx => hreg x (by simp [hx])) (fun x hx => hupd x (by simp [hx])) htail
      refine ⟨m1, h1, h2, ?_, ?_, ?_⟩
      · intro x hx k hk
        rcases List.mem_cons.mp hx with rfl | hx
        · exact absurd hk (hnr k)
        · exact h3 x hx k hk
      · intro k hk
        exact h4 k (fun x hx => hk x (by simp [hx]))
      · intro k hk
        exact h5 k (fun x hx => hk x (by simp [hx]))
    · have hnr : ∀ k, ¬ Registers e k := by
        intro k ⟨_, _, _, _, hk⟩; rw [hs] at hk; cases hk
      have hnu : ∀ k, ¬ Updates e k := by
        intro k ⟨_, _, hk⟩; rw [hs] at hk; cases hk
      obtain ⟨m1, h1, h2, h3, h4, h5⟩ := ih m
        (fun x hx => hreg x (by simp [hx])) (fun x hx => hupd x (by simp [hx])) htail
      refine ⟨m1, h1, h2, ?_, ?_, ?_⟩
      · intro x hx k hk
        rcases List.mem_cons.mp hx with rfl | hx
        · exact absurd hk (hnr k)
        · exact h3 x hx k hk
      · intro k hk
        exact h4 k (fun x hx => hk x (by simp [hx]))
      · intro k hk
        exact h5 k (fun x hx => hk x (by simp [hx]))
    · have her : Registers e name := ⟨rand, value, ns, addr, hs⟩
      have hnu : ∀ k, ¬ Updates e k := by
        intro k ⟨_, _, hk⟩; rw [hs] at hk; cases hk
      have hreg_iff : ∀ k, Registers e k → k = name := by
        intro k ⟨_, _, _, _, hk⟩; rw [hs] at hk; cases hk; rfl
      obtain ⟨t0, ht0⟩ := Option.isSome_iff_exists.mp (hreg e (by simp) name her)
      simp only [ht0]
      have hrest_no : ∀ x ∈ rest, ¬ Registers x name :=
        fun x hx hxr => (hhead x hx name).1 ⟨her, hxr⟩
      obtain ⟨m1, h1, h2, h3, h4, h5⟩ :=
        ih { m with mapNameRegs := NameTxMap.erase m.mapNameRegs name }
          (fun x hx k hk => by
            have hne : k ≠ name := fun hc => hrest_no x hx (hc ▸ hk)
            have := hreg x (by simp [hx]) k hk
            simpa [NameTxMap.erase, hne] using this)
          (fun x hx k hk => hupd x (by simp [hx]) k hk) htail
      refine ⟨m1, h1, h2, ?_, ?_, ?_⟩
      · intro x hx k hk
        rcases List.mem_cons.mp hx with rfl | hx
        · have hkn := hreg_iff k hk
          subst hkn
          rw [h4 k hrest_no]
          simp [NameTxMap.erase]
        · exact h3 x hx k hk
      · intro k hk
        have hne : k ≠ name := fun hc => hk e (by simp) (hc ▸ her)
        rw [h4 k (fun x hx => hk x (by simp [hx]))]
        simp [NameTxMap.erase, hne]
      · intro k hk
        exact h5 k (fun x hx => hk x (by simp [hx]))
    · have heu : Updates e name := ⟨value, addr, hs⟩
      have hnr : ∀ k, ¬ Registers e k := by
        intro k ⟨_, _, _, _, hk⟩; rw [hs] at hk; cases hk
      have hupd_iff : ∀ k, Updates e k → k = name := by
        intro k ⟨_, _, hk⟩; rw [hs] at hk; cases hk; rfl
      obtain ⟨t0, ht0⟩ := Option.isSome_iff_exists.mp (hupd e (by simp) name heu)
      simp only [ht0]
      have hrest_no : ∀ x ∈ rest, ¬ Updates x name :=
        fun x hx hxr => (hhead x hx name).2 ⟨heu, hxr⟩
      obtain ⟨m1, h1, h2, h3, h4, h5⟩ :=
        ih { m with mapNameUpdates := NameTxMap.erase m.mapNameUpdates name }
          (fun x hx k hk => hreg x (by simp [hx]) k hk)
          (fun x hx k hk => by
            have hne : k ≠ name := fun hc => hrest_no x hx (hc ▸ hk)
            have := hupd x (by simp [hx]) k hk
            simpa [NameTxMap.erase, hne] using this) htail
      refine ⟨m1, h1, h2, ?_, ?_, ?_⟩
      · intro x hx k hk
        rcases List.mem_cons.mp hx with rfl | hx
        · exact absurd hk (hnr k)
        · exact h3 x hx k hk
      · intro k hk
        exact h4 k (fun x hx => hk x (by simp [hx]))
      · intro k hk
        have hne : k ≠ name := fun hc => hk e (by simp) (hc ▸ heu)
        rw [h5 k (fun x hx => hk x (by simp [hx]))]
        simp [NameTxMap.erase, hne]

/-- In a consistent pool two different positions never carry the same
registration or the same update. -/
theorem PoolConsistent_pairwise (pool : CTxMemPool) (hc : PoolConsistent pool) :
    pool.mapTx.Pairwise (fun a b => ∀ name : valtype,
      ¬ (Registers a name ∧ Registers b name) ∧ ¬ (Updates a name ∧ Updates b name)) := by
  have hnd : pool.mapTx.Pairwise (fun a b => a.tx.GetHash ≠ b.tx.GetHash) :=
    List.pairwise_map.mp hc.hashes_nodup
  refine List.Pairwise.imp_of_mem ?_ hnd
  intro a b ha hb hne name
  constructor
  · rintro ⟨h1, h2⟩
    have e1 := hc.regs_indexed a ha name h1
    have e2 := hc.regs_indexed b hb name h2
    rw [e1] at e2
    exact hne (Option.some.inj e2)
  · rintro ⟨h1, h2⟩
    have e1 := hc.updates_indexed a ha name h1
    have e2 := hc.updates_indexed b hb name h2
    rw [e1] at e2
    exact hne (Option.some.inj e2)

/-- In a consistent pool `removeRecursive` completes: the staged entries leave
the pool and are reported, their keys leave the index, and the pool stays
consistent. -/
theorem removeRecursive_spec (pool : CTxMemPool) (tx : CTransaction)
    (removed : List CTransaction) (hc : PoolConsistent pool) :
    ∃ (pool1 : CTxMemPool) (gone : List CTransaction),
      pool.removeRecursive tx removed = some (pool1, removed ++ gone) ∧
      PoolConsistent pool1 ∧
      KeysWithin pool1.names pool.names ∧
      pool1.names.mapNameNews = pool.names.mapNameNews ∧
      (∀ e ∈ pool1.mapTx, e ∈ pool.mapTx) ∧
      (∀ e ∈ pool.mapTx, e ∉ pool1.mapTx →
        e.tx ∈ gone ∧ Descends pool.mapTx e.tx.GetHash tx.GetHash) ∧
      (∀ e ∈ pool.mapTx, e.tx.GetHash = tx.GetHash → e ∉ pool1.mapTx) := by
  have hgone_mem : ∀ e, e ∈ pool.mapTx.filter
      (fun e => decide (e.tx.GetHash ∈ CTxMemPool.stagedFor pool.mapTx tx.GetHash)) ↔
      e ∈ pool.mapTx ∧ e.tx.GetHash ∈ CTxMemPool.stagedFor pool.mapTx tx.GetHash := by
    intro e; simp [List.mem_filter]
  have hkeep_mem : ∀ e, e ∈ pool.mapTx.filter
      (fun e => !decide (e.tx.GetHash ∈ CTxMemPool.stagedFor pool.mapTx tx.GetHash)) ↔
      e ∈ pool.mapTx ∧ e.tx.GetHash ∉ CTxMemPool.stagedFor pool.mapTx tx.GetHash := by
    intro e; simp [List.mem_filter]
  obtain ⟨m1, h1, h2, h3, h4, h5⟩ := removeEntries_spec
    (pool.mapTx.filter
      (fun e => decide (e.tx.GetHash ∈ CTxMemPool.stagedFor pool.mapTx tx.GetHash)))
    pool.names
    (fun e he name hr => by
      rw [hc.regs_indexed e ((hgone_mem e).mp he).1 name hr]; rfl)
    (fun e he name hu => by
      rw [hc.updates_indexed e ((hgone_mem e).mp he).1 name hu]; rfl)
    ((PoolConsistent_pairwise pool hc).filter _)
  refine ⟨⟨pool.mapTx.filter
      (fun e => !decide (e.tx.GetHash ∈ CTxMemPool.stagedFor pool.mapTx tx.GetHash)), m1⟩,
    (pool.mapTx.filter
      (fun e => decide (e.tx.GetHash ∈ CTxMemPool.stagedFor pool.mapTx tx.GetHash))).map
        (fun e => e.tx), ?_, ?_, removeEntries_within _ _ _ h1, h2, ?_, ?_, ?_⟩
  · simp only [CTxMemPool.removeRecursive, h1]
  · refine ⟨?_, ?_, ?_, ?_⟩
    · exact List.Nodup.sublist ((List.filter_sublist _).map _) hc.hashes_nodup
    · intro name txid hreg
      have hno : ∀ g ∈ pool.mapTx.filter
          (fun e => decide (e.tx.GetHash ∈ CTxMemPool.stagedFor pool.mapTx tx.GetHash)),
          ¬ Registers g name := by
        intro g hg hgr
        have := h3 g hg name hgr
        simp only at hreg
        rw [this] at hreg
        simp at hreg
      have hreg0 : pool.names.mapNameRegs name = some txid := by
        have := h4 name hno
        simp only at hreg
        rw [this] at hreg
        exact hreg
      obtain ⟨e, he, heh, her⟩ := hc.regs_point name txid hreg0
      refine ⟨e, (hkeep_mem e).mpr ⟨he, fun hst => hno e ((hgone_mem e).mpr ⟨he, hst⟩) her⟩,
        heh, her⟩
    · intro e he name her
      obtain ⟨hin, hns⟩ := (hkeep_mem e).mp he
      have hno : ∀ g ∈ pool.mapTx.filter
          (fun e => decide (e.tx.GetHash ∈ CTxMemPool.stagedFor pool.mapTx tx.GetHash)),
          ¬ Registers g name := by
        intro g hg hgr
        obtain ⟨hgin, hgs⟩ := (hgone_mem g).mp hg
        have e1 := hc.regs_indexed g hgin name hgr
        have e2 := hc.regs_indexed e hin name her
        rw [e1] at e2
        rw [← Option.some.inj e2] at hns
        exact hns hgs
      show m1.mapNameRegs name = some e.tx.GetHash
      rw [h4 name hno]
      exact hc.regs_indexed e hin name her
    · intro e he name heu
      obtain ⟨hin, hns⟩ := (hkeep_mem e).mp he
      have hno : ∀ g ∈ pool.mapTx.filter
          (fun e => decide (e.tx.GetHash ∈ CTxMemPool.stagedFor pool.mapTx tx.GetHash)),
          ¬ Updates g name := by
        intro g hg hgu
        obtain ⟨hgin, hgs⟩ := (hgone_mem g).mp hg
        have e1 := hc.updates_indexed g hgin name hgu
        have e2 := hc.updates_indexed e hin name heu
        rw [e1] at e2
        rw [← Option.some.inj e2] at hns
        exact hns hgs
      show m1.mapNameUpdates name = some e.tx.GetHash
      rw [h5 name hno]
      exact hc.updates_indexed e hin name heu
  · intro e he
    exact ((hkeep_mem e).mp he).1
  · intro e he hnot
    have hst : e.tx.GetHash ∈ CTxMemPool.stagedFor pool.mapTx tx.GetHash := by
      by_contra hns
      exact hnot ((hkeep_mem e).mpr ⟨he, hns⟩)
    refine ⟨List.mem_map.mpr ⟨e, (hgone_mem e).mpr ⟨he, hst⟩, rfl⟩,
      stagedFor_sound _ _ _ hst⟩
  · intro e _ heq hin
    have := ((hkeep_mem e).mp hin).2
    rw [heq] at this
    exact this (stagedFor_root _ _)

/-- In a consistent pool the shared body of the two eviction loops completes:
the pending registration of `name`, if there is one, leaves the pool together
with its descendants, and nothing else does. -/
theorem evictRegistration_spec (pool : CTxMemPool) (name : valtype)
    (removed : List CTransaction) (hc : PoolConsistent pool) :
    ∃ (pool1 : CTxMemPool) (gone : List CTransaction),
      CNameMemPool.evictRegistration pool name removed = some (pool1, removed ++ gone) ∧
      PoolConsistent pool1 ∧
      KeysWithin pool1.names pool.names ∧
      pool1.names.mapNameNews = pool.names.mapNameNews ∧
      pool1.names.mapNameRegs name = none ∧
      (∀ e ∈ pool1.mapTx, e ∈ pool.mapTx) ∧
      (∀ e ∈ pool.mapTx, e ∉ pool1.mapTx →
        e.tx ∈ gone ∧ ∃ txid, pool.names.mapNameRegs name = some txid ∧
          Descends pool.mapTx e.tx.GetHash txid) := by
  cases h : pool.names.mapNameRegs name with
  | none =>
    refine ⟨pool, [], ?_, hc, KeysWithin_refl _, rfl, h, fun e he => he, ?_⟩
    · simp only [CNameMemPool.evictRegistration, h, List.append_nil]
    · intro e he hne
      exact absurd he hne
  | some txid =>
    obtain ⟨e0, he0, hh0, _⟩ := hc.regs_point name txid h
    cases hf : pool.find txid with
    | none =>
      exfalso
      have := List.find?_eq_none.mp hf e0 he0
      simp [hh0] at this
    | some entry =>
      have hent : entry.tx.GetHash = txid := by
        have := List.find?_some hf
        simpa using this
      obtain ⟨pool1, gone, h1, h2, h3, h4, h5, h6, h7⟩ :=
        removeRecursive_spec pool entry.tx removed hc
      refine ⟨pool1, gone, ?_, h2, h3, h4, ?_, h5, ?_⟩
      · simp only [CNameMemPool.evictRegistration, h, hf, h1]
      · cases hr : pool1.names.mapNameRegs name with
        | none => rfl
        | some t =>
          exfalso
          have ht : pool.names.mapNameRegs name = some t := (h3 name t).1 hr
          rw [h] at ht
          have htt : txid = t := Option.some.inj ht
          obtain ⟨e1, he1, hh1, _⟩ := h2.regs_point name t hr
          exact h7 e1 (h5 e1 he1) (by rw [hh1, hent, htt]) he1
      · intro e he hne
        obtain ⟨hg, hd⟩ := h6 e he hne
        exact ⟨hg, txid, rfl, by rw [← hent]; exact hd⟩

/-- In a consistent pool the loop of `removeReviveConflicts` completes: no
listed name is a registration key afterwards, the pending registrations of
the listed names have left the pool and are reported, and every entry that
left descends from one of them. -/
theorem removeReviveConflicts_spec (names : List valtype) :
    ∀ (pool : CTxMemPool) (removed : List CTransaction), PoolConsistent pool →
    ∃ (pool1 : CTxMemPool) (gone : List CTransaction),
      CNameMemPool.removeReviveConflicts names pool removed = some (pool1, removed ++ gone) ∧
      PoolConsistent pool1 ∧
      KeysWithin pool1.names pool.names ∧
      pool1.names.mapNameNews = pool.names.mapNameNews ∧
      (∀ n ∈ names, pool1.names.mapNameRegs n = none) ∧
      (∀ e ∈ pool1.mapTx, e ∈ pool.mapTx) ∧
      (∀ e ∈ pool.mapTx, e ∉ pool1.mapTx →
        e.tx ∈ gone ∧ ∃ n ∈ names, ∃ txid, pool.names.mapNameRegs n = some txid ∧
          Descends pool.mapTx e.tx.GetHash txid) ∧
      (∀ e ∈ pool.mapTx, ∀ n ∈ names, pool.names.mapNameRegs n = some e.tx.GetHash →
        e ∉ pool1.mapTx) := by
  induction names with
  | nil =>
    intro pool removed hc
    refine ⟨pool, [], ?_, hc, KeysWithin_refl _, rfl, ?_, fun e he => he, ?_, ?_⟩
    · simp only [CNameMemPool.removeReviveConflicts, List.append_nil]
    · intro n hn; cases hn
    · intro e he hne; exact absurd he hne
    · intro e _ n hn; cases hn
  | cons name rest ih =>
    intro pool removed hc
    obtain ⟨poolA, goneA, a1, a2, a3, a4, a5, a6, a7⟩ :=
      evictRegistration_spec pool name removed hc
    obtain ⟨pool1, goneB, b1, b2, b3, b4, b5, b6, b7, b8⟩ := ih poolA (removed ++ goneA) a2
    have hgone : ∀ e ∈ pool.mapTx, e ∉ pool1.mapTx →
        e.tx ∈ goneA ++ goneB ∧ ∃ n ∈ name :: rest, ∃ txid,
          pool.names.mapNameRegs n = some txid ∧ Descends pool.mapTx e.tx.GetHash txid := by
      intro e he hne
      by_cases hA : e ∈ poolA.mapTx
      · obtain ⟨hg, n, hn, txid, hreg, hd⟩ := b7 e hA hne
        exact ⟨List.mem_append_right _ hg, n, List.mem_cons_of_mem _ hn, txid,
          (a3 n txid).1 hreg, Descends_mono _ _ a6 _ _ hd⟩
      · obtain ⟨hg, txid, hreg, hd⟩ := a7 e he hA
        exact ⟨List.mem_append_left _ hg, name, List.mem_cons_self _ _, txid, hreg, hd⟩
    refine ⟨pool1, goneA ++ goneB, ?_, b2, KeysWithin_trans _ _ _ b3 a3, by rw [b4, a4], ?_,
      fun e he => a6 e (b6 e he), hgone, ?_⟩
    · simp only [CNameMemPool.removeReviveConflicts, a1, b1, List.append_assoc]
    · intro n hn
      rcases List.mem_cons.mp hn with hn | hn
      · subst hn
        cases hr : pool1.names.mapNameRegs n with
        | none => rfl
        | some t =>
          have := (b3 n t).1 hr
          rw [a5] at this
          cases this
      · exact b5 n hn
    · intro e he n hn hreg hin1
      have hinA : e ∈ poolA.mapTx := b6 e hin1
      obtain ⟨e1, he1, hh1, hr1⟩ := hc.regs_point n e.tx.GetHash hreg
      have heq : e1 = e := List.inj_on_of_nodup_map hc.hashes_nodup he1 he hh1
      subst heq
      have hregA : poolA.names.mapNameRegs n = some e1.tx.GetHash :=
        a2.regs_indexed e1 hinA n hr1
      rcases List.mem_cons.mp hn with hn | hn
      · subst hn
        rw [a5] at hregA
        cases hregA
      · exact b8 e1 hinA n hn hregA hin1

/-- The loop over the outputs in `removeConflicts` is the loop of
`removeReviveConflicts` over the names of the `NameFirstUpdate` outputs. -/
theorem removeConflictsOutputs_eq (outs : List CTxOut) :
    ∀ (pool : CTxMemPool) (removed : List CTransaction),
    CNameMemPool.removeConflictsOutputs outs pool removed =
      CNameMemPool.removeReviveConflicts (firstUpdateNames outs) pool removed := by
  induction outs with
  | nil => intro pool removed; rfl
  | cons o rest ih =>
    intro pool removed
    cases hs : o.scriptPubKey <;>
      simp [CNameMemPool.removeConflictsOutputs, firstUpdateNames, hs, CNameScript.isNameOp,
        CNameScript.getNameOp, CNameScript.getOpName, CNameMemPool.removeReviveConflicts] <;>
      first
        | exact ih pool removed
        | (simp only [firstUpdateNames] at ih
           cases CNameMemPool.evictRegistration pool _ removed with
           | none => rfl
           | some r => exact ih r.1 r.2)

/-- The example pool is consistent. -/
theorem exTxPool_consistent : PoolConsistent exTxPool := by
  refine ⟨by decide, ?_, ?_, ?_⟩
  · intro name txid h
    simp only [exTxPool] at h
    split at h
    · rename_i hn
      subst hn
      cases h
      exact ⟨exEntryReg31, by simp [exTxPool], rfl, [], [6], true, [9], rfl⟩
    · cases h
  · intro e he name hr
    obtain ⟨rand, value, ns, addr, hop⟩ := hr
    simp only [exTxPool, List.mem_cons, List.mem_singleton, List.not_mem_nil, or_false] at he
    rcases he with he | he | he <;> subst he
    · simp only [exEntryReg31] at hop
      cases hop
      rfl
    · simp only [exEntryUpd32] at hop
      cases hop
    · simp only [exEntryChild33] at hop
      cases hop
  · intro e he name hu
    obtain ⟨value, addr, hop⟩ := hu
    simp only [exTxPool, List.mem_cons, List.mem_singleton, List.not_mem_nil, or_false] at he
    rcases he with he | he | he <;> subst he
    · simp only [exEntryReg31] at hop
      cases hop
    · simp only [exEntryUpd32] at hop
      cases hop
      rfl
    · simp only [exEntryChild33] at hop
      cases hop

/-! ## C23: eviction of conflicting registrations -/

/-- C23: in a pool whose name index is consistent with its transactions, for
a Namecoin-flagged block transaction `removeConflicts` completes, appends to
the removed list, and afterwards no name carried by a `NameFirstUpdate`
output of the transaction is a key of pending_registrations, each pool
transaction that was mapped to such a name is out of the pool and in the
appended part of the removed list, every pool transaction that neither
collides nor descends from a colliding one is still in the pool, and the pool
is still consistent; for a block transaction without the Namecoin flag the
pool, the index and the removed list are unchanged. -/
theorem C23_removeConflicts_evicts_registrations (pool : CTxMemPool) (tx : CTransaction)
    (removed : List CTransaction) (hc : PoolConsistent pool) :
    (tx.IsNamecoin = true →
      ∃ (pool1 : CTxMemPool) (gone : List CTransaction),
        CNameMemPool.removeConflicts pool tx removed = some (pool1, removed ++ gone) ∧
        (∀ n ∈ firstUpdateNames tx.vout, pool1.names.mapNameRegs n = none) ∧
        (∀ e ∈ pool.mapTx, ∀ n ∈ firstUpdateNames tx.vout,
          pool.names.mapNameRegs n = some e.tx.GetHash → e ∉ pool1.mapTx ∧ e.tx ∈ gone) ∧
        (∀ e ∈ pool.mapTx,
          (∀ n ∈ firstUpdateNames tx.vout, ∀ txid, pool.names.mapNameRegs n = some txid →
            ¬ Descends pool.mapTx e.tx.GetHash txid) → e ∈ pool1.mapTx) ∧
        PoolConsistent pool1) ∧
    (tx.IsNamecoin = false →
      CNameMemPool.removeConflicts pool tx removed = some (pool, removed)) := by
  constructor
  · intro hn
    obtain ⟨pool1, gone, h1, h2, _, _, h5, _, h7, h8⟩ :=
      removeReviveConflicts_spec (firstUpdateNames tx.vout) pool removed hc
    refine ⟨pool1, gone, ?_, h5, ?_, ?_, h2⟩
    · simp only [CNameMemPool.removeConflicts, hn, Bool.not_true, Bool.false_eq_true,
        if_false, removeConflictsOutputs_eq, h1]
    · intro e he n hnm hreg
      have hout := h8 e he n hnm hreg
      exact ⟨hout, (h7 e he hout).1⟩
    · intro e he hfree
      by_contra hout
      obtain ⟨_, n, hnm, txid, hreg, hd⟩ := h7 e he hout
      exact hfree n hnm txid hreg hd
  · intro hn
    simp only [CNameMemPool.removeConflicts, hn, Bool.not_false, if_true]

/-- C23 at the example pool: the block transaction 40 registers name 5, whose
pending registration is pool transaction 31; afterwards name 5 is not a key
of pending_registrations, transaction 31 is out of the pool and reported, and
the pending update 32 is still in the pool. -/
theorem C23_removeConflicts_evicts_registrations_witness :
    PoolConsistent exTxPool ∧ exTxRegFive.IsNamecoin = true ∧
    ∃ (pool1 : CTxMemPool) (gone : List CTransaction),
      CNameMemPool.removeConflicts exTxPool exTxRegFive [] = some (pool1, [] ++ gone) ∧
      pool1.names.mapNameRegs [5] = none ∧
      exEntryReg31 ∉ pool1.mapTx ∧ exEntryReg31.tx ∈ gone := by
  refine ⟨exTxPool_consistent, rfl, ?_⟩
  obtain ⟨pool1, gone, h1, h2, h3, _, _⟩ :=
    (C23_removeConflicts_evicts_registrations exTxPool exTxRegFive [] exTxPool_consistent).1 rfl
  have hmem : ([5] : valtype) ∈ firstUpdateNames exTxRegFive.vout := by decide
  have h31 := h3 exEntryReg31 (by simp [exTxPool]) [5] hmem rfl
  exact ⟨pool1, gone, h1, h2 [5] hmem, h31.1, h31.2⟩

/-! ## C24: eviction by `removeReviveConflicts` -/

/-- C24 as stated fails: in the consistent example pool, transaction 32 is the
pending update of name 1,2 and that name is a key of pending_updates;
`removeReviveConflicts` for the set with that one name leaves the pool and the
index as they were and reports nothing, so transaction 32 is still in the pool
and the name is still a key of pending_updates. -/
theorem C24_counterexample :
    PoolConsistent exTxPool ∧ exEntryUpd32 ∈ exTxPool.mapTx ∧ Updates exEntryUpd32 [1, 2] ∧
    exTxPool.names.mapNameUpdates [1, 2] = some exEntryUpd32.tx.GetHash ∧
    ∃ (pool1 : CTxMemPool) (removed1 : List CTransaction),
      CNameMemPool.removeReviveConflicts [[1, 2]] exTxPool [] = some (pool1, removed1) ∧
      exEntryUpd32 ∈ pool1.mapTx ∧ removed1 = [] ∧
      pool1.names.mapNameUpdates [1, 2] = some exEntryUpd32.tx.GetHash := by
  refine ⟨exTxPool_consistent, by simp [exTxPool], ⟨[4], [9], rfl⟩, rfl, exTxPool, [], rfl,
    by simp [exTxPool], rfl, rfl⟩

/-- C24 (amended): for every list of names passed to `removeReviveConflicts`
and every consistent pool, the call completes and appends to the removed
list; each pool transaction that is the pending registration of one of those
names (the name is a key of pending_registrations, mapped to it) is out of
the pool afterwards and in the appended part of the removed list, and
afterwards none of those names is a key of pending_registrations. -/
theorem C24_removeReviveConflicts_evicts_registrations (revived : List valtype)
    (pool : CTxMemPool) (removed : List CTransaction) (hc : PoolConsistent pool) :
    ∃ (pool1 : CTxMemPool) (gone : List CTransaction),
      CNameMemPool.removeReviveConflicts revived pool removed = some (pool1, removed ++ gone) ∧
      (∀ e ∈ pool.mapTx, ∀ n ∈ revived,
        pool.names.mapNameRegs n = some e.tx.GetHash → e ∉ pool1.mapTx ∧ e.tx ∈ gone) ∧
      (∀ n ∈ revived, pool1.names.mapNameRegs n = none) := by
  obtain ⟨pool1, gone, h1, _, _, _, h5, _, h7, h8⟩ :=
    removeReviveConflicts_spec revived pool removed hc
  refine ⟨pool1, gone, h1, ?_, h5⟩
  intro e he n hnm hreg
  have hout := h8 e he n hnm hreg
  exact ⟨hout, (h7 e he hout).1⟩

/-- C24 (amended) at the example pool: for the set with the names 1,2 and 5,
the pending registration 31 of name 5 is out of the pool and reported, and
name 5 is not a key of pending_registrations. -/
theorem C24_removeReviveConflicts_evicts_registrations_witness :
    PoolConsistent exTxPool ∧
    ∃ (pool1 : CTxMemPool) (gone : List CTransaction),
      CNameMemPool.removeReviveConflicts [[1, 2], [5]] exTxPool [] = some (pool1, [] ++ gone) ∧
      exEntryReg31 ∉ pool1.mapTx ∧ exEntryReg31.tx ∈ gone ∧
      pool1.names.mapNameRegs [5] = none := by
  refine ⟨exTxPool_consistent, ?_⟩
  obtain ⟨pool1, gone, h1, h2, h3⟩ :=
    C24_removeReviveConflicts_evicts_registrations [[1, 2], [5]] exTxPool []
      exTxPool_consistent
  have h31 := h2 exEntryReg31 (by simp [exTxPool]) [5] (by simp) rfl
  exact ⟨pool1, gone, h1, h31.1, h31.2, h3 [5] (by simp)⟩

end Names
